import Mathlib

/-!
# sjpeg: quick JPEG inspection tools (`src/jpeg_tools.cc`)

A shallow embedding of the marker scanner, the dimension extractor, the
quantizer locator, the quality/matrix codec and the riskiness scorer, followed
by the properties established about them.

Conventions of the embedding.

* A `uint8_t` is a `Byte` (`Fin 256`); a `uint8_t[64]` matrix is a function
  `Fin 64 → Byte`.
* A pointer into the caller's buffer is the offset from the start of that
  buffer; a nullable buffer pointer is an `Option (List Byte)`.
* A read `src[i]` is `buf[i]?`.  Functions that read the buffer return an
  `Option`: `none` means that the run left the buffer (or, for the loops that
  are driven by a step budget, that the budget was used up); `some r` means the
  C function returned `r`.
* `int` values are `Int`; every intermediate value of the arithmetic below
  stays far inside 32 bits for byte inputs, except where a conversion is
  written out (`toInt32`, the `% 2 ^ 64` of the `uint64_t` product and the
  `% 256` of the store into a `uint8_t`).
* `double` values are rationals: the arithmetic of the riskiness scorer is
  carried out exactly.
-/

namespace Sjpeg

/-- An unsigned 8-bit value. -/
abbrev Byte := Fin 256

/-- A quantization matrix, `uint8_t[64]`. -/
abbrev Matrix := Fin 64 → Byte

/-! ## Quality / matrix codec -/

/-- `QToQFactor`: the jpeg-6b mapping from quality to scale factor.  The
division only happens for `0 < q < 50`, where C's truncating division and
`/` on `Int` agree. -/
def QToQFactor (q : Int) : Int :=
  if q ≤ 0 then 5000 else if q < 50 then 5000 / q else if q < 100 then 2 * (100 - q) else 0

/-- The `uint64_t` value computed for one entry in `SjpegQuantMatrix` and in
`SjpegEstimateQuality`:
`v = matrix0[i] * q_factor` (an `int` product converted to `uint64_t`), then
`(v < 50) ? 1 : (v > 25449) ? 255 : ((v + 50) * 335545) >> 25`. -/
def clippedQuant (b : Byte) (q_factor : Int) : Nat :=
  let v : Nat := (((b.val : Int) * q_factor) % (2 ^ 64 : Int)).toNat
  if v < 50 then 1
  else if v > 25449 then 255
  else (((v + 50) * 335545) % 2 ^ 64) >>> 25

/-- `SjpegQuantMatrix`: entry `i` of the output is the clipped value stored
into a `uint8_t` (hence `% 256`).  `kDefaultMatrices` is the table of the two
baseline matrices, which the function indexes with `for_chroma`. -/
def SjpegQuantMatrix (kDefaultMatrices : Bool → Matrix) (q : Int) (for_chroma : Bool) :
    Matrix :=
  let q_factor := QToQFactor q
  let matrix0 := kDefaultMatrices for_chroma
  fun i => ⟨clippedQuant (matrix0 i) q_factor % 256, Nat.mod_lt _ (by decide)⟩

/-- The inner loop of `SjpegEstimateQuality` over the remaining indices `i`,
with the running `score`; it stops as soon as `score > best_score`. -/
def scoreLoop (matrix0 matrix : Matrix) (q_factor : Int) (best_score : Int) :
    List (Fin 64) → Int → Int
  | [], score => score
  | i :: rest, score =>
    let clipped_quant : Int := (clippedQuant (matrix0 i) q_factor : Nat)
    let diff : Int := clipped_quant - ((matrix i).val : Int)
    let score := score + diff * diff
    if score > best_score then score
    else scoreLoop matrix0 matrix q_factor best_score rest score

/-- The outer loop of `SjpegEstimateQuality` over the remaining candidate
qualities, carrying `(best_quality, best_score)`. -/
def qualityLoop (matrix0 matrix : Matrix) : List Nat → Int × Int → Int × Int
  | [], best => best
  | quality :: rest, (best_quality, best_score) =>
    let q_factor := QToQFactor (quality : Int)
    let score := scoreLoop matrix0 matrix q_factor best_score (List.finRange 64) 0
    if score < best_score then qualityLoop matrix0 matrix rest ((quality : Int), score)
    else qualityLoop matrix0 matrix rest (best_quality, best_score)

/-- `SjpegEstimateQuality`: candidates `quality = 0, …, 100` in order, starting
from `best_quality = 0`, `best_score = 256 * 256 * 64 + 1`. -/
def SjpegEstimateQuality (kDefaultMatrices : Bool → Matrix) (matrix : Matrix)
    (for_chroma : Bool) : Int :=
  (qualityLoop (kDefaultMatrices for_chroma) matrix (List.range 101)
    (0, 256 * 256 * 64 + 1)).1

/-- The full (unpruned) sum over the 64 entries of the squared difference
between `SjpegQuantMatrix q for_chroma` and `matrix`. -/
def squaredDistance (kDefaultMatrices : Bool → Matrix) (matrix : Matrix)
    (for_chroma : Bool) (q : Int) : Int :=
  ((List.finRange 64).map fun i =>
    (((SjpegQuantMatrix kDefaultMatrices q for_chroma i).val : Int) - ((matrix i).val : Int)) ^ 2).sum

/-- Builds a matrix from a list of values (entries beyond the list are 0,
values are reduced to a byte). -/
def Matrix.ofList (l : List Nat) : Matrix :=
  fun i => ⟨l.getD i.val 0 % 256, Nat.mod_lt _ (by decide)⟩

/-- A sample pair of baseline matrices: the luminance and chrominance tables
of Annex K.1 of the JPEG standard. -/
def sampleMatrices : Bool → Matrix
  | false => Matrix.ofList
    [16, 11, 10, 16, 24, 40, 51, 61,
     12, 12, 14, 19, 26, 58, 60, 55,
     14, 13, 16, 24, 40, 57, 69, 56,
     14, 17, 22, 29, 51, 87, 80, 62,
     18, 22, 37, 56, 68, 109, 103, 77,
     24, 35, 55, 64, 81, 104, 113, 92,
     49, 64, 78, 87, 103, 121, 120, 101,
     72, 92, 95, 98, 112, 100, 103, 99]
  | true => Matrix.ofList
    [17, 18, 24, 47, 99, 99, 99, 99,
     18, 21, 26, 66, 99, 99, 99, 99,
     24, 26, 56, 99, 99, 99, 99, 99,
     47, 66, 99, 99, 99, 99, 99, 99,
     99, 99, 99, 99, 99, 99, 99, 99,
     99, 99, 99, 99, 99, 99, 99, 99,
     99, 99, 99, 99, 99, 99, 99, 99,
     99, 99, 99, 99, 99, 99, 99, 99]


/-- The unpruned search the estimator is compared with: candidates in order,
each scored by `sc`, the best one replaced only by a strictly smaller score. -/
def argminLoop (sc : Nat → Int) : List Nat → Int × Int → Int × Int
  | [], best => best
  | quality :: rest, (best_quality, best_score) =>
    if sc quality < best_score then argminLoop sc rest ((quality : Int), sc quality)
    else argminLoop sc rest (best_quality, best_score)

/-- Sum of the squared differences over a list of indices, for a scale factor. -/
def distanceOver (matrix0 matrix : Matrix) (q_factor : Int) (l : List (Fin 64)) : Int :=
  (l.map fun i =>
    (((clippedQuant (matrix0 i) q_factor : Nat) : Int) - ((matrix i).val : Int)) ^ 2).sum

/-! ## Marker scanner, dimension extractor, quantizer locator -/

/-- Modelled from the spec: the marker code `M_SOF0` of `sjpegi.h` (not among
the sources), the baseline frame-header marker FF C0. -/
def M_SOF0 : Nat := 0xffc0

/-- Modelled from the spec: the marker code `M_SOF1` of `sjpegi.h` (not among
the sources), the extended-sequential frame-header marker FF C1. -/
def M_SOF1 : Nat := 0xffc1

/-- Modelled from the spec: the marker code `M_SOS` of `sjpegi.h` (not among
the sources), the scan-start marker FF DA. -/
def M_SOS : Nat := 0xffda

/-- Modelled from the spec: the marker code `M_DQT` of `sjpegi.h` (not among
the sources), the quantization-table marker FF DB. -/
def M_DQT : Nat := 0xffdb

/-- Conversion of a `size_t` value to `int` at the call `GetSOFData(src0, size)`:
the low 32 bits, read as a two's complement number. -/
def toInt32 (n : Nat) : Int :=
  if n % 2 ^ 32 < 2 ^ 31 then ((n % 2 ^ 32 : Nat) : Int) else ((n % 2 ^ 32 : Nat) : Int) - 2 ^ 32

/-- The loop `for (; src < end && *src != 0xff; ++src) {}`, which searches the
first 0xff byte; the first argument is the step budget. -/
def skipToFF (buf : List Byte) (end_ : Int) : Nat → Nat → Option Nat
  | 0, _ => none
  | fuel + 1, src =>
    if (src : Int) < end_ then
      match buf[src]? with
      | none => none
      | some b => if b.val ≠ 0xff then skipToFF buf end_ fuel (src + 1) else some src
    else some src

/-- The loop `while (src < end)` of `GetSOFData`; the first argument is the
step budget.  The result is `some (some src)` when the function returns the
location `src`, and `some none` when it returns `NULL`. -/
def sofLoop (buf : List Byte) (end_ : Int) : Nat → Nat → Option (Option Nat)
  | 0, _ => none
  | fuel + 1, src =>
    if (src : Int) < end_ then
      match buf[src]?, buf[src + 1]? with
      | some b0, some b1 =>
        let marker : Nat := (b0.val <<< 8) ||| b1.val
        if marker = M_SOF0 ∨ marker = M_SOF1 then some (some src)
        else
          match buf[src + 2]?, buf[src + 3]? with
          | some b2, some b3 =>
            let s : Nat := 2 + ((b2.val <<< 8) ||| b3.val)
            sofLoop buf end_ fuel (src + s)
          | _, _ => none
      | _, _ => none
    else some none

/-- `GetSOFData`: `src = none` is the null pointer; `size` is the `int`
parameter.  Both loops advance `src` by at least one byte per step and stop
at `end = src + size - 8`, so `size + 1` steps are a sufficient budget. -/
def GetSOFData (src : Option (List Byte)) (size : Int) : Option (Option Nat) :=
  match src with
  | none => some none
  | some buf =>
    let end_ : Int := size - 8
    match skipToFF buf end_ (size.toNat + 1) 2 with
    | none => none
    | some src => sofLoop buf end_ (size.toNat + 1) src

/-- The three output parameters of `SjpegDimensions`: `none` is a null
pointer, `some v` a pointer to an `int` that currently holds `v`. -/
structure DimOutputs where
  width : Option Int
  height : Option Int
  is_yuv420 : Option Int
deriving DecidableEq

/-- The loop `for (int c = 0; *is_yuv420 && c < 3; ++c)` of `SjpegDimensions`
over the remaining values of `c`, carrying the value of `*is_yuv420` (0 or 1,
so `&=` with a comparison result is the bitwise and of two naturals). -/
def yuv420Loop (buf : List Byte) (src : Nat) : List Nat → Nat → Option Nat
  | [], flag => some flag
  | c :: rest, flag =>
    if flag ≠ 0 then
      match buf[src + (11 + c * 3)]? with
      | none => none
      | some b =>
        let expected_dim : Nat := if c = 0 then 0x22 else 0x11
        yuv420Loop buf src rest (flag &&& (if b.val = expected_dim then 1 else 0))
    else some flag

/-- `SjpegDimensions`: the result is the returned `bool` together with the
contents of the output parameters after the call.  `left_over` is
`size - (src - src0)`; it is only used when `src` is a location inside the
buffer, where the subtraction does not wrap. -/
def SjpegDimensions (src0 : Option (List Byte)) (size : Nat) (out : DimOutputs) :
    Option (Bool × DimOutputs) :=
  if out.width.isNone ∨ out.height.isNone then some (false, out)
  else
    match GetSOFData src0 (toInt32 size), src0 with
    | none, _ => none
    | some none, _ => some (false, out)
    | some (some _), none => none
    | some (some src), some buf =>
      let left_over : Int := (size : Int) - (src : Int)
      if left_over < 8 + 3 * 1 then some (false, out)
      else
        match buf[src + 5]?, buf[src + 6]?, buf[src + 7]?, buf[src + 8]? with
        | some b5, some b6, some b7, some b8 =>
          let out := { out with height := out.height.map fun _ =>
            (((b5.val <<< 8) ||| b6.val : Nat) : Int) }
          let out := { out with width := out.width.map fun _ =>
            (((b7.val <<< 8) ||| b8.val : Nat) : Int) }
          match out.is_yuv420 with
          | none => some (true, out)
          | some _ =>
            match buf[src + 9]? with
            | none => none
            | some nb_comps =>
              let flag : Nat := if nb_comps.val = 3 then 1 else 0
              let out := { out with is_yuv420 := some (flag : Int) }
              if left_over < 11 + 3 * (nb_comps.val : Int) then some (false, out)
              else
                match yuv420Loop buf src [0, 1, 2] flag with
                | none => none
                | some flag => some (true, { out with is_yuv420 := some (flag : Int) })
        | _, _, _, _ => none

/-- The locals of `SjpegFindQuantizer` that its loops update: the two
returned pointers (offsets into the buffer, `none` for `NULL`) and the bit
set `nb_comp`. -/
structure QuantState where
  quant0 : Option Nat
  quant1 : Option Nat
  nb_comp : Nat
deriving DecidableEq

/-- The loop `for (int i = 4; i + 65 <= chunk_size; i += 65)` over the entries
of one quantization-table segment; the first argument is the step budget. -/
def dqtLoop (buf : List Byte) (src chunk_size : Nat) : Nat → Nat → QuantState → Option QuantState
  | 0, _, _ => none
  | fuel + 1, i, st =>
    if i + 65 ≤ chunk_size then
      match buf[src + i]? with
      | none => none
      | some b =>
        let st : QuantState :=
          match b.val &&& 0x0f with
          | 0 => { st with quant0 := some (src + i + 1), nb_comp := st.nb_comp ||| 1 }
          | 1 => { st with quant1 := some (src + i + 1), nb_comp := st.nb_comp ||| 2 }
          | 2 => { st with nb_comp := st.nb_comp ||| 4 }
          | _ => st
        dqtLoop buf src chunk_size fuel (i + 65) st
    else some st

/-- The loop `while (src < end)` of `SjpegFindQuantizer`; the first argument
is the step budget. -/
def quantLoop (buf : List Byte) (end_ : Int) : Nat → Nat → QuantState → Option QuantState
  | 0, _, _ => none
  | fuel + 1, src, st =>
    if (src : Int) < end_ then
      match buf[src]?, buf[src + 1]?, buf[src + 2]?, buf[src + 3]? with
      | some b0, some b1, some b2, some b3 =>
        let marker : Nat := (b0.val <<< 8) ||| b1.val
        let chunk_size : Nat := 2 + ((b2.val <<< 8) ||| b3.val)
        if ((src + chunk_size : Nat) : Int) > end_ then some st
        else if marker = M_SOS then some st
        else
          match (if marker = M_DQT then dqtLoop buf src chunk_size chunk_size 4 st
                 else some st) with
          | none => none
          | some st => quantLoop buf end_ fuel (src + chunk_size) st
      | _, _, _, _ => none
    else some st

/-- `SjpegFindQuantizer`: the result is the returned count with `quant[0]` and
`quant[1]` after the call.  Each step of either loop advances `src` by at
least one byte below `end = src + size - 8`, so `size + 1` steps are a
sufficient budget. -/
def SjpegFindQuantizer (src : Option (List Byte)) (size : Nat) :
    Option (Int × Option Nat × Option Nat) :=
  match src with
  | none => some (0, none, none)
  | some buf =>
    if size < 69 then some (0, none, none)
    else
      match buf[0]? with
      | none => none
      | some b0 =>
        if b0.val ≠ 0xff then some (0, none, none)
        else
          match buf[1]? with
          | none => none
          | some b1 =>
            if b1.val ≠ 0xd8 then some (0, none, none)
            else
              let end_ : Int := (size : Int) - 8
              match skipToFF buf end_ (size + 1) 2 with
              | none => none
              | some src =>
                match quantLoop buf end_ (size + 1) src ⟨none, none, 0⟩ with
                | none => none
                | some st =>
                  some ((if st.nb_comp &&& 1 ≠ 0 then 1 else 0)
                        + (if st.nb_comp &&& 2 ≠ 0 then 1 else 0)
                        + (if st.nb_comp &&& 4 ≠ 0 then 1 else 0), st.quant0, st.quant1)

/-- Builds a byte buffer from a list of values (each reduced to a byte). -/
def bytes (l : List Nat) : List Byte :=
  l.map fun x => ⟨x % 256, Nat.mod_lt _ (by decide)⟩

/-- The value of the byte `src0[i]` (0 when `i` is outside the buffer). -/
def byteAt (buf : List Byte) (i : Nat) : Nat :=
  match buf[i]? with
  | some b => b.val
  | none => 0

/-- The high byte of a 16-bit value. -/
def hiByte (n : Nat) : Byte := ⟨n / 256 % 256, Nat.mod_lt _ (by decide)⟩

/-- The low byte of a 16-bit value. -/
def loByte (n : Nat) : Byte := ⟨n % 256, Nat.mod_lt _ (by decide)⟩

/-- A buffer that begins with the start-of-image marker FF D8, immediately
followed by a frame-header segment with marker byte `m`, length bytes `l1 l2`,
precision `p`, height `h`, width `w` (big-endian), component count 3 and three
components `(id, sampling factors, selector)`, and then by the bytes `rest`. -/
def sofBuffer (m l1 l2 p : Byte) (h w : Nat) (c0 s0 t0 c1 s1 t1 c2 s2 t2 : Byte)
    (rest : List Byte) : List Byte :=
  [0xff, 0xd8, 0xff, m, l1, l2, p, hiByte h, loByte h, hiByte w, loByte w, 3,
    c0, s0, t0, c1, s1, t1, c2, s2, t2] ++ rest

/-! ## The table entries and segments visited by the quantizer locator -/

/-- The body of the `switch (src[i] & 0x0f)` of `SjpegFindQuantizer` for the
entry whose first byte is at offset `e.1` and whose table id is `e.2`. -/
def applyEntry (st : QuantState) (e : Nat × Nat) : QuantState :=
  match e.2 with
  | 0 => { st with quant0 := some (e.1 + 1), nb_comp := st.nb_comp ||| 1 }
  | 1 => { st with quant1 := some (e.1 + 1), nb_comp := st.nb_comp ||| 2 }
  | 2 => { st with nb_comp := st.nb_comp ||| 4 }
  | _ => st

/-- The entries visited by the loop `for (int i = 4; i + 65 <= chunk_size; i += 65)`
in one quantization-table segment, in order: the offset `src + i` of the
entry and its table id `src[i] & 0x0f`.  Same traversal as `dqtLoop`. -/
def dqtEntries (buf : List Byte) (src chunk_size : Nat) : Nat → Nat → Option (List (Nat × Nat))
  | 0, _ => none
  | fuel + 1, i =>
    if i + 65 ≤ chunk_size then
      match buf[src + i]? with
      | none => none
      | some b =>
        match dqtEntries buf src chunk_size fuel (i + 65) with
        | none => none
        | some es => some ((src + i, b.val &&& 0x0f) :: es)
    else some []

/-- The entries visited by the loop `while (src < end)` of
`SjpegFindQuantizer`, in order.  Same traversal as `quantLoop`. -/
def quantEntries (buf : List Byte) (end_ : Int) : Nat → Nat → Option (List (Nat × Nat))
  | 0, _ => none
  | fuel + 1, src =>
    if (src : Int) < end_ then
      match buf[src]?, buf[src + 1]?, buf[src + 2]?, buf[src + 3]? with
      | some b0, some b1, some b2, some b3 =>
        let marker : Nat := (b0.val <<< 8) ||| b1.val
        let chunk_size : Nat := 2 + ((b2.val <<< 8) ||| b3.val)
        if ((src + chunk_size : Nat) : Int) > end_ then some []
        else if marker = M_SOS then some []
        else
          match (if marker = M_DQT then dqtEntries buf src chunk_size chunk_size 4
                 else some []) with
          | none => none
          | some es =>
            match quantEntries buf end_ fuel (src + chunk_size) with
            | none => none
            | some rest => some (es ++ rest)
      | _, _, _, _ => none
    else some []

/-- The table entries visited by a call of `SjpegFindQuantizer`, in order
(none when the structural precheck rejects the input). -/
def visitedEntries (src : Option (List Byte)) (size : Nat) : Option (List (Nat × Nat)) :=
  match src with
  | none => some []
  | some buf =>
    if size < 69 then some []
    else
      match buf[0]? with
      | none => none
      | some b0 =>
        if b0.val ≠ 0xff then some []
        else
          match buf[1]? with
          | none => none
          | some b1 =>
            if b1.val ≠ 0xd8 then some []
            else
              let end_ : Int := (size : Int) - 8
              match skipToFF buf end_ (size + 1) 2 with
              | none => none
              | some src => quantEntries buf end_ (size + 1) src

/-- The value returned by `SjpegFindQuantizer` for a final state of its
locals: the count computed from `nb_comp`, `quant[0]` and `quant[1]`. -/
def quantResult (st : QuantState) : Int × Option Nat × Option Nat :=
  ((if st.nb_comp &&& 1 ≠ 0 then 1 else 0)
    + (if st.nb_comp &&& 2 ≠ 0 then 1 else 0)
    + (if st.nb_comp &&& 4 ≠ 0 then 1 else 0), st.quant0, st.quant1)

/-- The offsets `src` at which the body of `while (src < end)` of
`SjpegFindQuantizer` runs, in order.  Same traversal as `quantLoop`. -/
def quantWalk (buf : List Byte) (end_ : Int) : Nat → Nat → Option (List Nat)
  | 0, _ => none
  | fuel + 1, src =>
    if (src : Int) < end_ then
      match buf[src]?, buf[src + 1]?, buf[src + 2]?, buf[src + 3]? with
      | some b0, some b1, some b2, some b3 =>
        let marker : Nat := (b0.val <<< 8) ||| b1.val
        let chunk_size : Nat := 2 + ((b2.val <<< 8) ||| b3.val)
        if ((src + chunk_size : Nat) : Int) > end_ then some [src]
        else if marker = M_SOS then some [src]
        else
          match quantWalk buf end_ fuel (src + chunk_size) with
          | none => none
          | some rest => some (src :: rest)
      | _, _, _, _ => none
    else some []

/-- The offsets at which a call of `SjpegFindQuantizer` examines a marker, in
order (none when the structural precheck rejects the input). -/
def visitedMarkers (src : Option (List Byte)) (size : Nat) : Option (List Nat) :=
  match src with
  | none => some []
  | some buf =>
    if size < 69 then some []
    else
      match buf[0]? with
      | none => none
      | some b0 =>
        if b0.val ≠ 0xff then some []
        else
          match buf[1]? with
          | none => none
          | some b1 =>
            if b1.val ≠ 0xd8 then some []
            else
              let end_ : Int := (size : Int) - 8
              match skipToFF buf end_ (size + 1) 2 with
              | none => none
              | some src => quantWalk buf end_ (size + 1) src

/-- A quantization-table segment with a single 65-byte entry: marker FF DB,
length 67, the precision / table-id byte `t` and the coefficient bytes. -/
def dqtSegment (t : Byte) (coeffs : List Byte) : List Byte :=
  [0xff, 0xdb, 0x00, 0x43, t] ++ coeffs

/-- A marker segment: the second byte of its marker code and its payload. -/
structure Segment where
  marker : Byte
  payload : List Byte

/-- The bytes of a segment: FF, the marker byte, the big-endian length
(payload length plus 2) and the payload. -/
def Segment.encode (s : Segment) : List Byte :=
  [0xff, s.marker, hiByte (s.payload.length + 2), loByte (s.payload.length + 2)] ++ s.payload

/-- A marker stream cut inside the length field of a segment: the
start-of-image marker, complete segments, the two bytes of a marker code and
the bytes `tail` left of its length field. -/
def truncatedStream (segs : List Segment) (m : Byte) (tail : List Byte) : List Byte :=
  [0xff, 0xd8] ++ ((segs.map Segment.encode).flatten ++ ([0xff, m] ++ tail))

/-- A sample buffer of 148 bytes: the start-of-image marker, a
quantization-table segment with table id 0 (coefficients all 5), one with
table id 1 (coefficients all 7), and 8 zero bytes. -/
def sampleTables : List Byte :=
  [0xff, 0xd8] ++ dqtSegment 0 (List.replicate 64 5) ++ dqtSegment 1 (List.replicate 64 7)
    ++ List.replicate 8 0

/-- A buffer that begins with the start-of-image marker followed by two
quantization-table segments with one entry each, and then by `rest`. -/
def twoTables (t1 : Byte) (c1 : List Byte) (t2 : Byte) (c2 : List Byte) (rest : List Byte) :
    List Byte :=
  [0xff, 0xd8] ++ (dqtSegment t1 c1 ++ (dqtSegment t2 c2 ++ rest))

/-! ## Riskiness scoring

The arithmetic on `double` is carried out exactly, over the rationals; the
product `width * height` of two `int`s is reduced to 32 bits; the final
conversion of the score to `float` is left out.  The sharpness table
`kSharpnessScore` and the side `kRGBSize` of the colour-index space belong to
headers that are not among the sources and are parameters, and so are the
conversion routines obtained from `GetRowFunc`. -/

/-- The constant `kNoiseLevel`. -/
def kNoiseLevel : Int := 4

/-- The sum of the three table lookups made for a position, its horizontal
neighbour and its vertical neighbour (`kRGB3` is `kRGBSize` cubed). -/
def sharpness (kSharpnessScore : Nat → Int) (kRGBSize : Nat) (idx0 idx1 idx2 : Nat) : Int :=
  let kRGB3 := kRGBSize * kRGBSize * kRGBSize
  kSharpnessScore (idx0 + kRGB3 * idx1) + kSharpnessScore (idx0 + kRGB3 * idx2)
    + kSharpnessScore (idx1 + kRGB3 * idx2)

/-- The final rescaling `(total_score > 25.) ? 100. : total_score * 100. / 25.`. -/
def rescale (total_score : ℚ) : ℚ :=
  if total_score > 25 then 100 else total_score * 100 / 25

/-- The recommendation computed from the rescaled score with the thresholds
`kTreshYU420 = 40` and `kTreshSharpYU420 = 70`. -/
def recommendation (total_score : ℚ) : Int :=
  if total_score < 40 then 1 else if total_score < 70 then 2 else 3

/-- The two accumulators of the scoring loops. -/
structure RiskState where
  total_score : ℚ
  count : ℚ

/-- The loop `for (int i = 0; i < width - 1; ++i)` of `SjpegRiskiness` over the
remaining columns, for the rows `row1` (current) and `row2` (below). -/
def riskRow (kSharpnessScore : Nat → Int) (kRGBSize : Nat) (row1 row2 : Nat → Nat) :
    List Nat → RiskState → RiskState
  | [], st => st
  | i :: rest, st =>
    let idx0 := row1 (i + 0)
    let idx1 := row1 (i + 1)
    let idx2 := row2 i
    let score := sharpness kSharpnessScore kRGBSize idx0 idx1 idx2
    riskRow kSharpnessScore kRGBSize row1 row2 rest
      (if score > kNoiseLevel then ⟨st.total_score + (score : ℚ), st.count + 1⟩ else st)

/-- The loop `for (int j = 1; j < height; ++j)` of `SjpegRiskiness` over the
remaining rows; `rows j` is what `cvrt_func` writes for row `j` of the image,
and `row2` holds the row converted last. -/
def riskRows (kSharpnessScore : Nat → Int) (kRGBSize : Nat) (rows : Nat → Nat → Nat)
    (width : Nat) : List Nat → (Nat → Nat) → RiskState → RiskState
  | [], _, st => st
  | j :: rest, row2, st =>
    let row1 := row2
    let row2 := rows j
    riskRows kSharpnessScore kRGBSize rows width rest row2
      (riskRow kSharpnessScore kRGBSize row1 row2 (List.range (width - 1)) st)

/-- Reduction of an integer to the range of `int` (32 bits, two's
complement): the value that the machine multiplication of two `int`s leaves
of their product. -/
def wrapInt32 (x : Int) : Int :=
  (x + 2 ^ 31) % 2 ^ 32 - 2 ^ 31

/-- `SjpegRiskiness`: the result is the returned recommendation and the final
value of the local `total_score` (the function stores its conversion to
`float` through `risk`; that conversion is not part of the model).  `rgb` is
the memory seen from the pointer `rgb`, `cvrt_func rgb width` the row of
indices that the conversion routine writes for the pixels at `rgb`.
`width * height` is the product of two `int`s, reduced to 32 bits.  When it
is 0 the division `100. * count / (width * height)` gives an infinity or a
NaN, and the test `frac < 1.` is false. -/
def SjpegRiskiness (kSharpnessScore : Nat → Int) (kRGBSize : Nat)
    (cvrt_func : (Int → Byte) → Int → Nat → Nat) (rgb : Int → Byte)
    (width height stride : Int) : Int × ℚ :=
  let rows : Nat → Nat → Nat := fun j => cvrt_func (fun a => rgb (a + (j : Int) * stride)) width
  let st := riskRows kSharpnessScore kRGBSize rows width.toNat
    (List.range' 1 (height.toNat - 1)) (rows 0) ⟨0, 0⟩
  let total_score : ℚ := if st.count > 0 then st.total_score / st.count else st.total_score
  let pixels : Int := wrapInt32 (width * height)
  let total_score : ℚ :=
    if pixels ≠ 0 ∧ 100 * st.count / (pixels : ℚ) < 1 then 0 else total_score
  let total_score : ℚ := rescale total_score
  (recommendation total_score, total_score)

/-- The score of the pixel in column `i` of row `j - 1`, computed when the
outer loop is at row `j`. -/
def pixelScore (kSharpnessScore : Nat → Int) (kRGBSize : Nat) (rows : Nat → Nat → Nat)
    (j i : Nat) : Int :=
  sharpness kSharpnessScore kRGBSize (rows (j - 1) i) (rows (j - 1) (i + 1)) (rows j i)

/-- The number of pixels whose score is above the noise level. -/
def keptPixels (kSharpnessScore : Nat → Int) (kRGBSize : Nat) (rows : Nat → Nat → Nat)
    (width height : Nat) : Nat :=
  ((List.range' 1 (height - 1)).map fun j =>
    ((List.range (width - 1)).filter fun i =>
      decide (pixelScore kSharpnessScore kRGBSize rows j i > kNoiseLevel)).length).sum

/-- Conversion of an `int` to `int16_t` through `uint16_t`, as in
`scores[...] = static_cast<uint16_t>(score)`. -/
def toInt16 (x : Int) : Int :=
  if x % 65536 < 32768 then x % 65536 else x % 65536 - 65536

/-- The entry `idx[k]` computed at the start of `SjpegDCTRiskinessScore`
(`int` arithmetic with truncating division, stored into a `uint16_t`). -/
def dctIndex (kRGBSize : Nat) (yuv : Nat → Int) (k : Nat) : Nat :=
  let v : Int := (yuv (k + 0 * 64) + 128)
    + (yuv (k + 1 * 64) + 128) * (kRGBSize : Int)
    + (yuv (k + 2 * 64) + 128) * (kRGBSize : Int) * (kRGBSize : Int)
  ((Int.tdiv (v * ((kRGBSize : Int) - 1)) 255) % 65536).toNat

/-- The sum of the three lookups for position `(I, J)` of the 8x8 grid, with
the neighbours taken on the left and above at the right and bottom edges. -/
def dctScore (kSharpnessScore : Nat → Int) (kRGBSize : Nat) (yuv : Nat → Int) (I J : Nat) : Int :=
  let k := I + J * 8
  let idx0 := dctIndex kRGBSize yuv (k + 0)
  let idx1 := dctIndex kRGBSize yuv (if I < 7 then k + 1 else k - 1)
  let idx2 := dctIndex kRGBSize yuv (if J < 7 then k + 8 else k - 8)
  sharpness kSharpnessScore kRGBSize idx0 idx1 idx2

/-- The accumulators and the output array of `SjpegDCTRiskinessScore`. -/
structure DctState where
  total_score : ℚ
  count : ℚ
  scores : Nat → Int

/-- The body of the two nested loops of `SjpegDCTRiskinessScore` for one
position; the store is `scores[I + J * 7] = static_cast<uint16_t>(score)`. -/
def dctStep (kSharpnessScore : Nat → Int) (kRGBSize : Nat) (yuv : Nat → Int)
    (st : DctState) (J I : Nat) : DctState :=
  let score := dctScore kSharpnessScore kRGBSize yuv I J
  if score ≤ kNoiseLevel then
    { st with scores := fun n => if n = I + J * 7 then toInt16 0 else st.scores n }
  else
    { total_score := st.total_score + (score : ℚ), count := st.count + 1,
      scores := fun n => if n = I + J * 7 then toInt16 score else st.scores n }

/-- The loops `for J in 0..7`, `for I in 0..7` of `SjpegDCTRiskinessScore`. -/
def dctLoop (kSharpnessScore : Nat → Int) (kRGBSize : Nat) (yuv : Nat → Int)
    (st : DctState) : DctState :=
  (List.range 8).foldl
    (fun st J => (List.range 8).foldl (fun st I => dctStep kSharpnessScore kRGBSize yuv st J I) st)
    st

/-- `SjpegDCTRiskinessScore`: `yuv` is the input block (`yuv k` for
`k < 3 * 64`), `scores` the contents of the output array before the call; the
result is the returned score and the output array after the call. -/
def SjpegDCTRiskinessScore (kSharpnessScore : Nat → Int) (kRGBSize : Nat) (yuv : Nat → Int)
    (scores : Nat → Int) : ℚ × (Nat → Int) :=
  let st := dctLoop kSharpnessScore kRGBSize yuv ⟨0, 0, scores⟩
  let total_score : ℚ := if st.count > 0 then st.total_score / st.count else st.total_score
  (rescale total_score, st.scores)

/-- The sub-score of position `(I, J)`: the sum of the three lookups if it
exceeds the noise level, and 0 otherwise. -/
def clampedSubScore (kSharpnessScore : Nat → Int) (kRGBSize : Nat) (yuv : Nat → Int)
    (I J : Nat) : Int :=
  if dctScore kSharpnessScore kRGBSize yuv I J ≤ kNoiseLevel then 0
  else dctScore kSharpnessScore kRGBSize yuv I J

/-- A sample sharpness table. -/
def sampleSharpness : Nat → Int := fun n => ((n % 7 : Nat) : Int)

/-- A sample block with samples in [-128, 127]. -/
def sampleBlock : Nat → Int := fun k => (((k * 37) % 256 : Nat) : Int) - 128

/-- A sample row conversion: the index of pixel `i` is its first byte. -/
def sampleRowFunc : (Int → Byte) → Int → Nat → Nat := fun rgb _ i => (rgb (3 * (i : Int))).val

/-- A sample sharpness table for a large image: 0 at index 0, 10 elsewhere. -/
def twoLevelTable : Nat → Int := fun n => if n = 0 then 0 else 10

/-- The memory of an image of 65537 x 65537 pixels with 196611 bytes per row:
the bytes of the first row are 1, all others are 0. -/
def firstRowImage : Int → Byte := fun a => if 196611 ≤ a then 0 else 1

/-! ## Lemmas on the codec -/

theorem clippedQuant_pos (b : Byte) (f : Int) : 1 ≤ clippedQuant b f := by
  unfold clippedQuant
  simp only [Nat.shiftRight_eq_div_pow]
  generalize (((b.val : Int) * f) % (2 ^ 64 : Int)).toNat = v
  split_ifs with h1 h2
  · omega
  · omega
  · rw [Nat.mod_eq_of_lt (by omega)]
    omega

theorem clippedQuant_le (b : Byte) (f : Int) : clippedQuant b f ≤ 255 := by
  unfold clippedQuant
  simp only [Nat.shiftRight_eq_div_pow]
  generalize (((b.val : Int) * f) % (2 ^ 64 : Int)).toNat = v
  split_ifs with h1 h2
  · omega
  · omega
  · rw [Nat.mod_eq_of_lt (by omega)]
    omega

theorem SjpegQuantMatrix_val (K : Bool → Matrix) (q : Int) (fc : Bool) (i : Fin 64) :
    (SjpegQuantMatrix K q fc i).val = clippedQuant (K fc i) (QToQFactor q) := by
  have h := clippedQuant_le (K fc i) (QToQFactor q)
  simp only [SjpegQuantMatrix]
  omega

theorem distanceOver_nonneg (m0 m : Matrix) (f : Int) (l : List (Fin 64)) :
    0 ≤ distanceOver m0 m f l := by
  unfold distanceOver
  apply List.sum_nonneg
  intro x hx
  simp only [List.mem_map] at hx
  obtain ⟨i, -, rfl⟩ := hx
  positivity

theorem distanceOver_cons (m0 m : Matrix) (f : Int) (i : Fin 64) (l : List (Fin 64)) :
    distanceOver m0 m f (i :: l)
      = (((clippedQuant (m0 i) f : Nat) : Int) - ((m i).val : Int)) ^ 2
        + distanceOver m0 m f l := by
  simp [distanceOver]

theorem squaredDistance_eq (K : Bool → Matrix) (m : Matrix) (fc : Bool) (q : Int) :
    squaredDistance K m fc q = distanceOver (K fc) m (QToQFactor q) (List.finRange 64) := by
  simp only [squaredDistance, distanceOver, SjpegQuantMatrix_val]

/-- The pruned inner loop agrees with the full sum whenever its result is
below the best score, and otherwise the full sum is not below it either. -/
theorem scoreLoop_spec (m0 m : Matrix) (f bs : Int) (l : List (Fin 64)) (s : Int) :
    (scoreLoop m0 m f bs l s < bs → scoreLoop m0 m f bs l s = s + distanceOver m0 m f l) ∧
    (bs ≤ scoreLoop m0 m f bs l s → bs ≤ s + distanceOver m0 m f l) := by
  induction l generalizing s with
  | nil => simp [scoreLoop, distanceOver]
  | cons i rest ih =>
    have hnn := distanceOver_nonneg m0 m f rest
    simp only [scoreLoop, distanceOver_cons]
    split_ifs with h
    · constructor
      · intro h1; nlinarith
      · intro _; nlinarith
    · obtain ⟨ih1, ih2⟩ := ih (s + (((clippedQuant (m0 i) f : Nat) : Int) - ((m i).val : Int))
          * (((clippedQuant (m0 i) f : Nat) : Int) - ((m i).val : Int)))
      constructor
      · intro h1; rw [ih1 h1]; ring
      · intro h1; have := ih2 h1; nlinarith

/-- The estimator's outer loop is the unpruned search. -/
theorem qualityLoop_eq_argminLoop (K : Bool → Matrix) (m : Matrix) (fc : Bool)
    (l : List Nat) (best : Int × Int) :
    qualityLoop (K fc) m l best = argminLoop (fun q => squaredDistance K m fc q) l best := by
  induction l generalizing best with
  | nil => rfl
  | cons q rest ih =>
    obtain ⟨bq, bs⟩ := best
    obtain ⟨h1, h2⟩ := scoreLoop_spec (K fc) m (QToQFactor q) bs (List.finRange 64) 0
    simp only [qualityLoop, argminLoop, squaredDistance_eq]
    rw [zero_add] at h1 h2
    by_cases h : scoreLoop (K fc) m (QToQFactor q) bs (List.finRange 64) 0 < bs
    · rw [if_pos h, h1 h, if_pos (by rw [← h1 h]; exact h), ih, ]
      simp only [squaredDistance_eq]
    · rw [if_neg h, if_neg (by have := h2 (not_lt.mp h); omega), ih]
      simp only [squaredDistance_eq]

/-- What the unpruned search over `a, a+1, …, a+n-1` returns. -/
theorem argminLoop_spec (sc : Nat → Int) (n a : Nat) (bq bs : Int) :
    (argminLoop sc (List.range' a n) (bq, bs)).2 ≤ bs ∧
    (∀ q, a ≤ q → q < a + n → (argminLoop sc (List.range' a n) (bq, bs)).2 ≤ sc q) ∧
    (argminLoop sc (List.range' a n) (bq, bs) = (bq, bs) ∨
      ((argminLoop sc (List.range' a n) (bq, bs)).2 < bs ∧
        ∃ k : Nat, a ≤ k ∧ k < a + n ∧
          argminLoop sc (List.range' a n) (bq, bs) = ((k : Int), sc k) ∧
          ∀ q, a ≤ q → q < k → sc k < sc q)) := by
  induction n generalizing a bq bs with
  | zero =>
    simp only [List.range'_zero, argminLoop, le_refl, true_or, and_true, true_and]
    intro q h1 h2
    omega
  | succ n ih =>
    simp only [List.range'_succ, argminLoop]
    by_cases h : sc a < bs
    · simp only [if_pos h]
      obtain ⟨i1, i2, i3⟩ := ih (a + 1) (a : Int) (sc a)
      refine ⟨by omega, ?_, Or.inr ⟨by omega, ?_⟩⟩
      · intro q hq1 hq2
        rcases Nat.eq_or_lt_of_le hq1 with rfl | hlt
        · exact i1
        · exact i2 q hlt (by omega)
      · rcases i3 with i3 | ⟨i3, k, k1, k2, k3, k4⟩
        · exact ⟨a, le_refl _, by omega, i3, fun q h1 h2 => by omega⟩
        · refine ⟨k, by omega, by omega, k3, ?_⟩
          intro q hq1 hq2
          rcases Nat.eq_or_lt_of_le hq1 with rfl | hlt
          · rw [k3] at i3; exact i3
          · exact k4 q hlt hq2
    · simp only [if_neg h]
      obtain ⟨i1, i2, i3⟩ := ih (a + 1) bq bs
      refine ⟨i1, ?_, ?_⟩
      · intro q hq1 hq2
        rcases Nat.eq_or_lt_of_le hq1 with rfl | hlt
        · omega
        · exact i2 q hlt (by omega)
      · rcases i3 with i3 | ⟨i3, k, k1, k2, k3, k4⟩
        · exact Or.inl i3
        · refine Or.inr ⟨i3, k, by omega, by omega, k3, ?_⟩
          intro q hq1 hq2
          rcases Nat.eq_or_lt_of_le hq1 with rfl | hlt
          · rw [k3] at i3; simp only at i3; omega
          · exact k4 q hlt hq2


theorem squaredDistance_nonneg (K : Bool → Matrix) (m : Matrix) (fc : Bool) (q : Int) :
    0 ≤ squaredDistance K m fc q := by
  rw [squaredDistance_eq]
  exact distanceOver_nonneg _ _ _ _

/-- Every total is at most `64 * 255 ^ 2`, below the initial best score. -/
theorem squaredDistance_lt (K : Bool → Matrix) (m : Matrix) (fc : Bool) (q : Int) :
    squaredDistance K m fc q < 256 * 256 * 64 + 1 := by
  rw [squaredDistance_eq]
  unfold distanceOver
  have h := List.sum_le_card_nsmul
    ((List.finRange 64).map fun i =>
      (((clippedQuant (K fc i) (QToQFactor q) : Nat) : Int) - ((m i).val : Int)) ^ 2) 65025
    (by
      intro x hx
      simp only [List.mem_map] at hx
      obtain ⟨i, -, rfl⟩ := hx
      have h1 := clippedQuant_pos (K fc i) (QToQFactor q)
      have h2 := clippedQuant_le (K fc i) (QToQFactor q)
      have h3 := (m i).isLt
      nlinarith)
  simp only [List.length_map, List.length_finRange, nsmul_eq_mul, Nat.cast_ofNat] at h
  omega

/-- The estimate is the smallest minimiser of the full squared distance over
the candidates `0, …, 100`. -/
theorem estimate_spec (K : Bool → Matrix) (m : Matrix) (fc : Bool) :
    ∃ k : Nat, SjpegEstimateQuality K m fc = (k : Int) ∧ k ≤ 100 ∧
      (∀ q : Nat, q ≤ 100 → squaredDistance K m fc k ≤ squaredDistance K m fc q) ∧
      (∀ q : Nat, q < k → squaredDistance K m fc k < squaredDistance K m fc q) := by
  obtain ⟨-, i2, i3⟩ := argminLoop_spec (fun q => squaredDistance K m fc q) 101 0 0
    (256 * 256 * 64 + 1)
  unfold SjpegEstimateQuality
  rw [qualityLoop_eq_argminLoop, List.range_eq_range']
  rcases i3 with i3 | ⟨-, k, -, k2, k3, k4⟩
  · have h1 := i2 0 (le_refl _) (by omega)
    have h2 := squaredDistance_lt K m fc ((0 : Nat) : Int)
    rw [i3] at h1
    simp only at h1
    omega
  · refine ⟨k, by rw [k3], by omega, ?_, ?_⟩
    · intro q hq
      have := i2 q (Nat.zero_le _) (by omega)
      rw [k3] at this
      exact this
    · intro q hq
      exact k4 q (Nat.zero_le _) hq

theorem squaredDistance_eq_zero_of_eq (K : Bool → Matrix) (m : Matrix) (fc : Bool) (q : Int)
    (h : SjpegQuantMatrix K q fc = m) : squaredDistance K m fc q = 0 := by
  subst h
  simp [squaredDistance]

theorem list_sum_eq_zero (l : List Int) (hnn : ∀ x ∈ l, 0 ≤ x) (h : l.sum = 0) :
    ∀ x ∈ l, x = 0 := by
  induction l with
  | nil => simp
  | cons a t ih =>
    have ha := hnn a (List.mem_cons_self _ _)
    have ht : 0 ≤ t.sum := List.sum_nonneg fun x hx => hnn x (List.mem_cons_of_mem _ hx)
    rw [List.sum_cons] at h
    intro x hx
    rcases List.mem_cons.mp hx with rfl | hx
    · omega
    · exact ih (fun y hy => hnn y (List.mem_cons_of_mem _ hy)) (by omega) x hx

theorem eq_of_squaredDistance_eq_zero (K : Bool → Matrix) (m : Matrix) (fc : Bool) (q : Int)
    (h : squaredDistance K m fc q = 0) : SjpegQuantMatrix K q fc = m := by
  funext i
  have hz := list_sum_eq_zero _ (by
      intro x hx
      simp only [List.mem_map] at hx
      obtain ⟨j, -, rfl⟩ := hx
      positivity) h
    ((((SjpegQuantMatrix K q fc i).val : Int) - ((m i).val : Int)) ^ 2)
    (List.mem_map.mpr ⟨i, List.mem_finRange i, rfl⟩)
  have hd : ((SjpegQuantMatrix K q fc i).val : Int) - ((m i).val : Int) = 0 :=
    pow_eq_zero_iff (by decide) |>.mp hz
  apply Fin.ext
  omega

/-- Estimating a synthesized matrix: the result is the least candidate that
synthesizes the same matrix. -/
theorem estimate_synthesized_spec (K : Bool → Matrix) (fc : Bool) (q : Nat) (hq : q ≤ 100) :
    ∃ k : Nat, SjpegEstimateQuality K (SjpegQuantMatrix K q fc) fc = (k : Int) ∧ k ≤ q ∧
      SjpegQuantMatrix K k fc = SjpegQuantMatrix K q fc ∧
      ∀ j : Nat, j < k → SjpegQuantMatrix K j fc ≠ SjpegQuantMatrix K q fc := by
  obtain ⟨k, hk, -, hmin, hfirst⟩ := estimate_spec K (SjpegQuantMatrix K q fc) fc
  have hself := squaredDistance_eq_zero_of_eq K (SjpegQuantMatrix K q fc) fc q rfl
  have hk0 : squaredDistance K (SjpegQuantMatrix K q fc) fc k = 0 := by
    have h1 := hmin q hq
    have h2 := squaredDistance_nonneg K (SjpegQuantMatrix K q fc) fc k
    omega
  refine ⟨k, hk, ?_, eq_of_squaredDistance_eq_zero _ _ _ _ hk0, ?_⟩
  · by_contra hlt
    have := hfirst q (by omega)
    omega
  · intro j hj heq
    have h1 := hfirst j hj
    have h2 := squaredDistance_eq_zero_of_eq K (SjpegQuantMatrix K q fc) fc j heq
    omega

theorem QToQFactor_one : QToQFactor 1 = QToQFactor 0 := by decide

theorem SjpegQuantMatrix_one (K : Bool → Matrix) (fc : Bool) :
    SjpegQuantMatrix K 1 fc = SjpegQuantMatrix K 0 fc := by
  funext i
  apply Fin.ext
  rw [SjpegQuantMatrix_val, SjpegQuantMatrix_val, QToQFactor_one]


/-- The matrix synthesized for quality 1 is estimated as quality 0, whatever
the baseline matrices. -/
theorem estimate_one (K : Bool → Matrix) (fc : Bool) :
    SjpegEstimateQuality K (SjpegQuantMatrix K 1 fc) fc = 0 := by
  obtain ⟨k, hk, hle, -, hfirst⟩ := estimate_synthesized_spec K fc 1 (by omega)
  have hk0 : k = 0 := by
    by_contra hne
    exact hfirst 0 (by omega) (SjpegQuantMatrix_one K fc).symm
  rw [Nat.cast_one] at hk
  rw [hk, hk0]
  rfl

/-! ## Lemmas on the scale factor and the rounding -/

theorem QToQFactor_of_nonpos (q : Int) (h : q ≤ 0) : QToQFactor q = 5000 := by
  unfold QToQFactor
  rw [if_pos h]

theorem QToQFactor_of_ge (q : Int) (h : 100 ≤ q) : QToQFactor q = 0 := by
  unfold QToQFactor
  rw [if_neg (by omega), if_neg (by omega), if_neg (by omega)]

theorem QToQFactor_low (n : Nat) (h0 : 0 < n) (h : n < 50) :
    QToQFactor (n : Int) = ((5000 / n : Nat) : Int) := by
  unfold QToQFactor
  rw [if_neg (by omega), if_pos (by omega), Int.natCast_div]
  rfl

theorem QToQFactor_high (q : Int) (h0 : 50 ≤ q) (h : q < 100) :
    QToQFactor q = 2 * (100 - q) := by
  unfold QToQFactor
  rw [if_neg (by omega), if_neg (by omega), if_pos h]

theorem div_low_bounds (n : Nat) (h0 : 0 < n) (h : n < 50) :
    102 ≤ 5000 / n ∧ 5000 / n ≤ 5000 := by
  constructor
  · have h1 : 5000 / 49 ≤ 5000 / n := Nat.div_le_div_left (by omega) h0
    have h2 : 5000 / 49 = 102 := by decide
    omega
  · exact Nat.div_le_self _ _

theorem QToQFactor_bounds (q : Int) : 0 ≤ QToQFactor q ∧ QToQFactor q ≤ 5000 := by
  rcases le_or_lt q 0 with h | h
  · rw [QToQFactor_of_nonpos q h]
    omega
  · rcases lt_or_le q 50 with h50 | h50
    · obtain ⟨n, rfl⟩ := Int.eq_ofNat_of_zero_le (le_of_lt h)
      have hb := div_low_bounds n (by omega) (by omega)
      rw [QToQFactor_low n (by omega) (by omega)]
      omega
    · rcases lt_or_le q 100 with h100 | h100
      · rw [QToQFactor_high q h50 h100]
        omega
      · rw [QToQFactor_of_ge q h100]
        omega

/-- The scale factor never increases with the quality. -/
theorem QToQFactor_antitone (q1 q2 : Int) (h : q1 ≤ q2) : QToQFactor q2 ≤ QToQFactor q1 := by
  rcases le_or_lt q1 0 with h1 | h1
  · rw [QToQFactor_of_nonpos q1 h1]
    exact (QToQFactor_bounds q2).2
  · rcases le_or_lt 100 q2 with h2 | h2
    · rw [QToQFactor_of_ge q2 h2]
      exact (QToQFactor_bounds q1).1
    · rcases lt_or_le q1 50 with a | a
      · obtain ⟨n1, rfl⟩ := Int.eq_ofNat_of_zero_le (le_of_lt h1)
        have hb1 := div_low_bounds n1 (by omega) (by omega)
        rw [QToQFactor_low n1 (by omega) (by omega)]
        rcases lt_or_le q2 50 with b | b
        · obtain ⟨n2, rfl⟩ := Int.eq_ofNat_of_zero_le (by omega : 0 ≤ q2)
          rw [QToQFactor_low n2 (by omega) (by omega)]
          have hm : 5000 / n2 ≤ 5000 / n1 := Nat.div_le_div_left (by omega) (by omega)
          omega
        · rw [QToQFactor_high q2 b h2]
          omega
      · rw [QToQFactor_high q1 a (by omega), QToQFactor_high q2 (by omega) h2]
        omega

/-- The multiply-and-shift of the source is the division by 100 on the range
where it is used. -/
theorem shift_eq_div (v : Nat) (h50 : 50 ≤ v) (h : v ≤ 25449) :
    (((v + 50) * 335545) % 2 ^ 64) >>> 25 = (v + 50) / 100 := by
  rw [Nat.mod_eq_of_lt (by omega), Nat.shiftRight_eq_div_pow]
  omega

/-- The clipped value for a scale factor given as a natural number. -/
theorem clippedQuant_natCast (b : Byte) (n : Nat) (hn : n ≤ 5000) :
    clippedQuant b (n : Int) =
      if b.val * n < 50 then 1 else if b.val * n > 25449 then 255 else (b.val * n + 50) / 100 := by
  have hb := b.isLt
  have hlt : b.val * n < 256 * 5001 := Nat.mul_lt_mul'' hb (by omega)
  have hv : ((((b.val : Int) * (n : Int)) % (2 ^ 64 : Int)).toNat) = b.val * n := by
    rw [← Int.natCast_mul, Int.emod_eq_of_lt (by omega) (by omega), Int.toNat_natCast]
  unfold clippedQuant
  simp only [hv]
  split_ifs with h1 h2
  · rfl
  · rfl
  · exact shift_eq_div _ (by omega) (by omega)

theorem clippedQuant_mono (b : Byte) (n1 n2 : Nat) (h : n2 ≤ n1) (h1 : n1 ≤ 5000) :
    clippedQuant b (n2 : Int) ≤ clippedQuant b (n1 : Int) := by
  rw [clippedQuant_natCast b n1 h1, clippedQuant_natCast b n2 (by omega)]
  have hm : b.val * n2 ≤ b.val * n1 := Nat.mul_le_mul_left _ h
  generalize b.val * n1 = v1 at hm ⊢
  generalize b.val * n2 = v2 at hm ⊢
  split_ifs <;> omega

theorem SjpegQuantMatrix_congr (K : Bool → Matrix) (fc : Bool) (q q' : Int)
    (h : QToQFactor q = QToQFactor q') : SjpegQuantMatrix K q fc = SjpegQuantMatrix K q' fc := by
  funext i
  apply Fin.ext
  rw [SjpegQuantMatrix_val, SjpegQuantMatrix_val, h]

theorem QToQFactor_clamp (q : Int) : QToQFactor q = QToQFactor (max 0 (min q 100)) := by
  rcases le_or_lt q 0 with h | h
  · rw [QToQFactor_of_nonpos q h, QToQFactor_of_nonpos _ (by omega)]
  · rcases le_or_lt 100 q with h2 | h2
    · rw [QToQFactor_of_ge q h2, QToQFactor_of_ge _ (by omega)]
    · have e : max 0 (min q 100) = q := by omega
      rw [e]

/-! ## Lemmas on the marker scanner -/

theorem be16_eq (a b : Nat) (hb : b < 256) : (a <<< 8) ||| b = a * 256 + b := by
  have h := Nat.mul_add_lt_is_or (i := 8) (b := b) (by omega) a
  rw [Nat.shiftLeft_eq, Nat.mul_comm a (2 ^ 8), ← h]

theorem toInt32_of_lt (n : Nat) (h : n < 2 ^ 31) : toInt32 n = (n : Int) := by
  unfold toInt32
  have h1 : n % 2 ^ 32 = n := Nat.mod_eq_of_lt (by omega)
  rw [h1, if_pos h]

theorem toInt32_le (n : Nat) : toInt32 n ≤ (n : Int) := by
  unfold toInt32
  have h1 : n % 2 ^ 32 ≤ n := Nat.mod_le _ _
  split_ifs <;> omega

theorem skipToFF_ge (buf : List Byte) (end_ : Int) (fuel src p : Nat)
    (h : skipToFF buf end_ fuel src = some p) : src ≤ p := by
  induction fuel generalizing src with
  | zero => simp [skipToFF] at h
  | succ fuel ih =>
    unfold skipToFF at h
    split_ifs at h with h1
    · cases hb : buf[src]? with
      | none => simp [hb] at h
      | some b =>
        simp only [hb] at h
        split_ifs at h with h2
        · have := ih (src + 1) h
          omega
        · simp only [Option.some.injEq] at h
          omega
    · simp only [Option.some.injEq] at h
      omega

theorem skipToFF_total (buf : List Byte) (end_ : Int) (hlen : end_ ≤ (buf.length : Int))
    (fuel src : Nat) (hf : (end_ - (src : Int)).toNat < fuel) :
    ∃ p, skipToFF buf end_ fuel src = some p := by
  induction fuel generalizing src with
  | zero => omega
  | succ fuel ih =>
    unfold skipToFF
    split_ifs with h1
    · have hlt : src < buf.length := by omega
      rw [List.getElem?_eq_getElem hlt]
      simp only
      split_ifs with h2
      · exact ih (src + 1) (by omega)
      · exact ⟨src, rfl⟩
    · exact ⟨src, rfl⟩

theorem sofLoop_total (buf : List Byte) (end_ : Int) (hlen : end_ + 8 ≤ (buf.length : Int))
    (fuel src : Nat) (hf : (end_ - (src : Int)).toNat < fuel) :
    ∃ r, sofLoop buf end_ fuel src = some r := by
  induction fuel generalizing src with
  | zero => omega
  | succ fuel ih =>
    unfold sofLoop
    split_ifs with h1
    · have hlt : src + 3 < buf.length := by omega
      rw [List.getElem?_eq_getElem (by omega : src < buf.length),
        List.getElem?_eq_getElem (by omega : src + 1 < buf.length),
        List.getElem?_eq_getElem (by omega : src + 2 < buf.length),
        List.getElem?_eq_getElem hlt]
      simp only
      by_cases h2 : (buf[src].val <<< 8) ||| buf[src + 1].val = M_SOF0 ∨
          (buf[src].val <<< 8) ||| buf[src + 1].val = M_SOF1
      · rw [if_pos h2]
        exact ⟨_, rfl⟩
      · rw [if_neg h2]
        exact ih _ (by omega)
    · exact ⟨_, rfl⟩

theorem sofLoop_found (buf : List Byte) (end_ : Int) (fuel src o : Nat)
    (h : sofLoop buf end_ fuel src = some (some o)) :
    src ≤ o ∧ (o : Int) < end_ ∧
      ∃ b0 b1 : Byte, buf[o]? = some b0 ∧ buf[o + 1]? = some b1 ∧
        ((b0.val <<< 8) ||| b1.val = M_SOF0 ∨ (b0.val <<< 8) ||| b1.val = M_SOF1) := by
  induction fuel generalizing src with
  | zero => simp [sofLoop] at h
  | succ fuel ih =>
    unfold sofLoop at h
    split_ifs at h with h1
    · cases hb0 : buf[src]? with
      | none => simp [hb0] at h
      | some b0 =>
        cases hb1 : buf[src + 1]? with
        | none => simp [hb0, hb1] at h
        | some b1 =>
          simp only [hb0, hb1] at h
          split_ifs at h with h2
          · simp only [Option.some.injEq] at h
            subst h
            exact ⟨le_refl _, h1, b0, b1, hb0, hb1, h2⟩
          · cases hb2 : buf[src + 2]? with
            | none => simp [hb2] at h
            | some b2 =>
              cases hb3 : buf[src + 3]? with
              | none => simp [hb2, hb3] at h
              | some b3 =>
                simp only [hb2, hb3] at h
                obtain ⟨i1, i2, i3⟩ := ih _ h
                exact ⟨by omega, i2, i3⟩
    · simp at h

theorem GetSOFData_total (buf : List Byte) (size : Int) (hlen : size ≤ (buf.length : Int)) :
    ∃ r, GetSOFData (some buf) size = some r := by
  unfold GetSOFData
  simp only
  obtain ⟨p, hp⟩ := skipToFF_total buf (size - 8) (by omega) (size.toNat + 1) 2 (by omega)
  rw [hp]
  exact sofLoop_total buf (size - 8) (by omega) (size.toNat + 1) p (by omega)

theorem GetSOFData_found (src : Option (List Byte)) (size : Int) (o : Nat)
    (h : GetSOFData src size = some (some o)) :
    ∃ buf, src = some buf ∧ 2 ≤ o ∧ (o : Int) + 8 < size ∧
      ∃ b1 : Byte, buf[o]? = some 0xff ∧ buf[o + 1]? = some b1 ∧
        (b1 = 0xc0 ∨ b1 = 0xc1) := by
  unfold GetSOFData at h
  cases src with
  | none => simp at h
  | some buf =>
    simp only at h
    cases hp : skipToFF buf (size - 8) (size.toNat + 1) 2 with
    | none => simp [hp] at h
    | some p =>
      simp only [hp] at h
      have hp2 := skipToFF_ge _ _ _ _ _ hp
      obtain ⟨i1, i2, b0, b1, hb0, hb1, hm⟩ := sofLoop_found _ _ _ _ _ h
      rw [be16_eq _ _ b1.isLt] at hm
      have h0 := b0.isLt
      have h1 := b1.isLt
      simp only [M_SOF0, M_SOF1] at hm
      have hb0v : b0 = 0xff := Fin.ext (show b0.val = 255 by omega)
      subst hb0v
      refine ⟨buf, rfl, by omega, by omega, b1, hb0, hb1, ?_⟩
      rcases hm with hm | hm
      · exact Or.inl (Fin.ext (show b1.val = 192 by omega))
      · exact Or.inr (Fin.ext (show b1.val = 193 by omega))

theorem GetSOFData_small (src : Option (List Byte)) (size : Int) (h : size ≤ 10) :
    GetSOFData src size = some none := by
  unfold GetSOFData
  cases src with
  | none => rfl
  | some buf =>
    simp only
    have h1 : ¬ ((2 : Nat) : Int) < size - 8 := by omega
    rw [skipToFF, if_neg h1]
    simp only
    rw [sofLoop, if_neg h1]

/-! ## Lemmas on the dimension extractor -/

theorem exists_read (buf : List Byte) (i : Nat) (h : i < buf.length) :
    ∃ b : Byte, buf[i]? = some b ∧ byteAt buf i = b.val := by
  refine ⟨buf[i], List.getElem?_eq_getElem h, ?_⟩
  simp [byteAt, List.getElem?_eq_getElem h]

/-- What `SjpegDimensions` does once the scanner has found the frame header
at offset `o`, for non-null `width` and `height`. -/
theorem SjpegDimensions_found (buf : List Byte) (size o : Nat) (w0 h0 : Int) (y : Option Int)
    (hlen : size ≤ buf.length)
    (hfound : GetSOFData (some buf) (toInt32 size) = some (some o)) :
    SjpegDimensions (some buf) size ⟨some w0, some h0, y⟩ =
      if (size : Int) - (o : Int) < 11 then some (false, ⟨some w0, some h0, y⟩)
      else
        match y with
        | none => some (true,
            ⟨some ((byteAt buf (o + 7) * 256 + byteAt buf (o + 8) : Nat) : Int),
             some ((byteAt buf (o + 5) * 256 + byteAt buf (o + 6) : Nat) : Int), none⟩)
        | some _ =>
          if (size : Int) - (o : Int) < 11 + 3 * (byteAt buf (o + 9) : Int) then
            some (false,
              ⟨some ((byteAt buf (o + 7) * 256 + byteAt buf (o + 8) : Nat) : Int),
               some ((byteAt buf (o + 5) * 256 + byteAt buf (o + 6) : Nat) : Int),
               some (if byteAt buf (o + 9) = 3 then 1 else 0)⟩)
          else
            some (true,
              ⟨some ((byteAt buf (o + 7) * 256 + byteAt buf (o + 8) : Nat) : Int),
               some ((byteAt buf (o + 5) * 256 + byteAt buf (o + 6) : Nat) : Int),
               some (if byteAt buf (o + 9) = 3 ∧ byteAt buf (o + 11) = 0x22 ∧
                  byteAt buf (o + 14) = 0x11 ∧ byteAt buf (o + 17) = 0x11 then 1 else 0)⟩) := by
  obtain ⟨_, hb, ho2, ho8, -⟩ := GetSOFData_found _ _ _ hfound
  have hle := toInt32_le size
  unfold SjpegDimensions
  simp only [Option.isNone_some, Bool.false_eq_true, or_self, if_false, hfound]
  by_cases hleft : (size : Int) - (o : Int) < 11
  · rw [if_pos hleft, if_pos (by omega)]
  · rw [if_neg hleft, if_neg (by omega)]
    obtain ⟨b5, r5, v5⟩ := exists_read buf (o + 5) (by omega)
    obtain ⟨b6, r6, v6⟩ := exists_read buf (o + 6) (by omega)
    obtain ⟨b7, r7, v7⟩ := exists_read buf (o + 7) (by omega)
    obtain ⟨b8, r8, v8⟩ := exists_read buf (o + 8) (by omega)
    obtain ⟨b9, r9, v9⟩ := exists_read buf (o + 9) (by omega)
    simp only [r5, r6, r7, r8, v5, v6, v7, v8, v9, Option.map_some', be16_eq _ _ b6.isLt,
      be16_eq _ _ b8.isLt]
    cases y with
    | none => rfl
    | some y0 =>
      simp only [r9]
      by_cases hshort : (size : Int) - (o : Int) < 11 + 3 * (b9.val : Int)
      · rw [if_pos hshort, if_pos hshort]
        by_cases h3 : b9.val = 3 <;> simp [h3]
      · rw [if_neg hshort, if_neg hshort]
        by_cases h3 : b9.val = 3
        · obtain ⟨b11, r11, v11⟩ := exists_read buf (o + 11) (by omega)
          obtain ⟨b14, r14, v14⟩ := exists_read buf (o + 14) (by omega)
          obtain ⟨b17, r17, v17⟩ := exists_read buf (o + 17) (by omega)
          simp only [h3, if_true, yuv420Loop, r11, r14, r17, v11, v14, v17, true_and]
          by_cases c0 : b11.val = 0x22 <;> by_cases c1 : b14.val = 0x11 <;>
            by_cases c2 : b17.val = 0x11 <;> simp [c0, c1, c2]
        · simp [h3, yuv420Loop]

theorem SjpegDimensions_null_out (src0 : Option (List Byte)) (size : Nat) (out : DimOutputs)
    (h : out.width = none ∨ out.height = none) :
    SjpegDimensions src0 size out = some (false, out) := by
  unfold SjpegDimensions
  rw [if_pos]
  rcases h with h | h <;> simp [h]

theorem SjpegDimensions_not_found (src0 : Option (List Byte)) (size : Nat) (w0 h0 : Int)
    (y : Option Int) (h : GetSOFData src0 (toInt32 size) = some none) :
    SjpegDimensions src0 size ⟨some w0, some h0, y⟩ = some (false, ⟨some w0, some h0, y⟩) := by
  unfold SjpegDimensions
  simp [h]

theorem GetSOFData_valid_total (src0 : Option (List Byte)) (size : Nat)
    (hvalid : ∀ buf, src0 = some buf → size ≤ buf.length) :
    ∃ r, GetSOFData src0 (toInt32 size) = some r := by
  cases src0 with
  | none => exact ⟨none, rfl⟩
  | some buf =>
    have h1 := hvalid buf rfl
    have h2 := toInt32_le size
    exact GetSOFData_total buf _ (by omega)

theorem GetSOFData_some_buf (src0 : Option (List Byte)) (size : Int) (o : Nat)
    (h : GetSOFData src0 size = some (some o)) : ∃ buf, src0 = some buf := by
  obtain ⟨buf, hb, -⟩ := GetSOFData_found _ _ _ h
  exact ⟨buf, hb⟩

theorem SjpegDimensions_total (src0 : Option (List Byte)) (size : Nat) (out : DimOutputs)
    (hvalid : ∀ buf, src0 = some buf → size ≤ buf.length) :
    ∃ r, SjpegDimensions src0 size out = some r := by
  obtain ⟨w, h, y⟩ := out
  cases w with
  | none => exact ⟨_, SjpegDimensions_null_out _ _ _ (Or.inl rfl)⟩
  | some w0 =>
    cases h with
    | none => exact ⟨_, SjpegDimensions_null_out _ _ _ (Or.inr rfl)⟩
    | some h0 =>
      obtain ⟨r, hr⟩ := GetSOFData_valid_total src0 size hvalid
      cases r with
      | none => exact ⟨_, SjpegDimensions_not_found src0 size w0 h0 y hr⟩
      | some o =>
        obtain ⟨buf, rfl⟩ := GetSOFData_some_buf _ _ _ hr
        rw [SjpegDimensions_found buf size o w0 h0 y (hvalid buf rfl) hr]
        by_cases h11 : (size : Int) - (o : Int) < 11
        · rw [if_pos h11]
          exact ⟨_, rfl⟩
        · rw [if_neg h11]
          cases y with
          | none => exact ⟨_, rfl⟩
          | some y0 =>
            simp only
            by_cases hshort : (size : Int) - (o : Int) < 11 + 3 * (byteAt buf (o + 9) : Int)
            · rw [if_pos hshort]
              exact ⟨_, rfl⟩
            · rw [if_neg hshort]
              exact ⟨_, rfl⟩

/-! ## Lemmas on the quantizer locator -/

theorem dqtLoop_total (buf : List Byte) (src chunk_size : Nat)
    (hlen : src + chunk_size ≤ buf.length) (fuel i : Nat) (st : QuantState)
    (hf : (chunk_size + 65 - i) / 65 < fuel) :
    ∃ st', dqtLoop buf src chunk_size fuel i st = some st' := by
  induction fuel generalizing i st with
  | zero => omega
  | succ fuel ih =>
    unfold dqtLoop
    by_cases h1 : i + 65 ≤ chunk_size
    · rw [if_pos h1, List.getElem?_eq_getElem (by omega : src + i < buf.length)]
      exact ih _ _ (by omega)
    · rw [if_neg h1]
      exact ⟨st, rfl⟩

theorem quantLoop_total (buf : List Byte) (end_ : Int) (hlen : end_ + 8 ≤ (buf.length : Int))
    (fuel src : Nat) (st : QuantState) (hf : (end_ - (src : Int)).toNat < fuel) :
    ∃ st', quantLoop buf end_ fuel src st = some st' := by
  induction fuel generalizing src st with
  | zero => omega
  | succ fuel ih =>
    unfold quantLoop
    by_cases h1 : (src : Int) < end_
    · rw [if_pos h1, List.getElem?_eq_getElem (by omega : src < buf.length),
        List.getElem?_eq_getElem (by omega : src + 1 < buf.length),
        List.getElem?_eq_getElem (by omega : src + 2 < buf.length),
        List.getElem?_eq_getElem (by omega : src + 3 < buf.length)]
      simp only
      generalize (buf[src].val <<< 8) ||| buf[src + 1].val = marker
      generalize (buf[src + 2].val <<< 8) ||| buf[src + 3].val = len
      by_cases h2 : ((src + (2 + len) : Nat) : Int) > end_
      · rw [if_pos h2]
        exact ⟨st, rfl⟩
      · rw [if_neg h2]
        by_cases h3 : marker = M_SOS
        · rw [if_pos h3]
          exact ⟨st, rfl⟩
        · rw [if_neg h3]
          by_cases h4 : marker = M_DQT
          · rw [if_pos h4]
            obtain ⟨st1, hst1⟩ := dqtLoop_total buf src (2 + len) (by omega) (2 + len) 4 st
              (by omega)
            rw [hst1]
            exact ih _ _ (by omega)
          · rw [if_neg h4]
            exact ih _ _ (by omega)
    · rw [if_neg h1]
      exact ⟨st, rfl⟩

theorem SjpegFindQuantizer_total (buf : List Byte) (size : Nat) (hlen : size ≤ buf.length) :
    ∃ r, SjpegFindQuantizer (some buf) size = some r := by
  unfold SjpegFindQuantizer
  simp only
  by_cases h1 : size < 69
  · rw [if_pos h1]
    exact ⟨_, rfl⟩
  · rw [if_neg h1, List.getElem?_eq_getElem (by omega : 0 < buf.length)]
    simp only
    by_cases h2 : buf[0].val ≠ 0xff
    · rw [if_pos h2]
      exact ⟨_, rfl⟩
    · rw [if_neg h2, List.getElem?_eq_getElem (by omega : 1 < buf.length)]
      simp only
      by_cases h3 : buf[1].val ≠ 0xd8
      · rw [if_pos h3]
        exact ⟨_, rfl⟩
      · rw [if_neg h3]
        obtain ⟨p, hp⟩ := skipToFF_total buf ((size : Int) - 8) (by omega) (size + 1) 2
          (by omega)
        rw [hp]
        simp only
        obtain ⟨st, hst⟩ := quantLoop_total buf ((size : Int) - 8) (by omega) (size + 1) p
          ⟨none, none, 0⟩ (by omega)
        rw [hst]
        exact ⟨_, rfl⟩

theorem SjpegFindQuantizer_small (buf : List Byte) (size : Nat) (h : size < 69) :
    SjpegFindQuantizer (some buf) size = some (0, none, none) := by
  unfold SjpegFindQuantizer
  simp only [if_pos h]

/-! ## The locator as a fold over the visited entries -/

theorem dqtLoop_eq_entries (buf : List Byte) (src chunk_size fuel i : Nat) (st : QuantState) :
    dqtLoop buf src chunk_size fuel i st
      = (dqtEntries buf src chunk_size fuel i).map fun es => es.foldl applyEntry st := by
  induction fuel generalizing i st with
  | zero => rfl
  | succ fuel ih =>
    unfold dqtLoop dqtEntries
    by_cases h1 : i + 65 ≤ chunk_size
    · rw [if_pos h1, if_pos h1]
      cases hb : buf[src + i]? with
      | none => rfl
      | some b =>
        simp only
        rw [ih]
        cases dqtEntries buf src chunk_size fuel (i + 65) with
        | none => rfl
        | some es => rfl
    · rw [if_neg h1, if_neg h1]
      rfl

theorem quantLoop_eq_entries (buf : List Byte) (end_ : Int) (fuel src : Nat) (st : QuantState) :
    quantLoop buf end_ fuel src st
      = (quantEntries buf end_ fuel src).map fun es => es.foldl applyEntry st := by
  induction fuel generalizing src st with
  | zero => rfl
  | succ fuel ih =>
    unfold quantLoop quantEntries
    by_cases h1 : (src : Int) < end_
    · rw [if_pos h1, if_pos h1]
      cases hb0 : buf[src]? with
      | none => rfl
      | some b0 =>
        cases hb1 : buf[src + 1]? with
        | none => rfl
        | some b1 =>
          cases hb2 : buf[src + 2]? with
          | none => rfl
          | some b2 =>
            cases hb3 : buf[src + 3]? with
            | none => rfl
            | some b3 =>
              simp only
              generalize (b0.val <<< 8) ||| b1.val = marker
              generalize 2 + ((b2.val <<< 8) ||| b3.val) = chunk_size
              by_cases h2 : ((src + chunk_size : Nat) : Int) > end_
              · rw [if_pos h2, if_pos h2]
                rfl
              · rw [if_neg h2, if_neg h2]
                by_cases h3 : marker = M_SOS
                · rw [if_pos h3, if_pos h3]
                  rfl
                · rw [if_neg h3, if_neg h3]
                  by_cases h4 : marker = M_DQT
                  · rw [if_pos h4, if_pos h4, dqtLoop_eq_entries]
                    cases dqtEntries buf src chunk_size chunk_size 4 with
                    | none => rfl
                    | some es =>
                      simp only [Option.map_some']
                      rw [ih]
                      cases quantEntries buf end_ fuel (src + chunk_size) with
                      | none => rfl
                      | some rest => simp only [Option.map_some', List.foldl_append]
                  · rw [if_neg h4, if_neg h4]
                    simp only
                    rw [ih]
                    cases quantEntries buf end_ fuel (src + chunk_size) with
                    | none => rfl
                    | some rest => simp only [Option.map_some', List.nil_append]
    · rw [if_neg h1, if_neg h1]
      rfl

theorem SjpegFindQuantizer_eq_entries (src : Option (List Byte)) (size : Nat) :
    SjpegFindQuantizer src size
      = (visitedEntries src size).map fun es =>
          quantResult (es.foldl applyEntry ⟨none, none, 0⟩) := by
  unfold SjpegFindQuantizer visitedEntries
  cases src with
  | none => rfl
  | some buf =>
    simp only
    by_cases h1 : size < 69
    · rw [if_pos h1, if_pos h1]
      rfl
    · rw [if_neg h1, if_neg h1]
      cases hb0 : buf[0]? with
      | none => rfl
      | some b0 =>
        simp only
        by_cases h2 : b0.val ≠ 0xff
        · rw [if_pos h2, if_pos h2]
          rfl
        · rw [if_neg h2, if_neg h2]
          cases hb1 : buf[1]? with
          | none => rfl
          | some b1 =>
            simp only
            by_cases h3 : b1.val ≠ 0xd8
            · rw [if_pos h3, if_pos h3]
              rfl
            · rw [if_neg h3, if_neg h3]
              cases skipToFF buf ((size : Int) - 8) (size + 1) 2 with
              | none => rfl
              | some p =>
                simp only
                rw [quantLoop_eq_entries]
                cases quantEntries buf ((size : Int) - 8) (size + 1) p with
                | none => rfl
                | some es => rfl

theorem nb_comp_bits (n : Fin 8) :
    (n.val ||| 1 < 8 ∧ n.val ||| 2 < 8 ∧ n.val ||| 4 < 8) ∧
    ((n.val ||| 1) &&& 1 ≠ 0 ∧ ((n.val ||| 1) &&& 2 ≠ 0 ↔ n.val &&& 2 ≠ 0) ∧
      ((n.val ||| 1) &&& 4 ≠ 0 ↔ n.val &&& 4 ≠ 0)) ∧
    (((n.val ||| 2) &&& 1 ≠ 0 ↔ n.val &&& 1 ≠ 0) ∧ (n.val ||| 2) &&& 2 ≠ 0 ∧
      ((n.val ||| 2) &&& 4 ≠ 0 ↔ n.val &&& 4 ≠ 0)) ∧
    (((n.val ||| 4) &&& 1 ≠ 0 ↔ n.val &&& 1 ≠ 0) ∧
      ((n.val ||| 4) &&& 2 ≠ 0 ↔ n.val &&& 2 ≠ 0) ∧ (n.val ||| 4) &&& 4 ≠ 0) := by
  revert n
  decide

/-- The effect of one entry on the locals. -/
theorem applyEntry_spec (st : QuantState) (e : Nat × Nat) (h : st.nb_comp < 8) :
    (applyEntry st e).nb_comp < 8 ∧
    ((applyEntry st e).nb_comp &&& 1 ≠ 0 ↔ st.nb_comp &&& 1 ≠ 0 ∨ e.2 = 0) ∧
    ((applyEntry st e).nb_comp &&& 2 ≠ 0 ↔ st.nb_comp &&& 2 ≠ 0 ∨ e.2 = 1) ∧
    ((applyEntry st e).nb_comp &&& 4 ≠ 0 ↔ st.nb_comp &&& 4 ≠ 0 ∨ e.2 = 2) ∧
    ((applyEntry st e).quant0.isSome ↔ st.quant0.isSome ∨ e.2 = 0) ∧
    ((applyEntry st e).quant1.isSome ↔ st.quant1.isSome ∨ e.2 = 1) ∧
    (∀ p, (applyEntry st e).quant0 = some p → st.quant0 = some p ∨ (e.2 = 0 ∧ p = e.1 + 1)) ∧
    (∀ p, (applyEntry st e).quant1 = some p → st.quant1 = some p ∨ (e.2 = 1 ∧ p = e.1 + 1)) := by
  obtain ⟨off, t⟩ := e
  obtain ⟨q0, q1, nb⟩ := st
  simp only at h
  obtain ⟨⟨a1, a2, a3⟩, ⟨b1, b2, b3⟩, ⟨c1, c2, c3⟩, ⟨d1, d2, d3⟩⟩ := nb_comp_bits ⟨nb, h⟩
  simp only at a1 a2 a3 b1 b2 b3 c1 c2 c3 d1 d2 d3
  match t with
  | 0 =>
    simp only [applyEntry]
    refine ⟨a1, ?_, ?_, ?_, ?_, ?_, ?_, ?_⟩
    · exact ⟨fun _ => Or.inr trivial, fun _ => b1⟩
    · rw [b2]; simp
    · rw [b3]; simp
    · simp
    · simp
    · intro p hp
      simp only [Option.some.injEq] at hp
      exact Or.inr ⟨trivial, hp.symm⟩
    · intro p hp
      exact Or.inl hp
  | 1 =>
    simp only [applyEntry]
    refine ⟨a2, ?_, ?_, ?_, ?_, ?_, ?_, ?_⟩
    · rw [c1]; simp
    · exact ⟨fun _ => Or.inr trivial, fun _ => c2⟩
    · rw [c3]; simp
    · simp
    · simp
    · intro p hp
      exact Or.inl hp
    · intro p hp
      simp only [Option.some.injEq] at hp
      exact Or.inr ⟨trivial, hp.symm⟩
  | 2 =>
    simp only [applyEntry]
    refine ⟨a3, ?_, ?_, ?_, ?_, ?_, ?_, ?_⟩
    · rw [d1]; simp
    · rw [d2]; simp
    · exact ⟨fun _ => Or.inr trivial, fun _ => d3⟩
    · simp
    · simp
    · intro p hp
      exact Or.inl hp
    · intro p hp
      exact Or.inl hp
  | n + 3 =>
    simp only [applyEntry]
    refine ⟨h, ?_, ?_, ?_, ?_, ?_, ?_, ?_⟩
    · simp
    · simp
    · simp
    · simp
    · simp
    · intro p hp
      exact Or.inl hp
    · intro p hp
      exact Or.inl hp

/-- An entry whose table id is not 0, 1 or 2 changes nothing. -/
theorem applyEntry_other (st : QuantState) (e : Nat × Nat) (h : 3 ≤ e.2) :
    applyEntry st e = st := by
  obtain ⟨off, t⟩ := e
  simp only at h
  match t, h with
  | n + 3, _ => rfl

/-- The effect of a list of entries on the locals. -/
theorem foldl_applyEntry_spec (es : List (Nat × Nat)) (st : QuantState) (h : st.nb_comp < 8) :
    (es.foldl applyEntry st).nb_comp < 8 ∧
    ((es.foldl applyEntry st).nb_comp &&& 1 ≠ 0 ↔ st.nb_comp &&& 1 ≠ 0 ∨ ∃ e ∈ es, e.2 = 0) ∧
    ((es.foldl applyEntry st).nb_comp &&& 2 ≠ 0 ↔ st.nb_comp &&& 2 ≠ 0 ∨ ∃ e ∈ es, e.2 = 1) ∧
    ((es.foldl applyEntry st).nb_comp &&& 4 ≠ 0 ↔ st.nb_comp &&& 4 ≠ 0 ∨ ∃ e ∈ es, e.2 = 2) ∧
    ((es.foldl applyEntry st).quant0.isSome ↔ st.quant0.isSome ∨ ∃ e ∈ es, e.2 = 0) ∧
    ((es.foldl applyEntry st).quant1.isSome ↔ st.quant1.isSome ∨ ∃ e ∈ es, e.2 = 1) ∧
    (∀ p, (es.foldl applyEntry st).quant0 = some p →
      st.quant0 = some p ∨ ∃ e ∈ es, e.2 = 0 ∧ p = e.1 + 1) ∧
    (∀ p, (es.foldl applyEntry st).quant1 = some p →
      st.quant1 = some p ∨ ∃ e ∈ es, e.2 = 1 ∧ p = e.1 + 1) := by
  induction es generalizing st with
  | nil => simp [h]
  | cons e es ih =>
    obtain ⟨s1, s2, s3, s4, s5, s6, s7, s8⟩ := applyEntry_spec st e h
    obtain ⟨i1, i2, i3, i4, i5, i6, i7, i8⟩ := ih (applyEntry st e) s1
    simp only [List.foldl_cons, List.mem_cons, exists_eq_or_imp]
    refine ⟨i1, ?_, ?_, ?_, ?_, ?_, ?_, ?_⟩
    · rw [i2, s2, or_assoc]
    · rw [i3, s3, or_assoc]
    · rw [i4, s4, or_assoc]
    · rw [i5, s5, or_assoc]
    · rw [i6, s6, or_assoc]
    · intro p hp
      rcases i7 p hp with a | ⟨e', he', a⟩
      · rcases s7 p a with b | b
        · exact Or.inl b
        · exact Or.inr (Or.inl b)
      · exact Or.inr (Or.inr ⟨e', he', a⟩)
    · intro p hp
      rcases i8 p hp with a | ⟨e', he', a⟩
      · rcases s8 p a with b | b
        · exact Or.inl b
        · exact Or.inr (Or.inl b)
      · exact Or.inr (Or.inr ⟨e', he', a⟩)

theorem byteAt_of_read (buf : List Byte) (i : Nat) (b : Byte) (h : buf[i]? = some b) :
    byteAt buf i = b.val := by
  simp [byteAt, h]

theorem dqtEntries_bounds (buf : List Byte) (src chunk_size fuel i : Nat)
    (es : List (Nat × Nat)) (h : dqtEntries buf src chunk_size fuel i = some es) (hi : 4 ≤ i) :
    ∀ e ∈ es, src + 4 ≤ e.1 ∧ e.1 + 65 ≤ src + chunk_size ∧ byteAt buf e.1 &&& 0x0f = e.2 := by
  induction fuel generalizing i es with
  | zero => simp [dqtEntries] at h
  | succ fuel ih =>
    unfold dqtEntries at h
    by_cases h1 : i + 65 ≤ chunk_size
    · rw [if_pos h1] at h
      cases hb : buf[src + i]? with
      | none => simp [hb] at h
      | some b =>
        simp only [hb] at h
        cases hr : dqtEntries buf src chunk_size fuel (i + 65) with
        | none => simp [hr] at h
        | some rest =>
          simp only [hr, Option.some.injEq] at h
          subst h
          intro e he
          rcases List.mem_cons.mp he with rfl | he
          · exact ⟨by omega, by omega, by rw [byteAt_of_read _ _ _ hb]⟩
          · exact ih _ _ hr (by omega) e he
    · rw [if_neg h1] at h
      simp only [Option.some.injEq] at h
      subst h
      intro e he
      cases he

/-- Every entry visited by the segment walk lies inside a quantization-table
segment that starts at `s ≥ 2` and ends at or before `end`. -/
theorem quantEntries_bounds (buf : List Byte) (end_ : Int) (fuel src : Nat)
    (es : List (Nat × Nat)) (h : quantEntries buf end_ fuel src = some es) (hsrc : 2 ≤ src) :
    ∀ e ∈ es, ∃ s len : Nat, 2 ≤ s ∧ byteAt buf s = 0xff ∧ byteAt buf (s + 1) = 0xdb ∧
      len = byteAt buf (s + 2) * 256 + byteAt buf (s + 3) ∧
      ((s + 2 + len : Nat) : Int) ≤ end_ ∧ s + 4 ≤ e.1 ∧ e.1 + 65 ≤ s + 2 + len ∧
      byteAt buf e.1 &&& 0x0f = e.2 := by
  induction fuel generalizing src es with
  | zero => simp [quantEntries] at h
  | succ fuel ih =>
    unfold quantEntries at h
    by_cases h1 : (src : Int) < end_
    · rw [if_pos h1] at h
      cases hb0 : buf[src]? with
      | none => simp [hb0] at h
      | some b0 =>
        cases hb1 : buf[src + 1]? with
        | none => simp [hb0, hb1] at h
        | some b1 =>
          cases hb2 : buf[src + 2]? with
          | none => simp [hb0, hb1, hb2] at h
          | some b2 =>
            cases hb3 : buf[src + 3]? with
            | none => simp [hb0, hb1, hb2, hb3] at h
            | some b3 =>
              simp only [hb0, hb1, hb2, hb3] at h
              rw [be16_eq _ _ b1.isLt, be16_eq _ _ b3.isLt] at h
              by_cases h2 : ((src + (2 + (b2.val * 256 + b3.val)) : Nat) : Int) > end_
              · rw [if_pos h2] at h
                simp only [Option.some.injEq] at h
                subst h
                intro e he
                cases he
              · rw [if_neg h2] at h
                by_cases h3 : b0.val * 256 + b1.val = M_SOS
                · rw [if_pos h3] at h
                  simp only [Option.some.injEq] at h
                  subst h
                  intro e he
                  cases he
                · rw [if_neg h3] at h
                  cases hr : quantEntries buf end_ fuel (src + (2 + (b2.val * 256 + b3.val))) with
                  | none =>
                    simp only [hr] at h
                    split at h <;> simp at h
                  | some rest =>
                    have ihr := ih _ _ hr (by omega)
                    by_cases h4 : b0.val * 256 + b1.val = M_DQT
                    · rw [if_pos h4] at h
                      cases hd : dqtEntries buf src (2 + (b2.val * 256 + b3.val))
                          (2 + (b2.val * 256 + b3.val)) 4 with
                      | none => simp [hd] at h
                      | some des =>
                        simp only [hd, hr, Option.some.injEq] at h
                        subst h
                        have hdb := dqtEntries_bounds _ _ _ _ _ _ hd (le_refl _)
                        intro e he
                        rcases List.mem_append.mp he with he | he
                        · obtain ⟨d1, d2, d3⟩ := hdb e he
                          have m0 := b0.isLt
                          have m1 := b1.isLt
                          simp only [M_DQT] at h4
                          refine ⟨src, b2.val * 256 + b3.val, hsrc, ?_, ?_, ?_, by omega,
                            d1, by omega, d3⟩
                          · rw [byteAt_of_read _ _ _ hb0]
                            omega
                          · rw [byteAt_of_read _ _ _ hb1]
                            omega
                          · rw [byteAt_of_read _ _ _ hb2, byteAt_of_read _ _ _ hb3]
                        · exact ihr e he
                    · rw [if_neg h4] at h
                      simp only [hr, Option.some.injEq, List.nil_append] at h
                      subst h
                      exact ihr
    · rw [if_neg h1] at h
      simp only [Option.some.injEq] at h
      subst h
      intro e he
      cases he

theorem visitedEntries_bounds (buf : List Byte) (size : Nat) (es : List (Nat × Nat))
    (h : visitedEntries (some buf) size = some es) :
    ∀ e ∈ es, ∃ s len : Nat, 2 ≤ s ∧ byteAt buf s = 0xff ∧ byteAt buf (s + 1) = 0xdb ∧
      len = byteAt buf (s + 2) * 256 + byteAt buf (s + 3) ∧
      ((s + 2 + len : Nat) : Int) ≤ (size : Int) - 8 ∧ s + 4 ≤ e.1 ∧ e.1 + 65 ≤ s + 2 + len ∧
      byteAt buf e.1 &&& 0x0f = e.2 := by
  unfold visitedEntries at h
  simp only at h
  have hnil : ∀ es' : List (Nat × Nat), some ([] : List (Nat × Nat)) = some es' →
      ∀ e ∈ es', ∃ s len : Nat, 2 ≤ s ∧ byteAt buf s = 0xff ∧ byteAt buf (s + 1) = 0xdb ∧
      len = byteAt buf (s + 2) * 256 + byteAt buf (s + 3) ∧
      ((s + 2 + len : Nat) : Int) ≤ (size : Int) - 8 ∧ s + 4 ≤ e.1 ∧ e.1 + 65 ≤ s + 2 + len ∧
      byteAt buf e.1 &&& 0x0f = e.2 := by
    intro es' h' e he
    simp only [Option.some.injEq] at h'
    subst h'
    cases he
  by_cases h1 : size < 69
  · rw [if_pos h1] at h
    exact hnil es h
  · rw [if_neg h1] at h
    cases hb0 : buf[0]? with
    | none => simp [hb0] at h
    | some b0 =>
      simp only [hb0] at h
      by_cases h2 : b0.val ≠ 0xff
      · rw [if_pos h2] at h
        exact hnil es h
      · rw [if_neg h2] at h
        cases hb1 : buf[1]? with
        | none => simp [hb1] at h
        | some b1 =>
          simp only [hb1] at h
          by_cases h3 : b1.val ≠ 0xd8
          · rw [if_pos h3] at h
            exact hnil es h
          · rw [if_neg h3] at h
            cases hp : skipToFF buf ((size : Int) - 8) (size + 1) 2 with
            | none => simp [hp] at h
            | some p =>
              simp only [hp] at h
              exact quantEntries_bounds _ _ _ _ _ h (skipToFF_ge _ _ _ _ _ hp)

theorem visitedEntries_total (buf : List Byte) (size : Nat) (hlen : size ≤ buf.length) :
    ∃ es, visitedEntries (some buf) size = some es := by
  obtain ⟨r, hr⟩ := SjpegFindQuantizer_total buf size hlen
  rw [SjpegFindQuantizer_eq_entries] at hr
  cases hv : visitedEntries (some buf) size with
  | none => simp [hv] at hr
  | some es => exact ⟨es, rfl⟩

theorem foldl_applyEntry_filter (es : List (Nat × Nat)) (st : QuantState) :
    es.foldl applyEntry st = (es.filter fun e => decide (e.2 < 3)).foldl applyEntry st := by
  induction es generalizing st with
  | nil => rfl
  | cons e es ih =>
    by_cases h : e.2 < 3
    · rw [List.filter_cons_of_pos (by simpa using h), List.foldl_cons, List.foldl_cons, ih]
    · rw [List.filter_cons_of_neg (by simpa using h), List.foldl_cons,
        applyEntry_other st e (by omega), ih]

/-- A segment whose end would pass `end` stops the walk and leaves the locals
as they are. -/
theorem quantLoop_overflow (buf : List Byte) (end_ : Int) (fuel src : Nat) (st : QuantState)
    (h1 : (src : Int) < end_) (hlen : src + 3 < buf.length)
    (h2 : ((src + 2 + (byteAt buf (src + 2) * 256 + byteAt buf (src + 3)) : Nat) : Int) > end_) :
    quantLoop buf end_ (fuel + 1) src st = some st := by
  obtain ⟨b0, r0, -⟩ := exists_read buf src (by omega)
  obtain ⟨b1, r1, -⟩ := exists_read buf (src + 1) (by omega)
  obtain ⟨b2, r2, v2⟩ := exists_read buf (src + 2) (by omega)
  obtain ⟨b3, r3, v3⟩ := exists_read buf (src + 3) (by omega)
  rw [v2, v3] at h2
  unfold quantLoop
  rw [if_pos h1]
  simp only [r0, r1, r2, r3]
  rw [be16_eq _ _ b3.isLt, if_pos (by omega)]

theorem count_eq_filter (ids : List Nat) (n : Nat)
    (h0 : n &&& 1 ≠ 0 ↔ 0 ∈ ids) (h1 : n &&& 2 ≠ 0 ↔ 1 ∈ ids) (h2 : n &&& 4 ≠ 0 ↔ 2 ∈ ids) :
    ((if n &&& 1 ≠ 0 then 1 else 0) + (if n &&& 2 ≠ 0 then 1 else 0)
        + (if n &&& 4 ≠ 0 then 1 else 0) : Int)
      = ((([0, 1, 2] : List Nat).filter fun t => decide (t ∈ ids)).length : Int) := by
  simp only [h0, h1, h2]
  by_cases a : 0 ∈ ids <;> by_cases b : 1 ∈ ids <;> by_cases c : 2 ∈ ids <;>
    simp [List.filter, a, b, c]

/-- One step of the segment walk over a quantization-table segment of length
67 (one entry), which lies before `end`. -/
theorem quantLoop_dqt_single (buf : List Byte) (end_ : Int) (fuel src : Nat) (st : QuantState)
    (t : Byte) (r0 : buf[src]? = some 0xff) (r1 : buf[src + 1]? = some 0xdb)
    (r2 : buf[src + 2]? = some 0x00) (r3 : buf[src + 3]? = some 0x43)
    (r4 : buf[src + 4]? = some t) (hend : ((src + 69 : Nat) : Int) ≤ end_) :
    quantLoop buf end_ (fuel + 1) src st
      = quantLoop buf end_ fuel (src + 69) (applyEntry st (src + 4, t.val &&& 0x0f)) := by
  have h1 : (src : Int) < end_ := by omega
  have hm : ((0xff : Byte).val <<< 8) ||| (0xdb : Byte).val = M_DQT := by decide
  have hc : 2 + (((0x00 : Byte).val <<< 8) ||| (0x43 : Byte).val) = 69 := by decide
  rw [quantLoop, if_pos h1]
  simp only [r0, r1, r2, r3, hm, hc]
  rw [if_neg (by omega), if_neg (by decide), if_pos trivial, dqtLoop_eq_entries]
  have he : dqtEntries buf src 69 69 4 = some [(src + 4, t.val &&& 0x0f)] := by
    rw [dqtEntries, if_pos (by omega)]
    simp only [r4]
    rw [dqtEntries, if_neg (by omega)]
  rw [he]
  rfl

theorem twoTables_reads (t1 : Byte) (c1 : List Byte) (t2 : Byte) (c2 : List Byte)
    (rest : List Byte) (h1 : c1.length = 64) (h2 : c2.length = 64) :
    (twoTables t1 c1 t2 c2 rest).length = rest.length + 140 ∧
    (twoTables t1 c1 t2 c2 rest)[0]? = some 0xff ∧
    (twoTables t1 c1 t2 c2 rest)[1]? = some 0xd8 ∧
    (twoTables t1 c1 t2 c2 rest)[2]? = some 0xff ∧
    (twoTables t1 c1 t2 c2 rest)[2 + 1]? = some 0xdb ∧
    (twoTables t1 c1 t2 c2 rest)[2 + 2]? = some 0x00 ∧
    (twoTables t1 c1 t2 c2 rest)[2 + 3]? = some 0x43 ∧
    (twoTables t1 c1 t2 c2 rest)[2 + 4]? = some t1 ∧
    (twoTables t1 c1 t2 c2 rest)[71]? = some 0xff ∧
    (twoTables t1 c1 t2 c2 rest)[71 + 1]? = some 0xdb ∧
    (twoTables t1 c1 t2 c2 rest)[71 + 2]? = some 0x00 ∧
    (twoTables t1 c1 t2 c2 rest)[71 + 3]? = some 0x43 ∧
    (twoTables t1 c1 t2 c2 rest)[71 + 4]? = some t2 ∧
    (∀ k, (twoTables t1 c1 t2 c2 rest)[140 + k]? = rest[k]?) ∧
    ((twoTables t1 c1 t2 c2 rest).drop 76).take 64 = c2 := by
  have e : twoTables t1 c1 t2 c2 rest
      = ([0xff, 0xd8, 0xff, 0xdb, 0x00, 0x43, t1] ++ c1)
        ++ (([0xff, 0xdb, 0x00, 0x43, t2] ++ c2) ++ rest) := by
    simp [twoTables, dqtSegment]
  have l1 : ([0xff, 0xd8, 0xff, 0xdb, 0x00, 0x43, t1] ++ c1 : List Byte).length = 71 := by
    simp [h1]
  have l2 : ([0xff, 0xdb, 0x00, 0x43, t2] ++ c2 : List Byte).length = 69 := by
    simp [h2]
  have first : ∀ k, k < 7 → (twoTables t1 c1 t2 c2 rest)[k]?
      = ([0xff, 0xd8, 0xff, 0xdb, 0x00, 0x43, t1] : List Byte)[k]? := by
    intro k hk
    rw [e, List.getElem?_append_left (by omega), List.getElem?_append_left (by simpa using hk)]
  have second : ∀ k, k < 5 → (twoTables t1 c1 t2 c2 rest)[71 + k]?
      = ([0xff, 0xdb, 0x00, 0x43, t2] : List Byte)[k]? := by
    intro k hk
    rw [e, List.getElem?_append_right (by omega), l1, List.getElem?_append_left (by omega),
      List.getElem?_append_left (by simpa using hk)]
    congr 1
    omega
  refine ⟨?_, ?_, ?_, ?_, ?_, ?_, ?_, ?_, ?_, ?_, ?_, ?_, ?_, ?_, ?_⟩
  · rw [e]
    simp only [List.length_append, List.length_cons, List.length_nil, h1, h2]
    omega
  · rw [first 0 (by omega)]; rfl
  · rw [first 1 (by omega)]; rfl
  · rw [first 2 (by omega)]; rfl
  · rw [first (2 + 1) (by omega)]; rfl
  · rw [first (2 + 2) (by omega)]; rfl
  · rw [first (2 + 3) (by omega)]; rfl
  · rw [first (2 + 4) (by omega)]; rfl
  · rw [second 0 (by omega)]; rfl
  · rw [second 1 (by omega)]; rfl
  · rw [second 2 (by omega)]; rfl
  · rw [second 3 (by omega)]; rfl
  · rw [second 4 (by omega)]; rfl
  · intro k
    rw [e, List.getElem?_append_right (by omega), l1, List.getElem?_append_right (by omega), l2,
      show 140 + k - 71 - 69 = k by omega]
  · have e2 : twoTables t1 c1 t2 c2 rest
        = (([0xff, 0xd8, 0xff, 0xdb, 0x00, 0x43, t1] ++ c1) ++ [0xff, 0xdb, 0x00, 0x43, t2])
          ++ (c2 ++ rest) := by
      simp [twoTables, dqtSegment]
    have l3 : ((([0xff, 0xd8, 0xff, 0xdb, 0x00, 0x43, t1] ++ c1)
        ++ [0xff, 0xdb, 0x00, 0x43, t2] : List Byte)).length = 76 := by
      simp [h1]
    rw [e2, List.drop_append_of_le_length (by omega), List.drop_of_length_le (by omega),
      List.nil_append, List.take_append_of_le_length (by omega), List.take_of_length_le (by omega)]

/-- The segment walk over the two-table buffer, from the first segment on,
when nothing that follows the second segment is examined as a table. -/
theorem quantLoop_twoTables (t1 : Byte) (c1 : List Byte) (t2 : Byte) (c2 : List Byte)
    (rest : List Byte) (h1 : c1.length = 64) (h2 : c2.length = 64)
    (hrest : rest.length = 8 ∨ (8 ≤ rest.length ∧ rest[0]? = some 0xff ∧ rest[1]? = some 0xda))
    (fuel : Nat) (st : QuantState) :
    quantLoop (twoTables t1 c1 t2 c2 rest) (((rest.length + 140 : Nat) : Int) - 8)
        (fuel + 1 + 1 + 1) 2 st
      = some (applyEntry (applyEntry st (2 + 4, t1.val &&& 0x0f)) (71 + 4, t2.val &&& 0x0f)) := by
  obtain ⟨-, -, -, a0, a1, a2, a3, a4, b0, b1, b2, b3, b4, hk, -⟩ :=
    twoTables_reads t1 c1 t2 c2 rest h1 h2
  have hlen : 8 ≤ rest.length := by
    rcases hrest with h | h
    · omega
    · exact h.1
  rw [quantLoop_dqt_single _ _ _ 2 st t1 a0 a1 a2 a3 a4 (by omega),
    show (2 + 69 : Nat) = 71 from rfl,
    quantLoop_dqt_single _ _ _ 71 _ t2 b0 b1 b2 b3 b4 (by omega),
    show (71 + 69 : Nat) = 140 from rfl, quantLoop]
  by_cases hlt : ((140 : Nat) : Int) < ((rest.length + 140 : Nat) : Int) - 8
  · rw [if_pos hlt]
    rcases hrest with h | ⟨-, m0, m1⟩
    · omega
    · obtain ⟨x2, r2, -⟩ := exists_read rest 2 (by omega)
      obtain ⟨x3, r3, -⟩ := exists_read rest 3 (by omega)
      have q0 := (hk 0).trans m0
      have q1 := (hk 1).trans m1
      have q2 := (hk 2).trans r2
      have q3 := (hk 3).trans r3
      have hm : ((0xff : Byte).val <<< 8) ||| (0xda : Byte).val = M_SOS := by decide
      simp only [q0, q1, q2, q3, hm]
      split_ifs <;> rfl
  · rw [if_neg hlt]

/-- The call once the structural precheck has passed and the first 0xff has
been found at `p`. -/
theorem SjpegFindQuantizer_run (buf : List Byte) (size p : Nat) (hsize : ¬ size < 69)
    (r0 : buf[0]? = some 0xff) (r1 : buf[1]? = some 0xd8)
    (hskip : skipToFF buf ((size : Int) - 8) (size + 1) 2 = some p) :
    SjpegFindQuantizer (some buf) size
      = (quantLoop buf ((size : Int) - 8) (size + 1) p ⟨none, none, 0⟩).map quantResult := by
  have hff : ¬ ((0xff : Byte).val ≠ 0xff) := by decide
  have hd8 : ¬ ((0xd8 : Byte).val ≠ 0xd8) := by decide
  unfold SjpegFindQuantizer
  simp only [r0, r1, if_neg hsize, if_neg hff, if_neg hd8, hskip]
  cases quantLoop buf ((size : Int) - 8) (size + 1) p ⟨none, none, 0⟩ with
  | none => rfl
  | some st => rfl

/-- Every entry visited by the walk that starts at `src` lies after `src`. -/
theorem quantEntries_ge (buf : List Byte) (end_ : Int) (fuel src : Nat)
    (es : List (Nat × Nat)) (h : quantEntries buf end_ fuel src = some es) :
    ∀ e ∈ es, src + 4 ≤ e.1 := by
  induction fuel generalizing src es with
  | zero => simp [quantEntries] at h
  | succ fuel ih =>
    unfold quantEntries at h
    by_cases h1 : (src : Int) < end_
    · rw [if_pos h1] at h
      cases hb0 : buf[src]? with
      | none => simp [hb0] at h
      | some b0 =>
        cases hb1 : buf[src + 1]? with
        | none => simp [hb0, hb1] at h
        | some b1 =>
          cases hb2 : buf[src + 2]? with
          | none => simp [hb0, hb1, hb2] at h
          | some b2 =>
            cases hb3 : buf[src + 3]? with
            | none => simp [hb0, hb1, hb2, hb3] at h
            | some b3 =>
              simp only [hb0, hb1, hb2, hb3] at h
              generalize (b0.val <<< 8) ||| b1.val = marker at h
              generalize (b2.val <<< 8) ||| b3.val = len at h
              by_cases h2 : ((src + (2 + len) : Nat) : Int) > end_
              · rw [if_pos h2] at h
                simp only [Option.some.injEq] at h
                subst h
                intro e he
                cases he
              · rw [if_neg h2] at h
                by_cases h3 : marker = M_SOS
                · rw [if_pos h3] at h
                  simp only [Option.some.injEq] at h
                  subst h
                  intro e he
                  cases he
                · rw [if_neg h3] at h
                  cases hr : quantEntries buf end_ fuel (src + (2 + len)) with
                  | none =>
                    simp only [hr] at h
                    split at h <;> simp at h
                  | some rest =>
                    have ihr := ih _ _ hr
                    by_cases h4 : marker = M_DQT
                    · rw [if_pos h4] at h
                      cases hd : dqtEntries buf src (2 + len) (2 + len) 4 with
                      | none => simp [hd] at h
                      | some des =>
                        simp only [hd, hr, Option.some.injEq] at h
                        subst h
                        have hdb := dqtEntries_bounds _ _ _ _ _ _ hd (le_refl _)
                        intro e he
                        rcases List.mem_append.mp he with he | he
                        · exact (hdb e he).1
                        · have := ihr e he
                          omega
                    · rw [if_neg h4] at h
                      simp only [hr, Option.some.injEq, List.nil_append] at h
                      subst h
                      intro e he
                      have := ihr e he
                      omega
    · rw [if_neg h1] at h
      simp only [Option.some.injEq] at h
      subst h
      intro e he
      cases he

/-- One step of the entry walk over a quantization-table segment of length 67
(one entry), which lies before `end`. -/
theorem quantEntries_dqt_single (buf : List Byte) (end_ : Int) (fuel src : Nat)
    (t : Byte) (r0 : buf[src]? = some 0xff) (r1 : buf[src + 1]? = some 0xdb)
    (r2 : buf[src + 2]? = some 0x00) (r3 : buf[src + 3]? = some 0x43)
    (r4 : buf[src + 4]? = some t) (hend : ((src + 69 : Nat) : Int) ≤ end_) :
    quantEntries buf end_ (fuel + 1) src
      = (quantEntries buf end_ fuel (src + 69)).map
          fun rest => (src + 4, t.val &&& 0x0f) :: rest := by
  have h1 : (src : Int) < end_ := by omega
  have hm : ((0xff : Byte).val <<< 8) ||| (0xdb : Byte).val = M_DQT := by decide
  have hc : 2 + (((0x00 : Byte).val <<< 8) ||| (0x43 : Byte).val) = 69 := by decide
  have he : dqtEntries buf src 69 69 4 = some [(src + 4, t.val &&& 0x0f)] := by
    rw [dqtEntries, if_pos (by omega)]
    simp only [r4]
    rw [dqtEntries, if_neg (by omega)]
  rw [quantEntries, if_pos h1]
  simp only [r0, r1, r2, r3, hm, hc]
  rw [if_neg (by omega), if_neg (by decide), if_pos trivial, he]
  cases quantEntries buf end_ fuel (src + 69) with
  | none => rfl
  | some rest => rfl

/-- The visited entries once the structural precheck has passed and the first
0xff has been found at `p`. -/
theorem visitedEntries_run (buf : List Byte) (size p : Nat) (hsize : ¬ size < 69)
    (r0 : buf[0]? = some 0xff) (r1 : buf[1]? = some 0xd8)
    (hskip : skipToFF buf ((size : Int) - 8) (size + 1) 2 = some p) :
    visitedEntries (some buf) size = quantEntries buf ((size : Int) - 8) (size + 1) p := by
  have hff : ¬ ((0xff : Byte).val ≠ 0xff) := by decide
  have hd8 : ¬ ((0xd8 : Byte).val ≠ 0xd8) := by decide
  unfold visitedEntries
  simp only [r0, r1, if_neg hsize, if_neg hff, if_neg hd8, hskip]

/-- The entries visited in the two-table buffer: the entry of each of the two
segments, and then entries that lie after the second segment. -/
theorem visitedEntries_twoTables (t1 : Byte) (c1 : List Byte) (t2 : Byte) (c2 : List Byte)
    (rest : List Byte) (h1 : c1.length = 64) (h2 : c2.length = 64) (hrest : 8 ≤ rest.length)
    (es : List (Nat × Nat))
    (hes : visitedEntries (some (twoTables t1 c1 t2 c2 rest)) (twoTables t1 c1 t2 c2 rest).length
      = some es) :
    ∃ later : List (Nat × Nat),
      es = (6, t1.val &&& 0x0f) :: (75, t2.val &&& 0x0f) :: later ∧ ∀ e ∈ later, 144 ≤ e.1 := by
  obtain ⟨hl, r0, r1, a0, a1, a2, a3, a4, b0, b1, b2, b3, b4, -, -⟩ :=
    twoTables_reads t1 c1 t2 c2 rest h1 h2
  have hff : ¬ ((0xff : Byte).val ≠ 0xff) := by decide
  rw [hl] at hes
  have hskip : skipToFF (twoTables t1 c1 t2 c2 rest) (((rest.length + 140 : Nat) : Int) - 8)
      (rest.length + 140 + 1) 2 = some 2 := by
    rw [skipToFF, if_pos (by omega)]
    simp only [a0, if_neg hff]
  rw [visitedEntries_run _ _ 2 (by omega) r0 r1 hskip,
    show rest.length + 140 + 1 = (rest.length + 139) + 1 + 1 from rfl,
    quantEntries_dqt_single _ _ _ 2 t1 a0 a1 a2 a3 a4 (by omega),
    show (2 + 69 : Nat) = 71 from rfl,
    quantEntries_dqt_single _ _ _ 71 t2 b0 b1 b2 b3 b4 (by omega),
    show (71 + 69 : Nat) = 140 from rfl] at hes
  cases hq : quantEntries (twoTables t1 c1 t2 c2 rest) (((rest.length + 140 : Nat) : Int) - 8)
      (rest.length + 139) 140 with
  | none =>
    rw [hq] at hes
    cases hes
  | some later =>
    rw [hq] at hes
    simp only [Option.map_some', Option.some.injEq] at hes
    exact ⟨later, hes.symm, quantEntries_ge _ _ _ _ _ hq⟩

/-! ## The segment walk of the locator and the scan-start marker -/

theorem skipToFF_agree (buf1 buf2 : List Byte) (end_ : Int) (fuel src p0 : Nat)
    (h : skipToFF buf1 end_ fuel src = some p0)
    (hagree : ∀ i, i ≤ p0 → buf1[i]? = buf2[i]?) :
    skipToFF buf2 end_ fuel src = some p0 := by
  induction fuel generalizing src with
  | zero => simp [skipToFF] at h
  | succ fuel ih =>
    have hge := skipToFF_ge _ _ _ _ _ h
    unfold skipToFF at h ⊢
    by_cases h1 : (src : Int) < end_
    · rw [if_pos h1] at h ⊢
      rw [← hagree src hge]
      cases hb : buf1[src]? with
      | none => simp [hb] at h
      | some b =>
        simp only [hb] at h ⊢
        by_cases h2 : b.val ≠ 0xff
        · rw [if_pos h2] at h ⊢
          exact ih _ h
        · rw [if_neg h2] at h ⊢
          exact h
    · rw [if_neg h1] at h ⊢
      exact h

theorem dqtLoop_agree (buf1 buf2 : List Byte) (src chunk_size fuel i : Nat) (st : QuantState)
    (hagree : ∀ k, k < src + chunk_size → buf1[k]? = buf2[k]?) :
    dqtLoop buf1 src chunk_size fuel i st = dqtLoop buf2 src chunk_size fuel i st := by
  induction fuel generalizing i st with
  | zero => rfl
  | succ fuel ih =>
    unfold dqtLoop
    by_cases h1 : i + 65 ≤ chunk_size
    · rw [if_pos h1, if_pos h1, ← hagree (src + i) (by omega)]
      cases buf1[src + i]? with
      | none => rfl
      | some b => exact ih _ _
    · rw [if_neg h1, if_neg h1]

/-- Every offset of the walk is at or after its start and before `end`. -/
theorem quantWalk_bounds (buf : List Byte) (end_ : Int) (fuel src : Nat) (ps : List Nat)
    (h : quantWalk buf end_ fuel src = some ps) :
    ∀ p ∈ ps, src ≤ p ∧ (p : Int) < end_ := by
  induction fuel generalizing src ps with
  | zero => simp [quantWalk] at h
  | succ fuel ih =>
    unfold quantWalk at h
    by_cases h1 : (src : Int) < end_
    · rw [if_pos h1] at h
      cases hb0 : buf[src]? with
      | none => simp [hb0] at h
      | some b0 =>
        cases hb1 : buf[src + 1]? with
        | none => simp [hb0, hb1] at h
        | some b1 =>
          cases hb2 : buf[src + 2]? with
          | none => simp [hb0, hb1, hb2] at h
          | some b2 =>
            cases hb3 : buf[src + 3]? with
            | none => simp [hb0, hb1, hb2, hb3] at h
            | some b3 =>
              simp only [hb0, hb1, hb2, hb3] at h
              generalize (b0.val <<< 8) ||| b1.val = marker at h
              generalize (b2.val <<< 8) ||| b3.val = len at h
              have hhere : ∀ p ∈ [src], src ≤ p ∧ (p : Int) < end_ := by
                intro p hp
                rw [List.mem_singleton] at hp
                subst hp
                exact ⟨le_refl _, h1⟩
              by_cases h2 : ((src + (2 + len) : Nat) : Int) > end_
              · rw [if_pos h2] at h
                simp only [Option.some.injEq] at h
                subst h
                exact hhere
              · rw [if_neg h2] at h
                by_cases h3 : marker = M_SOS
                · rw [if_pos h3] at h
                  simp only [Option.some.injEq] at h
                  subst h
                  exact hhere
                · rw [if_neg h3] at h
                  cases hr : quantWalk buf end_ fuel (src + (2 + len)) with
                  | none => simp [hr] at h
                  | some rest =>
                    simp only [hr, Option.some.injEq] at h
                    subst h
                    intro p hp
                    rcases List.mem_cons.mp hp with rfl | hp
                    · exact ⟨le_refl _, h1⟩
                    · obtain ⟨a, b⟩ := ih _ _ hr p hp
                      exact ⟨by omega, b⟩
    · rw [if_neg h1] at h
      simp only [Option.some.injEq] at h
      subst h
      intro p hp
      cases hp

/-- If the walk over `buf1` examines a scan-start marker at `p`, the walk stops
there, and a buffer that agrees with `buf1` below `p + 2` gives the same
locals. -/
theorem quantLoop_agree (buf1 buf2 : List Byte) (end_ : Int) (fuel src p : Nat)
    (ps : List Nat) (st : QuantState)
    (h : quantWalk buf1 end_ fuel src = some ps) (hp : p ∈ ps)
    (m0 : buf1[p]? = some 0xff) (m1 : buf1[p + 1]? = some 0xda)
    (hagree : ∀ i, i < p + 2 → buf1[i]? = buf2[i]?) (hlen2 : p + 3 < buf2.length) :
    ps.getLast? = some p ∧
    quantLoop buf1 end_ fuel src st = quantLoop buf2 end_ fuel src st := by
  induction fuel generalizing src ps st with
  | zero => simp [quantWalk] at h
  | succ fuel ih =>
    unfold quantWalk at h
    unfold quantLoop
    by_cases h1 : (src : Int) < end_
    · rw [if_pos h1] at h
      rw [if_pos h1, if_pos h1]
      cases hb0 : buf1[src]? with
      | none => simp [hb0] at h
      | some b0 =>
        cases hb1 : buf1[src + 1]? with
        | none => simp [hb0, hb1] at h
        | some b1 =>
          cases hb2 : buf1[src + 2]? with
          | none => simp [hb0, hb1, hb2] at h
          | some b2 =>
            cases hb3 : buf1[src + 3]? with
            | none => simp [hb0, hb1, hb2, hb3] at h
            | some b3 =>
              simp only [hb0, hb1, hb2, hb3] at h
              by_cases hsp : src = p
              · subst hsp
                have e0 : b0 = 0xff := by
                  rw [hb0] at m0
                  exact Option.some.inj m0
                have e1 : b1 = 0xda := by
                  rw [hb1] at m1
                  exact Option.some.inj m1
                subst e0 e1
                have hm : ((0xff : Byte).val <<< 8) ||| (0xda : Byte).val = M_SOS := by decide
                obtain ⟨x2, r2, -⟩ := exists_read buf2 (src + 2) (by omega)
                obtain ⟨x3, r3, -⟩ := exists_read buf2 (src + 3) (by omega)
                have a0 := hagree src (by omega)
                have a1 := hagree (src + 1) (by omega)
                rw [hb0] at a0
                rw [hb1] at a1
                simp only [hm] at h
                simp only [← a0, ← a1, r2, r3, hm]
                constructor
                · split_ifs at h <;> (simp only [Option.some.injEq] at h; subst h; rfl)
                · split_ifs <;> rfl
              · have hhere : ∀ l : List Nat, some [src] = some l → p ∈ l → False := by
                  intro l hl hpl
                  simp only [Option.some.injEq] at hl
                  subst hl
                  rw [List.mem_singleton] at hpl
                  exact hsp hpl.symm
                by_cases h2 : ((src + (2 + ((b2.val <<< 8) ||| b3.val)) : Nat) : Int) > end_
                · rw [if_pos h2] at h
                  exact (hhere ps h hp).elim
                · rw [if_neg h2] at h
                  by_cases h3 : (b0.val <<< 8) ||| b1.val = M_SOS
                  · rw [if_pos h3] at h
                    exact (hhere ps h hp).elim
                  · rw [if_neg h3] at h
                    cases hr : quantWalk buf1 end_ fuel
                        (src + (2 + ((b2.val <<< 8) ||| b3.val))) with
                    | none => simp [hr] at h
                    | some rest =>
                      simp only [hr, Option.some.injEq] at h
                      subst h
                      have hprest : p ∈ rest := by
                        rcases List.mem_cons.mp hp with e | e
                        · exact (hsp e.symm).elim
                        · exact e
                      obtain ⟨hge, -⟩ := quantWalk_bounds _ _ _ _ _ hr p hprest
                      have a0 := hagree src (by omega)
                      have a1 := hagree (src + 1) (by omega)
                      have a2 := hagree (src + 2) (by omega)
                      have a3 := hagree (src + 3) (by omega)
                      rw [hb0] at a0
                      rw [hb1] at a1
                      rw [hb2] at a2
                      rw [hb3] at a3
                      simp only [← a0, ← a1, ← a2, ← a3]
                      rw [if_neg h2, if_neg h2, if_neg h3, if_neg h3]
                      have hd : ∀ s : QuantState,
                          dqtLoop buf1 src (2 + ((b2.val <<< 8) ||| b3.val))
                            (2 + ((b2.val <<< 8) ||| b3.val)) 4 s
                          = dqtLoop buf2 src (2 + ((b2.val <<< 8) ||| b3.val))
                            (2 + ((b2.val <<< 8) ||| b3.val)) 4 s := by
                        intro s
                        exact dqtLoop_agree _ _ _ _ _ _ _ (fun k hk => hagree k (by omega))
                      rw [hd]
                      constructor
                      · obtain ⟨il, -⟩ := ih _ _ st hr hprest
                        cases rest with
                        | nil => cases hprest
                        | cons r rs => rw [List.getLast?_cons_cons]; exact il
                      · cases hq : (if (b0.val <<< 8) ||| b1.val = M_DQT then
                            dqtLoop buf2 src (2 + ((b2.val <<< 8) ||| b3.val))
                              (2 + ((b2.val <<< 8) ||| b3.val)) 4 st
                            else some st) with
                        | none => rfl
                        | some st1 => exact (ih _ _ st1 hr hprest).2
    · rw [if_neg h1] at h
      simp only [Option.some.injEq] at h
      subst h
      cases hp

/-! ## Walks over a stream of complete segments -/

theorem Segment.encode_length (s : Segment) : s.encode.length = s.payload.length + 4 := by
  simp [Segment.encode]

theorem read_after (pre l : List Byte) (k : Nat) : (pre ++ l)[pre.length + k]? = l[k]? := by
  rw [List.getElem?_append_right (by omega), show pre.length + k - pre.length = k by omega]

/-- The four header bytes of the first segment of a stream. -/
theorem segment_header_reads (pre post : List Byte) (s : Segment) (rest : List Segment) :
    (pre ++ (((s :: rest).map Segment.encode).flatten ++ post))[pre.length]? = some 0xff ∧
    (pre ++ (((s :: rest).map Segment.encode).flatten ++ post))[pre.length + 1]?
      = some s.marker ∧
    (pre ++ (((s :: rest).map Segment.encode).flatten ++ post))[pre.length + 2]?
      = some (hiByte (s.payload.length + 2)) ∧
    (pre ++ (((s :: rest).map Segment.encode).flatten ++ post))[pre.length + 3]?
      = some (loByte (s.payload.length + 2)) ∧
    pre ++ (((s :: rest).map Segment.encode).flatten ++ post)
      = (pre ++ s.encode) ++ ((rest.map Segment.encode).flatten ++ post) := by
  have e : ((s :: rest).map Segment.encode).flatten ++ post
      = 0xff :: s.marker :: hiByte (s.payload.length + 2) :: loByte (s.payload.length + 2)
        :: (s.payload ++ ((rest.map Segment.encode).flatten ++ post)) := by
    simp [Segment.encode]
  refine ⟨?_, ?_, ?_, ?_, ?_⟩
  · have h := read_after pre (((s :: rest).map Segment.encode).flatten ++ post) 0
    rw [Nat.add_zero] at h
    rw [h, e]
    simp
  · rw [read_after, e]
    simp
  · rw [read_after, e]
    simp
  · rw [read_after, e]
    simp
  · simp [Segment.encode]

theorem length_field_value (n : Nat) (h : n ≤ 65535) :
    ((hiByte n).val <<< 8) ||| (loByte n).val = n := by
  rw [be16_eq _ _ (loByte n).isLt]
  simp only [hiByte, loByte]
  omega

theorem marker_value (m : Byte) : ((0xff : Byte).val <<< 8) ||| m.val = 65280 + m.val := by
  rw [be16_eq _ _ m.isLt]
  rfl

/-- The scanner finds no frame header in a stream of complete segments none
of which is one, when `end` is not after the end of these segments. -/
theorem sofLoop_segments (fuel : Nat) (buf pre post : List Byte) (segs : List Segment)
    (end_ : Int) (src o : Nat)
    (hbuf : buf = pre ++ ((segs.map Segment.encode).flatten ++ post))
    (hsrc : src = pre.length)
    (hwf : ∀ s ∈ segs, s.payload.length + 2 ≤ 65535 ∧ s.marker ≠ 0xc0 ∧ s.marker ≠ 0xc1)
    (hend : end_ ≤ ((pre.length + (segs.map Segment.encode).flatten.length : Nat) : Int)) :
    sofLoop buf end_ fuel src ≠ some (some o) := by
  induction fuel generalizing buf pre segs src with
  | zero => simp [sofLoop]
  | succ fuel ih =>
    unfold sofLoop
    by_cases h1 : (src : Int) < end_
    · rw [if_pos h1]
      cases segs with
      | nil =>
        simp only [List.map_nil, List.flatten_nil, List.length_nil] at hend
        omega
      | cons s rest =>
        obtain ⟨r0, r1, r2, r3, e⟩ := segment_header_reads pre post s rest
        obtain ⟨w1, w2, w3⟩ := hwf s (List.mem_cons_self _ _)
        subst hbuf hsrc
        simp only [r0, r1, r2, r3]
        rw [marker_value, length_field_value _ w1]
        have hm : ¬ (65280 + s.marker.val = M_SOF0 ∨ 65280 + s.marker.val = M_SOF1) := by
          simp only [M_SOF0, M_SOF1]
          rintro (h | h)
          · exact w2 (Fin.ext (show s.marker.val = 192 by omega))
          · exact w3 (Fin.ext (show s.marker.val = 193 by omega))
        rw [if_neg hm]
        apply ih _ (pre ++ s.encode) rest _ e
        · rw [List.length_append, Segment.encode_length]
          omega
        · intro s' hs'
          exact hwf s' (List.mem_cons_of_mem _ hs')
        · simp only [List.map_cons, List.flatten_cons, List.length_append,
            Segment.encode_length] at hend ⊢
          omega
    · rw [if_neg h1]
      simp

/-- The locator leaves its locals as they are over a stream of complete
segments none of which is a quantization table. -/
theorem quantLoop_segments (fuel : Nat) (buf pre post : List Byte) (segs : List Segment)
    (end_ : Int) (src : Nat) (st st' : QuantState)
    (hbuf : buf = pre ++ ((segs.map Segment.encode).flatten ++ post))
    (hsrc : src = pre.length)
    (hwf : ∀ s ∈ segs, s.payload.length + 2 ≤ 65535 ∧ s.marker ≠ 0xdb)
    (hend : end_ ≤ ((pre.length + (segs.map Segment.encode).flatten.length : Nat) : Int))
    (h : quantLoop buf end_ fuel src st = some st') : st' = st := by
  induction fuel generalizing buf pre segs src with
  | zero => simp [quantLoop] at h
  | succ fuel ih =>
    unfold quantLoop at h
    by_cases h1 : (src : Int) < end_
    · rw [if_pos h1] at h
      cases segs with
      | nil =>
        simp only [List.map_nil, List.flatten_nil, List.length_nil] at hend
        omega
      | cons s rest =>
        obtain ⟨r0, r1, r2, r3, e⟩ := segment_header_reads pre post s rest
        obtain ⟨w1, w2⟩ := hwf s (List.mem_cons_self _ _)
        subst hbuf hsrc
        simp only [r0, r1, r2, r3] at h
        rw [marker_value, length_field_value _ w1] at h
        have hm : ¬ (65280 + s.marker.val = M_DQT) := by
          simp only [M_DQT]
          intro h'
          exact w2 (Fin.ext (show s.marker.val = 219 by omega))
        rw [if_neg hm] at h
        split_ifs at h with a b
        · exact (Option.some.inj h).symm
        · exact (Option.some.inj h).symm
        · simp only at h
          apply ih _ (pre ++ s.encode) rest _ e _ _ _ h
          · rw [List.length_append, Segment.encode_length]
            omega
          · intro s' hs'
            exact hwf s' (List.mem_cons_of_mem _ hs')
          · simp only [List.map_cons, List.flatten_cons, List.length_append,
              Segment.encode_length] at hend ⊢
            omega
    · rw [if_neg h1] at h
      exact (Option.some.inj h).symm

theorem truncatedStream_facts (segs : List Segment) (m : Byte) (tail : List Byte) :
    (truncatedStream segs m tail).length
      = 2 + (segs.map Segment.encode).flatten.length + 2 + tail.length ∧
    (truncatedStream segs m tail)[0]? = some 0xff ∧
    (truncatedStream segs m tail)[1]? = some 0xd8 ∧
    (truncatedStream segs m tail)[2]? = some 0xff := by
  refine ⟨?_, ?_, ?_, ?_⟩
  · simp [truncatedStream]
    omega
  · simp [truncatedStream]
  · simp [truncatedStream]
  · cases segs with
    | nil => simp [truncatedStream]
    | cons s rest => simp [truncatedStream, Segment.encode]

/-! ## Lemmas on the riskiness scoring -/

theorem rescale_bounds (x : ℚ) (h : 0 ≤ x) : 0 ≤ rescale x ∧ rescale x ≤ 100 := by
  unfold rescale
  split_ifs with h25
  · constructor <;> norm_num
  · constructor
    · positivity
    · have : x ≤ 25 := not_lt.mp h25
      linarith

theorem rescale_zero : rescale 0 = 0 := by
  unfold rescale
  norm_num

theorem recommendation_cases (x : ℚ) :
    recommendation x = 1 ∨ recommendation x = 2 ∨ recommendation x = 3 := by
  unfold recommendation
  split_ifs
  · exact Or.inl rfl
  · exact Or.inr (Or.inl rfl)
  · exact Or.inr (Or.inr rfl)

theorem riskRow_spec (T : Nat → Int) (R : Nat) (row1 row2 : Nat → Nat) (l : List Nat)
    (st : RiskState) :
    (riskRow T R row1 row2 l st).count
      = st.count + (((l.filter fun i =>
          decide (sharpness T R (row1 i) (row1 (i + 1)) (row2 i) > kNoiseLevel)).length : Nat) : ℚ) ∧
    (0 ≤ st.total_score → 0 ≤ (riskRow T R row1 row2 l st).total_score) := by
  induction l generalizing st with
  | nil => simp [riskRow]
  | cons i rest ih =>
    simp only [riskRow, Nat.add_zero]
    by_cases h : sharpness T R (row1 i) (row1 (i + 1)) (row2 i) > kNoiseLevel
    · rw [if_pos h, List.filter_cons_of_pos (by simpa using h)]
      obtain ⟨c, t⟩ := ih ⟨st.total_score + ((sharpness T R (row1 i) (row1 (i + 1)) (row2 i) : Int) : ℚ),
        st.count + 1⟩
      refine ⟨?_, ?_⟩
      · rw [c]
        simp only [List.length_cons]
        push_cast
        ring
      · intro h0
        apply t
        have hs : (0 : ℚ) ≤ ((sharpness T R (row1 i) (row1 (i + 1)) (row2 i) : Int) : ℚ) := by
          have : (0 : Int) ≤ sharpness T R (row1 i) (row1 (i + 1)) (row2 i) := by
            unfold kNoiseLevel at h
            omega
          exact_mod_cast this
        simp only
        linarith
    · rw [if_neg h, List.filter_cons_of_neg (by simpa using h)]
      exact ih st

theorem riskRows_spec (T : Nat → Int) (R : Nat) (rows : Nat → Nat → Nat) (width n a : Nat)
    (st : RiskState) (ha : 1 ≤ a) :
    (riskRows T R rows width (List.range' a n) (rows (a - 1)) st).count
      = st.count + ((((List.range' a n).map fun j =>
          ((List.range (width - 1)).filter fun i =>
            decide (pixelScore T R rows j i > kNoiseLevel)).length).sum : Nat) : ℚ) ∧
    (0 ≤ st.total_score →
      0 ≤ (riskRows T R rows width (List.range' a n) (rows (a - 1)) st).total_score) := by
  induction n generalizing a st with
  | zero => simp [riskRows]
  | succ n ih =>
    simp only [List.range'_succ, riskRows, List.map_cons, List.sum_cons]
    obtain ⟨c1, t1⟩ := riskRow_spec T R (rows (a - 1)) (rows a) (List.range (width - 1)) st
    have e : rows a = rows (a + 1 - 1) := by rw [Nat.add_sub_cancel]
    rw [e]
    obtain ⟨c2, t2⟩ := ih (a + 1)
      (riskRow T R (rows (a - 1)) (rows (a + 1 - 1)) (List.range (width - 1)) st) (by omega)
    rw [← e] at c2 t2 ⊢
    refine ⟨?_, fun h0 => t2 (t1 h0)⟩
    rw [c2, c1]
    unfold pixelScore
    push_cast
    ring

theorem dctStep_scores (T : Nat → Int) (R : Nat) (yuv : Nat → Int) (st : DctState)
    (J I k : Nat) (hk : k ≠ I + J * 7) :
    (dctStep T R yuv st J I).scores k = st.scores k := by
  unfold dctStep
  simp only
  split_ifs <;> simp [hk]

/-- The entries of the output array from index 57 on are never written. -/
theorem dctLoop_tail_untouched (T : Nat → Int) (R : Nat) (yuv : Nat → Int) (st : DctState)
    (k : Nat) (hk : 57 ≤ k) : (dctLoop T R yuv st).scores k = st.scores k := by
  have inner : ∀ (J : Nat) (l : List Nat) (s : DctState), J < 8 → (∀ I ∈ l, I < 8) →
      (l.foldl (fun st I => dctStep T R yuv st J I) s).scores k = s.scores k := by
    intro J l
    induction l with
    | nil => intro s _ _; rfl
    | cons I rest ih =>
      intro s hJ hl
      rw [List.foldl_cons, ih _ hJ (fun I' h' => hl I' (List.mem_cons_of_mem _ h')),
        dctStep_scores]
      have := hl I (List.mem_cons_self _ _)
      omega
  have outer : ∀ (l : List Nat) (s : DctState), (∀ J ∈ l, J < 8) →
      (l.foldl (fun st J => (List.range 8).foldl (fun st I => dctStep T R yuv st J I) st) s).scores k
        = s.scores k := by
    intro l
    induction l with
    | nil => intro s _; rfl
    | cons J rest ih =>
      intro s hl
      rw [List.foldl_cons, ih _ (fun J' h' => hl J' (List.mem_cons_of_mem _ h')),
        inner J _ _ (hl J (List.mem_cons_self _ _)) (fun I hI => List.mem_range.mp hI)]
  exact outer _ _ (fun J hJ => List.mem_range.mp hJ)

theorem wrapInt32_of_lt (x : Int) (h0 : 0 ≤ x) (h : x < 2 ^ 31) : wrapInt32 x = x := by
  unfold wrapInt32
  omega

/-- What `SjpegRiskiness` computes from the accumulators of its loops. -/
theorem SjpegRiskiness_eq (T : Nat → Int) (R : Nat) (cvrt_func : (Int → Byte) → Int → Nat → Nat)
    (rgb : Int → Byte) (width height stride : Int) (st : RiskState)
    (hst : riskRows T R (fun j => cvrt_func (fun a => rgb (a + (j : Int) * stride)) width)
      width.toNat (List.range' 1 (height.toNat - 1))
      (cvrt_func (fun a => rgb (a + ((0 : Nat) : Int) * stride)) width) ⟨0, 0⟩ = st) :
    SjpegRiskiness T R cvrt_func rgb width height stride
      = (recommendation (rescale
            (if wrapInt32 (width * height) ≠ 0 ∧
                100 * st.count / ((wrapInt32 (width * height) : Int) : ℚ) < 1 then 0
             else if st.count > 0 then st.total_score / st.count else st.total_score)),
         rescale
            (if wrapInt32 (width * height) ≠ 0 ∧
                100 * st.count / ((wrapInt32 (width * height) : Int) : ℚ) < 1 then 0
             else if st.count > 0 then st.total_score / st.count else st.total_score)) := by
  unfold SjpegRiskiness
  simp only [hst]

/-- The claim about `SjpegRiskiness` for every image whose number of pixels
fits in an `int`: score in [0,100] and recommendation from the thresholds (for
all arguments), and score 0 with recommendation 1 when fewer than 1% of the
pixels are above the noise level (for `width, height ≥ 1` and
`width * height < 2 ^ 31`). -/
theorem SjpegRiskiness_within_int_range (T : Nat → Int) (R : Nat)
    (cvrt_func : (Int → Byte) → Int → Nat → Nat) (rgb : Int → Byte)
    (width height stride : Int) :
    0 ≤ (SjpegRiskiness T R cvrt_func rgb width height stride).2 ∧
    (SjpegRiskiness T R cvrt_func rgb width height stride).2 ≤ 100 ∧
    (SjpegRiskiness T R cvrt_func rgb width height stride).1
      = (if (SjpegRiskiness T R cvrt_func rgb width height stride).2 < 40 then 1
         else if (SjpegRiskiness T R cvrt_func rgb width height stride).2 < 70 then 2 else 3) ∧
    ((SjpegRiskiness T R cvrt_func rgb width height stride).1 = 1 ∨
      (SjpegRiskiness T R cvrt_func rgb width height stride).1 = 2 ∨
      (SjpegRiskiness T R cvrt_func rgb width height stride).1 = 3) ∧
    (1 ≤ width → 1 ≤ height → width * height < 2 ^ 31 →
      (100 * keptPixels T R (fun j => cvrt_func (fun a => rgb (a + (j : Int) * stride)) width)
          width.toNat height.toNat : Int) < width * height →
      (SjpegRiskiness T R cvrt_func rgb width height stride).2 = 0 ∧
      (SjpegRiskiness T R cvrt_func rgb width height stride).1 = 1) := by
  obtain ⟨hc, ht⟩ := riskRows_spec T R
    (fun j => cvrt_func (fun a => rgb (a + (j : Int) * stride)) width) width.toNat
    (height.toNat - 1) 1 ⟨0, 0⟩ (le_refl _)
  simp only [Nat.sub_self, zero_add] at hc ht
  have ht0 := ht (le_refl _)
  rw [SjpegRiskiness_eq T R cvrt_func rgb width height stride _ rfl]
  simp only
  generalize riskRows T R (fun j => cvrt_func (fun a => rgb (a + (j : Int) * stride)) width)
    width.toNat (List.range' 1 (height.toNat - 1))
    (cvrt_func (fun a => rgb (a + ((0 : Nat) : Int) * stride)) width) ⟨0, 0⟩ = st at hc ht0
  have hcnt : (0 : ℚ) ≤ st.count := by
    rw [hc]
    exact Nat.cast_nonneg _
  have hsel : (0 : ℚ) ≤ (if wrapInt32 (width * height) ≠ 0 ∧
      100 * st.count / ((wrapInt32 (width * height) : Int) : ℚ) < 1 then 0
      else (if st.count > 0 then st.total_score / st.count else st.total_score)) := by
    split_ifs <;> first | exact le_refl _ | positivity
  obtain ⟨b0, b1⟩ := rescale_bounds _ hsel
  refine ⟨b0, b1, rfl, recommendation_cases _, ?_⟩
  intro hw hh hfit hfew
  have hprod : 0 < width * height := Int.mul_pos (by omega) (by omega)
  have hwrap : wrapInt32 (width * height) = width * height :=
    wrapInt32_of_lt _ (le_of_lt hprod) hfit
  have hpos : (0 : ℚ) < ((width * height : Int) : ℚ) := by exact_mod_cast hprod
  have hfrac : wrapInt32 (width * height) ≠ 0 ∧
      100 * st.count / ((wrapInt32 (width * height) : Int) : ℚ) < 1 := by
    rw [hwrap]
    refine ⟨by omega, ?_⟩
    rw [div_lt_one hpos, hc]
    unfold keptPixels at hfew
    have h2 : (((100 * ((List.range' 1 (height.toNat - 1)).map fun j =>
        ((List.range (width.toNat - 1)).filter fun i =>
          decide (pixelScore T R
            (fun j => cvrt_func (fun a => rgb (a + (j : Int) * stride)) width) j i
              > kNoiseLevel)).length).sum : Nat) : Int) : ℚ)
        < ((width * height : Int) : ℚ) := Int.cast_lt.mpr hfew
    rw [Int.cast_natCast] at h2
    push_cast at h2 ⊢
    exact h2
  rw [if_pos hfrac, rescale_zero]
  exact ⟨rfl, rfl⟩

theorem riskRow_all_kept (T : Nat → Int) (R : Nat) (row1 row2 : Nat → Nat) (c : Int)
    (hc : c > kNoiseLevel) (l : List Nat) (st : RiskState)
    (h : ∀ i ∈ l, sharpness T R (row1 i) (row1 (i + 1)) (row2 i) = c) :
    riskRow T R row1 row2 l st
      = ⟨st.total_score + (l.length : ℚ) * (c : ℚ), st.count + (l.length : ℚ)⟩ := by
  induction l generalizing st with
  | nil => simp [riskRow]
  | cons i rest ih =>
    simp only [riskRow, Nat.add_zero]
    rw [h i (List.mem_cons_self _ _), if_pos hc,
      ih _ (fun i' hi' => h i' (List.mem_cons_of_mem _ hi'))]
    simp only [List.length_cons, Nat.cast_add, Nat.cast_one, RiskState.mk.injEq]
    constructor <;> ring

theorem riskRow_none_kept (T : Nat → Int) (R : Nat) (row1 row2 : Nat → Nat)
    (l : List Nat) (st : RiskState)
    (h : ∀ i ∈ l, sharpness T R (row1 i) (row1 (i + 1)) (row2 i) ≤ kNoiseLevel) :
    riskRow T R row1 row2 l st = st := by
  induction l generalizing st with
  | nil => rfl
  | cons i rest ih =>
    simp only [riskRow, Nat.add_zero]
    rw [if_neg (not_lt.mpr (h i (List.mem_cons_self _ _))),
      ih _ (fun i' hi' => h i' (List.mem_cons_of_mem _ hi'))]

theorem riskRows_none_kept (T : Nat → Int) (R : Nat) (rows : Nat → Nat → Nat) (width n a : Nat)
    (st : RiskState) (ha : 1 ≤ a)
    (h : ∀ j, a ≤ j → j < a + n → ∀ i, i < width - 1 → pixelScore T R rows j i ≤ kNoiseLevel) :
    riskRows T R rows width (List.range' a n) (rows (a - 1)) st = st := by
  induction n generalizing a st with
  | zero => rfl
  | succ n ih =>
    simp only [List.range'_succ, riskRows]
    rw [riskRow_none_kept T R (rows (a - 1)) (rows a) _ st
      (fun i hi => h a (le_refl _) (by omega) i (List.mem_range.mp hi))]
    have e : rows a = rows (a + 1 - 1) := by rw [Nat.add_sub_cancel]
    rw [e]
    exact ih (a + 1) st (by omega) (fun j h1 h2 i hi => h j (by omega) (by omega) i hi)

/-- The accumulators when only the pixels scored for the first row are above
the noise level, all with the same score `c`. -/
theorem riskRows_first_row_only (T : Nat → Int) (R : Nat) (rows : Nat → Nat → Nat)
    (width n : Nat) (c : Int) (hc : c > kNoiseLevel)
    (h1 : ∀ i, i < width - 1 → sharpness T R (rows 0 i) (rows 0 (i + 1)) (rows 1 i) = c)
    (h2 : ∀ j, 2 ≤ j → ∀ i, i < width - 1 → pixelScore T R rows j i ≤ kNoiseLevel) :
    riskRows T R rows width (List.range' 1 (n + 1)) (rows 0) ⟨0, 0⟩
      = ⟨((width - 1 : Nat) : ℚ) * (c : ℚ), ((width - 1 : Nat) : ℚ)⟩ := by
  rw [List.range'_succ, riskRows]
  rw [riskRow_all_kept T R (rows 0) (rows 1) c hc (List.range (width - 1)) ⟨0, 0⟩
    (fun i hi => h1 i (List.mem_range.mp hi))]
  have hrows := riskRows_none_kept T R rows width n 2
    ⟨0 + ((List.range (width - 1)).length : ℚ) * (c : ℚ),
      0 + ((List.range (width - 1)).length : ℚ)⟩ (by omega)
    (fun j hj _ i hi => h2 j hj i hi)
  rw [show rows 1 = rows (2 - 1) from rfl, hrows, List.length_range, zero_add, zero_add]

/-! ### An image of 65537 x 65537 pixels -/

/-- The rows of indices of the image `firstRowImage` under `sampleRowFunc`:
1 in the first row, 0 in the others. -/
theorem firstRowImage_rows (j i : Nat) :
    sampleRowFunc (fun a => firstRowImage (a + (j : Int) * 196611)) 65537 i
      = if 3 * i + j * 196611 < 196611 then 1 else 0 := by
  unfold sampleRowFunc firstRowImage
  beta_reduce
  by_cases h : 3 * i + j * 196611 < 196611
  · have h' : ¬ (196611 : Int) ≤ 3 * (i : Int) + (j : Int) * 196611 := by omega
    rw [if_pos h, if_neg h']
    rfl
  · have h' : (196611 : Int) ≤ 3 * (i : Int) + (j : Int) * 196611 := by omega
    rw [if_neg h, if_pos h']
    rfl

theorem firstRowImage_score_one (i : Nat) (hi : i < 65537 - 1) :
    sharpness twoLevelTable 2
      (sampleRowFunc (fun a => firstRowImage (a + ((0 : Nat) : Int) * 196611)) 65537 i)
      (sampleRowFunc (fun a => firstRowImage (a + ((0 : Nat) : Int) * 196611)) 65537 (i + 1))
      (sampleRowFunc (fun a => firstRowImage (a + ((1 : Nat) : Int) * 196611)) 65537 i) = 30 := by
  rw [firstRowImage_rows, firstRowImage_rows, firstRowImage_rows, if_pos (by omega),
    if_pos (by omega), if_neg (by omega)]
  decide

theorem firstRowImage_score_later (j i : Nat) (hj : 2 ≤ j) :
    pixelScore twoLevelTable 2
      (fun j => sampleRowFunc (fun a => firstRowImage (a + (j : Int) * 196611)) 65537) j i
      ≤ kNoiseLevel := by
  unfold pixelScore
  simp only
  rw [firstRowImage_rows, firstRowImage_rows, firstRowImage_rows, if_neg (by omega),
    if_neg (by omega), if_neg (by omega)]
  decide

/-- The accumulators after the loops on this image: the 65536 pixels scored
for the first row have score 30, all others score 0. -/
theorem firstRowImage_loops :
    riskRows twoLevelTable 2
      (fun j => sampleRowFunc (fun a => firstRowImage (a + (j : Int) * 196611)) 65537)
      65537 (List.range' 1 (65535 + 1))
      (sampleRowFunc (fun a => firstRowImage (a + ((0 : Nat) : Int) * 196611)) 65537)
      ⟨0, 0⟩ = ⟨((65537 - 1 : Nat) : ℚ) * ((30 : Int) : ℚ), ((65537 - 1 : Nat) : ℚ)⟩ :=
  riskRows_first_row_only twoLevelTable 2
    (fun j => sampleRowFunc (fun a => firstRowImage (a + (j : Int) * 196611)) 65537)
    65537 65535 30 (by decide) (fun i hi => firstRowImage_score_one i hi)
    (fun j hj i _ => firstRowImage_score_later j i hj)

/-- On this image 65536 pixels are above the noise level. -/
theorem firstRowImage_keptPixels :
    keptPixels twoLevelTable 2
      (fun j => sampleRowFunc (fun a => firstRowImage (a + (j : Int) * 196611)) 65537)
      65537 65537 = 65536 := by
  have hc := (riskRows_spec twoLevelTable 2
    (fun j => sampleRowFunc (fun a => firstRowImage (a + (j : Int) * 196611)) 65537)
    65537 (65535 + 1) 1 ⟨0, 0⟩ (le_refl _)).1
  have hl : (riskRows twoLevelTable 2
      (fun j => sampleRowFunc (fun a => firstRowImage (a + (j : Int) * 196611)) 65537)
      65537 (List.range' 1 (65535 + 1))
      (sampleRowFunc (fun a => firstRowImage (a + ((1 - 1 : Nat) : Int) * 196611)) 65537)
      ⟨0, 0⟩).count = ((65537 - 1 : Nat) : ℚ) :=
    congrArg RiskState.count firstRowImage_loops
  have hc2 := hl.symm.trans hc
  rw [show (RiskState.count ⟨0, 0⟩ : ℚ) = 0 from rfl, zero_add, Nat.cast_inj] at hc2
  unfold keptPixels
  exact hc2.symm

/-- The result of `SjpegRiskiness` on this image. -/
theorem firstRowImage_result :
    SjpegRiskiness twoLevelTable 2 sampleRowFunc firstRowImage 65537 65537 196611 = (3, 100) := by
  rw [SjpegRiskiness_eq twoLevelTable 2 sampleRowFunc firstRowImage 65537 65537 196611
    ⟨((65537 - 1 : Nat) : ℚ) * ((30 : Int) : ℚ), ((65537 - 1 : Nat) : ℚ)⟩ firstRowImage_loops]
  have hw : wrapInt32 (65537 * 65537) = 131073 := by
    unfold wrapInt32
    norm_num
  rw [hw]
  norm_num [rescale, recommendation]
/-! ## Quality / matrix codec: round trip, range and search -/

/-- C1 (as stated, refuted): with the sample baseline matrices, estimating the
quality of the luma matrix synthesized for quality 1 gives 0, not 1: qualities
0 and 1 have the same scale factor 5000 and the search keeps the first of two
equal scores. -/
theorem C1_roundtrip_fails_at_quality_one :
    SjpegEstimateQuality sampleMatrices (SjpegQuantMatrix sampleMatrices 1 false) false = 0 ∧
    ¬ SjpegEstimateQuality sampleMatrices (SjpegQuantMatrix sampleMatrices 1 false) false = 1 := by
  have h := estimate_one sampleMatrices false
  rw [h]
  exact ⟨rfl, by decide⟩

/-- C1 (amended): for every quality `q` in [0,100], both flavours and any
baseline matrices, the estimate `r` of the matrix synthesized for `q` is the
smallest quality in [0,100] that synthesizes the same matrix: `0 ≤ r ≤ q`,
the matrix of `r` is the matrix of `q`, no quality below `r` synthesizes it,
and `r = q` exactly when no quality below `q` synthesizes the matrix of `q`;
the matrix of quality 1 is the matrix of quality 0 and is estimated as 0. -/
theorem C1_estimate_of_synthesized_is_least (K : Bool → Matrix) (for_chroma : Bool) (q : Int)
    (h0 : 0 ≤ q) (h100 : q ≤ 100) :
    0 ≤ SjpegEstimateQuality K (SjpegQuantMatrix K q for_chroma) for_chroma ∧
    SjpegEstimateQuality K (SjpegQuantMatrix K q for_chroma) for_chroma ≤ q ∧
    SjpegQuantMatrix K (SjpegEstimateQuality K (SjpegQuantMatrix K q for_chroma) for_chroma)
        for_chroma = SjpegQuantMatrix K q for_chroma ∧
    (∀ j : Int, 0 ≤ j →
        j < SjpegEstimateQuality K (SjpegQuantMatrix K q for_chroma) for_chroma →
        SjpegQuantMatrix K j for_chroma ≠ SjpegQuantMatrix K q for_chroma) ∧
    (SjpegEstimateQuality K (SjpegQuantMatrix K q for_chroma) for_chroma = q ↔
      ∀ j : Int, 0 ≤ j → j < q →
        SjpegQuantMatrix K j for_chroma ≠ SjpegQuantMatrix K q for_chroma) ∧
    SjpegQuantMatrix K 1 for_chroma = SjpegQuantMatrix K 0 for_chroma ∧
    SjpegEstimateQuality K (SjpegQuantMatrix K 1 for_chroma) for_chroma = 0 := by
  obtain ⟨n, rfl⟩ := Int.eq_ofNat_of_zero_le h0
  obtain ⟨k, hk, hle, hsame, hfirst⟩ := estimate_synthesized_spec K for_chroma n (by omega)
  rw [hk]
  have hlow : ∀ j : Int, 0 ≤ j → j < (k : Int) →
      SjpegQuantMatrix K j for_chroma ≠ SjpegQuantMatrix K (n : Int) for_chroma := by
    intro j hj0 hjk
    obtain ⟨i, rfl⟩ := Int.eq_ofNat_of_zero_le hj0
    exact hfirst i (by omega)
  refine ⟨by omega, by omega, hsame, hlow, ⟨?_, ?_⟩, SjpegQuantMatrix_one K for_chroma, ?_⟩
  · intro hkn j hj0 hjn
    exact hlow j hj0 (by omega)
  · intro hall
    by_contra hne
    exact hall k (by omega) (by omega) hsame
  · exact estimate_one K for_chroma

/-- C1 (amended), witness: quality 50, luma flavour, sample baseline matrices. -/
theorem C1_estimate_of_synthesized_is_least_witness :
    (0 : Int) ≤ 50 ∧ (50 : Int) ≤ 100 ∧
    SjpegQuantMatrix sampleMatrices
        (SjpegEstimateQuality sampleMatrices (SjpegQuantMatrix sampleMatrices 50 false) false)
        false = SjpegQuantMatrix sampleMatrices 50 false :=
  ⟨by decide, by decide,
    (C1_estimate_of_synthesized_is_least sampleMatrices false 50 (by decide) (by decide)).2.2.1⟩

/-- C2: for every integer quality, every flavour and every baseline matrix,
each byte written by `SjpegQuantMatrix` is in [1,255], and it is the clipped
64-bit value itself: the store into a byte truncates nothing. -/
theorem C2_quant_matrix_bytes_in_range (K : Bool → Matrix) (q : Int) (for_chroma : Bool)
    (i : Fin 64) :
    1 ≤ (SjpegQuantMatrix K q for_chroma i).val ∧
    (SjpegQuantMatrix K q for_chroma i).val ≤ 255 ∧
    (SjpegQuantMatrix K q for_chroma i).val = clippedQuant (K for_chroma i) (QToQFactor q) := by
  rw [SjpegQuantMatrix_val]
  exact ⟨clippedQuant_pos _ _, clippedQuant_le _ _, rfl⟩

/-- C3: for every input matrix and flavour, the estimator with its early break
returns what the unpruned search returns; the result `r` is in [0,100],
minimises the full sum of squared differences over the qualities in [0,100]
and is the smallest such quality; every total is below the initial best score
`256 * 256 * 64 + 1`, and the first candidate, quality 0, is accepted. -/
theorem C3_estimate_is_unpruned_search (K : Bool → Matrix) (matrix : Matrix)
    (for_chroma : Bool) :
    SjpegEstimateQuality K matrix for_chroma
      = (argminLoop (fun q => squaredDistance K matrix for_chroma q) (List.range 101)
          (0, 256 * 256 * 64 + 1)).1 ∧
    0 ≤ SjpegEstimateQuality K matrix for_chroma ∧
    SjpegEstimateQuality K matrix for_chroma ≤ 100 ∧
    (∀ q : Int, 0 ≤ q → q ≤ 100 →
      squaredDistance K matrix for_chroma (SjpegEstimateQuality K matrix for_chroma)
        ≤ squaredDistance K matrix for_chroma q) ∧
    (∀ q : Int, 0 ≤ q → q < SjpegEstimateQuality K matrix for_chroma →
      squaredDistance K matrix for_chroma (SjpegEstimateQuality K matrix for_chroma)
        < squaredDistance K matrix for_chroma q) ∧
    (∀ q : Int, squaredDistance K matrix for_chroma q < 256 * 256 * 64 + 1) ∧
    qualityLoop (K for_chroma) matrix [0] (0, 256 * 256 * 64 + 1)
      = (0, squaredDistance K matrix for_chroma 0) := by
  obtain ⟨k, hk, hle, hmin, hfirst⟩ := estimate_spec K matrix for_chroma
  refine ⟨?_, ?_, ?_, ?_, ?_, squaredDistance_lt K matrix for_chroma, ?_⟩
  · unfold SjpegEstimateQuality
    rw [qualityLoop_eq_argminLoop]
  · omega
  · omega
  · intro q hq0 hq100
    obtain ⟨n, rfl⟩ := Int.eq_ofNat_of_zero_le hq0
    rw [hk]
    exact hmin n (by omega)
  · intro q hq0 hqr
    obtain ⟨n, rfl⟩ := Int.eq_ofNat_of_zero_le hq0
    rw [hk] at hqr ⊢
    exact hfirst n (by omega)
  · rw [qualityLoop_eq_argminLoop]
    have h := squaredDistance_lt K matrix for_chroma ((0 : Nat) : Int)
    simp only [argminLoop, if_pos h]
    rfl

/-! ## Dimension extractor and marker scanner -/

/-- C4 (as stated, refuted): a 21-byte buffer made of the start-of-image marker
and a complete frame-header segment (height 1080, width 1920, sampling
factors 0x22, 0x11, 0x11) with no byte after the segment: the scanner finds
the header at offset 2, 19 bytes remain, and `SjpegDimensions` reports
failure, because it asks for `11 + 3 * 3 = 20` bytes. -/
theorem C4_fails_when_nothing_follows :
    (sofBuffer 0xc0 0 17 8 1080 1920 1 0x22 0 2 0x11 1 3 0x11 1 []).length = 21 ∧
    GetSOFData (some (sofBuffer 0xc0 0 17 8 1080 1920 1 0x22 0 2 0x11 1 3 0x11 1 []))
      (toInt32 21) = some (some 2) ∧
    SjpegDimensions (some (sofBuffer 0xc0 0 17 8 1080 1920 1 0x22 0 2 0x11 1 3 0x11 1 [])) 21
      ⟨some 0, some 0, some 0⟩ = some (false, ⟨some 1920, some 1080, some 1⟩) := by
  decide

/-- C4 (amended): for every buffer shorter than 2^31 bytes that begins with
FF D8 immediately followed by a frame-header segment (FF C0 or FF C1)
declaring height `h`, width `w` and exactly 3 components with sampling-factor
bytes `s0, s1, s2`, and in which at least one byte `r` follows that segment,
`SjpegDimensions` succeeds and reports width `w`, height `h` and a 4:2:0 flag
that is 1 exactly when `(s0, s1, s2) = (0x22, 0x11, 0x11)`. -/
theorem C4_dimensions_of_frame_header (m l1 l2 p : Byte) (h w : Nat)
    (c0 s0 t0 c1 s1 t1 c2 s2 t2 r : Byte) (rest : List Byte) (w0 h0 y0 : Int)
    (hm : m = 0xc0 ∨ m = 0xc1) (hh : h ≤ 65535) (hw : w ≤ 65535)
    (hsize : (sofBuffer m l1 l2 p h w c0 s0 t0 c1 s1 t1 c2 s2 t2 (r :: rest)).length < 2 ^ 31) :
    SjpegDimensions (some (sofBuffer m l1 l2 p h w c0 s0 t0 c1 s1 t1 c2 s2 t2 (r :: rest)))
      (sofBuffer m l1 l2 p h w c0 s0 t0 c1 s1 t1 c2 s2 t2 (r :: rest)).length
      ⟨some w0, some h0, some y0⟩
    = some (true, ⟨some (w : Int), some (h : Int),
        some (if s0 = 0x22 ∧ s1 = 0x11 ∧ s2 = 0x11 then 1 else 0)⟩) := by
  have hl : (sofBuffer m l1 l2 p h w c0 s0 t0 c1 s1 t1 c2 s2 t2 (r :: rest)).length
      = rest.length + 22 := by
    simp [sofBuffer]
  rw [hl] at hsize ⊢
  have hfound : GetSOFData (some (sofBuffer m l1 l2 p h w c0 s0 t0 c1 s1 t1 c2 s2 t2 (r :: rest)))
      (toInt32 (rest.length + 22)) = some (some 2) := by
    rw [toInt32_of_lt _ hsize]
    unfold GetSOFData
    simp only
    have h1 : ((2 : Nat) : Int) < ((rest.length + 22 : Nat) : Int) - 8 := by omega
    have hmark : ((0xff : Byte).val <<< 8) ||| m.val = M_SOF0 ∨
        ((0xff : Byte).val <<< 8) ||| m.val = M_SOF1 := by
      rcases hm with rfl | rfl
      · exact Or.inl (by decide)
      · exact Or.inr (by decide)
    generalize (((rest.length + 22 : Nat) : Int)).toNat = fuel
    rw [skipToFF, if_pos h1]
    have hff : ¬ ((0xff : Byte).val ≠ 0xff) := by decide
    simp only [sofBuffer, List.cons_append, List.nil_append, List.getElem?_cons_succ,
      List.getElem?_cons_zero, if_neg hff]
    rw [sofLoop, if_pos h1]
    simp only [List.getElem?_cons_succ, List.getElem?_cons_zero, if_pos hmark]
  rw [SjpegDimensions_found _ _ 2 _ _ _ (by rw [hl]) hfound]
  have b5 : byteAt (sofBuffer m l1 l2 p h w c0 s0 t0 c1 s1 t1 c2 s2 t2 (r :: rest)) (2 + 5)
      = h / 256 % 256 := rfl
  have b6 : byteAt (sofBuffer m l1 l2 p h w c0 s0 t0 c1 s1 t1 c2 s2 t2 (r :: rest)) (2 + 6)
      = h % 256 := rfl
  have b7 : byteAt (sofBuffer m l1 l2 p h w c0 s0 t0 c1 s1 t1 c2 s2 t2 (r :: rest)) (2 + 7)
      = w / 256 % 256 := rfl
  have b8 : byteAt (sofBuffer m l1 l2 p h w c0 s0 t0 c1 s1 t1 c2 s2 t2 (r :: rest)) (2 + 8)
      = w % 256 := rfl
  have b9 : byteAt (sofBuffer m l1 l2 p h w c0 s0 t0 c1 s1 t1 c2 s2 t2 (r :: rest)) (2 + 9)
      = 3 := rfl
  have b11 : byteAt (sofBuffer m l1 l2 p h w c0 s0 t0 c1 s1 t1 c2 s2 t2 (r :: rest)) (2 + 11)
      = s0.val := rfl
  have b14 : byteAt (sofBuffer m l1 l2 p h w c0 s0 t0 c1 s1 t1 c2 s2 t2 (r :: rest)) (2 + 14)
      = s1.val := rfl
  have b17 : byteAt (sofBuffer m l1 l2 p h w c0 s0 t0 c1 s1 t1 c2 s2 t2 (r :: rest)) (2 + 17)
      = s2.val := rfl
  rw [b5, b6, b7, b8, b9, b11, b14, b17]
  have e1 : h / 256 % 256 * 256 + h % 256 = h := by omega
  have e2 : w / 256 % 256 * 256 + w % 256 = w := by omega
  have e3 : (s0.val = 0x22 ∧ s1.val = 0x11 ∧ s2.val = 0x11) ↔
      (s0 = 0x22 ∧ s1 = 0x11 ∧ s2 = 0x11) := by
    simp only [Fin.ext_iff]
    rfl
  rw [if_neg (by omega), if_neg (by push_cast; omega), e1, e2]
  simp only [true_and, e3]

/-- C4 (amended), witness: height 1080, width 1920, sampling factors
0x22, 0x11, 0x11, and one byte after the segment. -/
theorem C4_dimensions_of_frame_header_witness :
    ((0xc0 : Byte) = 0xc0 ∨ (0xc0 : Byte) = 0xc1) ∧ 1080 ≤ 65535 ∧ 1920 ≤ 65535 ∧
    (sofBuffer 0xc0 0 17 8 1080 1920 1 0x22 0 2 0x11 1 3 0x11 1 [0xff]).length < 2 ^ 31 ∧
    SjpegDimensions (some (sofBuffer 0xc0 0 17 8 1080 1920 1 0x22 0 2 0x11 1 3 0x11 1 [0xff]))
      (sofBuffer 0xc0 0 17 8 1080 1920 1 0x22 0 2 0x11 1 3 0x11 1 [0xff]).length
      ⟨some 0, some 0, some 0⟩
    = some (true, ⟨some 1920, some 1080, some 1⟩) :=
  ⟨by decide, by decide, by decide, by decide,
    C4_dimensions_of_frame_header 0xc0 0 17 8 1080 1920 1 0x22 0 2 0x11 1 3 0x11 1 0xff [] 0 0 0
      (by decide) (by decide) (by decide) (by decide)⟩

/-- C5: for every buffer and size (a null buffer, or a buffer that holds at
least `size` bytes) and non-null `width` and `height`, `SjpegDimensions`
returns, and it reports failure if and only if the scanner finds no
frame-header marker, or `size - o < 11` at the found offset `o`, or the 4:2:0
flag was requested and `size - o < 11 + 3 * component_count` with
`component_count` the byte at `o + 9`; when it succeeds, the height is the
big-endian value of the bytes at `o + 5, o + 6` and the width that of the
bytes at `o + 7, o + 8`. -/
theorem C5_dimensions_failure_iff (src0 : Option (List Byte)) (size : Nat) (w0 h0 : Int)
    (y : Option Int) (hvalid : ∀ buf, src0 = some buf → size ≤ buf.length) :
    ∃ ok out', SjpegDimensions src0 size ⟨some w0, some h0, y⟩ = some (ok, out') ∧
      (ok = false ↔
        (GetSOFData src0 (toInt32 size) = some none ∨
          ∃ buf o, src0 = some buf ∧ GetSOFData src0 (toInt32 size) = some (some o) ∧
            ((size : Int) - (o : Int) < 11 ∨
              (y.isSome ∧ (size : Int) - (o : Int) < 11 + 3 * (byteAt buf (o + 9) : Int))))) ∧
      (ok = true →
        ∃ buf o, src0 = some buf ∧ GetSOFData src0 (toInt32 size) = some (some o) ∧
          out'.height = some ((byteAt buf (o + 5) * 256 + byteAt buf (o + 6) : Nat) : Int) ∧
          out'.width = some ((byteAt buf (o + 7) * 256 + byteAt buf (o + 8) : Nat) : Int)) := by
  obtain ⟨r, hr⟩ := GetSOFData_valid_total src0 size hvalid
  cases r with
  | none =>
    refine ⟨false, _, SjpegDimensions_not_found src0 size w0 h0 y hr, ?_, ?_⟩
    · exact ⟨fun _ => Or.inl hr, fun _ => rfl⟩
    · intro h
      cases h
  | some o =>
    obtain ⟨buf, rfl⟩ := GetSOFData_some_buf _ _ _ hr
    have hlen := hvalid buf rfl
    rw [SjpegDimensions_found buf size o w0 h0 y hlen hr]
    by_cases h11 : (size : Int) - (o : Int) < 11
    · rw [if_pos h11]
      refine ⟨false, _, rfl, ?_, ?_⟩
      · exact ⟨fun _ => Or.inr ⟨buf, o, rfl, hr, Or.inl h11⟩, fun _ => rfl⟩
      · intro h
        cases h
    · rw [if_neg h11]
      cases y with
      | none =>
        refine ⟨true, _, rfl, ?_, ?_⟩
        · constructor
          · intro h
            cases h
          · rintro (h | ⟨buf', o', hb, ho, h | ⟨h, -⟩⟩)
            · rw [hr] at h
              cases h
            · rw [hr] at ho
              cases ho
              omega
            · cases h
        · intro _
          exact ⟨buf, o, rfl, hr, rfl, rfl⟩
      | some y0 =>
        simp only
        by_cases hshort : (size : Int) - (o : Int) < 11 + 3 * (byteAt buf (o + 9) : Int)
        · rw [if_pos hshort]
          refine ⟨false, _, rfl, ?_, ?_⟩
          · exact ⟨fun _ => Or.inr ⟨buf, o, rfl, hr, Or.inr ⟨rfl, hshort⟩⟩, fun _ => rfl⟩
          · intro h
            cases h
        · rw [if_neg hshort]
          refine ⟨true, _, rfl, ?_, ?_⟩
          · constructor
            · intro h
              cases h
            · rintro (h | ⟨buf', o', hb, ho, h | ⟨-, h⟩⟩)
              · rw [hr] at h
                cases h
              · rw [hr] at ho
                cases ho
                omega
              · rw [hr] at ho
                cases ho
                cases hb
                omega
          · intro _
            exact ⟨buf, o, rfl, hr, rfl, rfl⟩

/-- C5, witness: the start-of-image marker, a 3-component frame header and one
more byte (22 bytes), all three outputs requested. -/
theorem C5_dimensions_failure_iff_witness :
    (∀ buf, some (sofBuffer 0xc1 0 17 8 480 640 1 0x22 0 2 0x11 1 3 0x11 1 [0xff]) = some buf →
      22 ≤ buf.length) ∧
    ∃ ok out', SjpegDimensions (some (sofBuffer 0xc1 0 17 8 480 640 1 0x22 0 2 0x11 1 3 0x11 1
        [0xff])) 22 ⟨some 0, some 0, some 0⟩ = some (ok, out') :=
  have hv : ∀ buf, some (sofBuffer 0xc1 0 17 8 480 640 1 0x22 0 2 0x11 1 3 0x11 1 [0xff])
      = some buf → 22 ≤ buf.length := by
    intro buf h
    cases h
    decide
  ⟨hv,
    (C5_dimensions_failure_iff
      (some (sofBuffer 0xc1 0 17 8 480 640 1 0x22 0 2 0x11 1 3 0x11 1 [0xff])) 22 0 0 (some 0)
      hv).imp fun _ h => h.imp fun _ h' => h'.1⟩

/-- C6 (as stated, refuted): the first 20 bytes of a start-of-image marker
followed by a 3-component frame header.  The header is found at offset 2,
18 bytes remain (fewer than `11 + 3 * 3`), the call reports failure, and the
flag it leaves is 1, although it held 0 before the call. -/
theorem C6_flag_left_true_on_shortfall :
    GetSOFData (some ((sofBuffer 0xc0 0 17 8 1080 1920 1 0x22 0 2 0x11 1 3 0x11 1 []).take 20))
      (toInt32 20) = some (some 2) ∧
    byteAt ((sofBuffer 0xc0 0 17 8 1080 1920 1 0x22 0 2 0x11 1 3 0x11 1 []).take 20) (2 + 9) = 3 ∧
    ((20 : Nat) : Int) - ((2 : Nat) : Int) < 11 + 3 * 3 ∧
    SjpegDimensions (some ((sofBuffer 0xc0 0 17 8 1080 1920 1 0x22 0 2 0x11 1 3 0x11 1 []).take 20))
      20 ⟨some 0, some 0, some 0⟩ = some (false, ⟨some 1920, some 1080, some 1⟩) := by
  decide

/-- C6 (amended): when the frame header is found at offset `o`, the 4:2:0 flag
is requested and fewer than `11 + 3 * component_count` bytes remain from `o`,
`SjpegDimensions` reports failure; if `width` or `height` is null or fewer
than 11 bytes remain, the outputs are left as they were; otherwise the flag
it leaves is 1 when the component count is exactly 3 and 0 for every other
component count. -/
theorem C6_shortfall_reports_failure (buf : List Byte) (size o : Nat) (out : DimOutputs)
    (y0 : Int) (hlen : size ≤ buf.length)
    (hfound : GetSOFData (some buf) (toInt32 size) = some (some o))
    (hy : out.is_yuv420 = some y0)
    (hshort : (size : Int) - (o : Int) < 11 + 3 * (byteAt buf (o + 9) : Int)) :
    ∃ out', SjpegDimensions (some buf) size out = some (false, out') ∧
      ((out.width = none ∨ out.height = none ∨ (size : Int) - (o : Int) < 11) → out' = out) ∧
      (out.width ≠ none → out.height ≠ none → 11 ≤ (size : Int) - (o : Int) →
        out'.is_yuv420 = some (if byteAt buf (o + 9) = 3 then 1 else 0)) := by
  obtain ⟨w, h, y⟩ := out
  simp only at hy
  subst hy
  cases w with
  | none =>
    exact ⟨_, SjpegDimensions_null_out _ _ _ (Or.inl rfl), fun _ => rfl,
      fun hw => absurd rfl hw⟩
  | some w0 =>
    cases h with
    | none =>
      exact ⟨_, SjpegDimensions_null_out _ _ _ (Or.inr rfl), fun _ => rfl,
        fun _ hh => absurd rfl hh⟩
    | some h0 =>
      rw [SjpegDimensions_found buf size o w0 h0 (some y0) hlen hfound]
      by_cases h11 : (size : Int) - (o : Int) < 11
      · rw [if_pos h11]
        exact ⟨_, rfl, fun _ => rfl, fun _ _ h => by omega⟩
      · rw [if_neg h11]
        simp only
        rw [if_pos hshort]
        refine ⟨_, rfl, ?_, fun _ _ _ => rfl⟩
        rintro (h | h | h)
        · cases h
        · cases h
        · omega

/-- C6 (amended), witness: the 20-byte buffer above, all outputs non-null. -/
theorem C6_shortfall_reports_failure_witness :
    ∃ out', SjpegDimensions
      (some ((sofBuffer 0xc0 0 17 8 1080 1920 1 0x22 0 2 0x11 1 3 0x11 1 []).take 20)) 20
      ⟨some 0, some 0, some 0⟩ = some (false, out') :=
  (C6_shortfall_reports_failure
    ((sofBuffer 0xc0 0 17 8 1080 1920 1 0x22 0 2 0x11 1 3 0x11 1 []).take 20) 20 2
    ⟨some 0, some 0, some 0⟩ 0 (by decide) (by decide) rfl (by decide)).imp fun _ h => h.1

/-- C7 (as stated, refuted): a 16-byte buffer whose frame header (found at
offset 2, height 2, width 3) declares 3 components but is cut after the first
one.  `SjpegDimensions` reports failure, yet the outputs, which all held -1
before the call, hold 3, 2 and 1 after it. -/
theorem C7_failed_call_mutates_outputs :
    SjpegDimensions (some ((sofBuffer 0xc1 0 17 8 2 3 1 0x22 0 2 0x11 1 3 0x11 1 []).take 16)) 16
      ⟨some (-1), some (-1), some (-1)⟩ = some (false, ⟨some 3, some 2, some 1⟩) ∧
    (⟨some 3, some 2, some 1⟩ : DimOutputs) ≠ ⟨some (-1), some (-1), some (-1)⟩ := by
  decide

/-- C7 (amended): whenever `SjpegDimensions` reports failure, either the
outputs hold the same values as before the call, or the failure is the
component shortfall (all three outputs non-null, frame header found at `o`, at
least 11 but fewer than `11 + 3 * component_count` bytes remaining), in which
case `width` and `height` hold the parsed values and the flag holds 1 if the
component count is 3 and 0 otherwise. -/
theorem C7_failure_effect (src0 : Option (List Byte)) (size : Nat) (out out' : DimOutputs)
    (hvalid : ∀ buf, src0 = some buf → size ≤ buf.length)
    (hfail : SjpegDimensions src0 size out = some (false, out')) :
    out' = out ∨
    ∃ buf o w0 h0 y0, src0 = some buf ∧ out = ⟨some w0, some h0, some y0⟩ ∧
      GetSOFData src0 (toInt32 size) = some (some o) ∧
      11 ≤ (size : Int) - (o : Int) ∧
      (size : Int) - (o : Int) < 11 + 3 * (byteAt buf (o + 9) : Int) ∧
      out' = ⟨some ((byteAt buf (o + 7) * 256 + byteAt buf (o + 8) : Nat) : Int),
              some ((byteAt buf (o + 5) * 256 + byteAt buf (o + 6) : Nat) : Int),
              some (if byteAt buf (o + 9) = 3 then 1 else 0)⟩ := by
  obtain ⟨w, h, y⟩ := out
  cases w with
  | none =>
    rw [SjpegDimensions_null_out _ _ _ (Or.inl rfl)] at hfail
    cases hfail
    exact Or.inl rfl
  | some w0 =>
    cases h with
    | none =>
      rw [SjpegDimensions_null_out _ _ _ (Or.inr rfl)] at hfail
      cases hfail
      exact Or.inl rfl
    | some h0 =>
      obtain ⟨r, hr⟩ := GetSOFData_valid_total src0 size hvalid
      cases r with
      | none =>
        rw [SjpegDimensions_not_found src0 size w0 h0 y hr] at hfail
        cases hfail
        exact Or.inl rfl
      | some o =>
        obtain ⟨buf, rfl⟩ := GetSOFData_some_buf _ _ _ hr
        rw [SjpegDimensions_found buf size o w0 h0 y (hvalid buf rfl) hr] at hfail
        by_cases h11 : (size : Int) - (o : Int) < 11
        · rw [if_pos h11] at hfail
          cases hfail
          exact Or.inl rfl
        · rw [if_neg h11] at hfail
          cases y with
          | none =>
            simp only [Option.some.injEq, Prod.mk.injEq, Bool.true_eq_false, false_and] at hfail
          | some y0 =>
            simp only at hfail
            by_cases hshort : (size : Int) - (o : Int) < 11 + 3 * (byteAt buf (o + 9) : Int)
            · rw [if_pos hshort] at hfail
              simp only [Option.some.injEq, Prod.mk.injEq, true_and] at hfail
              exact Or.inr ⟨buf, o, w0, h0, y0, rfl, rfl, hr, by omega, hshort, hfail.symm⟩
            · rw [if_neg hshort] at hfail
              simp only [Option.some.injEq, Prod.mk.injEq, Bool.true_eq_false, false_and] at hfail

/-- C7 (amended), witness: the 16-byte buffer above. -/
theorem C7_failure_effect_witness :
    (⟨some 3, some 2, some 1⟩ : DimOutputs) = ⟨some (-1), some (-1), some (-1)⟩ ∨
    ∃ buf o w0 h0 y0,
      some ((sofBuffer 0xc1 0 17 8 2 3 1 0x22 0 2 0x11 1 3 0x11 1 []).take 16) = some buf ∧
      (⟨some (-1), some (-1), some (-1)⟩ : DimOutputs) = ⟨some w0, some h0, some y0⟩ ∧
      GetSOFData (some ((sofBuffer 0xc1 0 17 8 2 3 1 0x22 0 2 0x11 1 3 0x11 1 []).take 16))
        (toInt32 16) = some (some o) ∧
      11 ≤ ((16 : Nat) : Int) - (o : Int) ∧
      ((16 : Nat) : Int) - (o : Int) < 11 + 3 * (byteAt buf (o + 9) : Int) ∧
      (⟨some 3, some 2, some 1⟩ : DimOutputs)
        = ⟨some ((byteAt buf (o + 7) * 256 + byteAt buf (o + 8) : Nat) : Int),
           some ((byteAt buf (o + 5) * 256 + byteAt buf (o + 6) : Nat) : Int),
           some (if byteAt buf (o + 9) = 3 then 1 else 0)⟩ :=
  C7_failure_effect (some ((sofBuffer 0xc1 0 17 8 2 3 1 0x22 0 2 0x11 1 3 0x11 1 []).take 16)) 16
    ⟨some (-1), some (-1), some (-1)⟩ ⟨some 3, some 2, some 1⟩
    (by intro buf h; cases h; decide) (by decide)

/-- C8: if `GetSOFData` returns a location at offset `o`, then `2 ≤ o`,
`o + 8 < size`, and the two bytes at `o`, `o + 1` are FF C0 or FF C1; it
returns `NULL` for a null buffer and for every size up to 10. -/
theorem C8_scanner_result (src : Option (List Byte)) (size : Int) (o : Nat) :
    (GetSOFData src size = some (some o) →
      ∃ buf, src = some buf ∧ 2 ≤ o ∧ (o : Int) + 8 < size ∧ buf[o]? = some 0xff ∧
        (buf[o + 1]? = some 0xc0 ∨ buf[o + 1]? = some 0xc1)) ∧
    GetSOFData none size = some none ∧
    (size ≤ 10 → GetSOFData src size = some none) := by
  refine ⟨?_, rfl, GetSOFData_small src size⟩
  intro h
  obtain ⟨buf, hb, h2, h8, b1, hb0, hb1, hm⟩ := GetSOFData_found src size o h
  refine ⟨buf, hb, h2, h8, hb0, ?_⟩
  rcases hm with rfl | rfl
  · exact Or.inl hb1
  · exact Or.inr hb1

/-- C8, witness: a header found at offset 2 of a 21-byte buffer, and the same
buffer scanned with size 10. -/
theorem C8_scanner_result_witness :
    GetSOFData (some (sofBuffer 0xc0 0 17 8 1080 1920 1 0x22 0 2 0x11 1 3 0x11 1 [])) 21
      = some (some 2) ∧
    (∃ buf, some (sofBuffer 0xc0 0 17 8 1080 1920 1 0x22 0 2 0x11 1 3 0x11 1 []) = some buf ∧
      2 ≤ 2 ∧ ((2 : Nat) : Int) + 8 < 21 ∧ buf[2]? = some 0xff ∧
      (buf[2 + 1]? = some 0xc0 ∨ buf[2 + 1]? = some 0xc1)) ∧
    (10 : Int) ≤ 10 ∧
    GetSOFData (some (sofBuffer 0xc0 0 17 8 1080 1920 1 0x22 0 2 0x11 1 3 0x11 1 [])) 10
      = some none :=
  ⟨by decide,
    (C8_scanner_result (some (sofBuffer 0xc0 0 17 8 1080 1920 1 0x22 0 2 0x11 1 3 0x11 1 []))
      21 2).1 (by decide),
    by decide,
    (C8_scanner_result (some (sofBuffer 0xc0 0 17 8 1080 1920 1 0x22 0 2 0x11 1 3 0x11 1 []))
      10 0).2.2 (by decide)⟩

/-- C9: for every non-null buffer, with `size` its length and whatever its
contents, every read made by `GetSOFData`, `SjpegDimensions` (for every
combination of null and non-null outputs) and `SjpegFindQuantizer` is inside
the buffer: the runs return a result and never take the out-of-bounds
branch. -/
theorem C9_reads_stay_in_bounds (buf : List Byte) (out : DimOutputs) :
    (GetSOFData (some buf) (toInt32 buf.length)).isSome ∧
    (SjpegDimensions (some buf) buf.length out).isSome ∧
    (SjpegFindQuantizer (some buf) buf.length).isSome := by
  have hv : ∀ b, some buf = some b → buf.length ≤ b.length := by
    intro b h
    cases h
    exact le_refl _
  refine ⟨?_, ?_, ?_⟩
  · obtain ⟨r, hr⟩ := GetSOFData_valid_total (some buf) buf.length hv
    rw [hr]
    rfl
  · obtain ⟨r, hr⟩ := SjpegDimensions_total (some buf) buf.length out hv
    rw [hr]
    rfl
  · obtain ⟨r, hr⟩ := SjpegFindQuantizer_total buf buf.length (le_refl _)
    rw [hr]
    rfl

/-! ## Quantizer locator -/

/-- C10: `SjpegFindQuantizer` returns count 0 with both views null whenever the
buffer is null, or `size < 69`, or the first two bytes (of a buffer that holds
at least `size` bytes) are not FF D8. -/
theorem C10_find_quantizer_precheck (src : Option (List Byte)) (size : Nat)
    (h : src = none ∨ size < 69 ∨
      ∃ buf, src = some buf ∧ size ≤ buf.length ∧
        ¬ (byteAt buf 0 = 0xff ∧ byteAt buf 1 = 0xd8)) :
    SjpegFindQuantizer src size = some (0, none, none) := by
  unfold SjpegFindQuantizer
  rcases h with rfl | h | ⟨buf, rfl, hlen, hsoi⟩
  · rfl
  · cases src with
    | none => rfl
    | some buf => simp only [if_pos h]
  · simp only
    by_cases h1 : size < 69
    · rw [if_pos h1]
    · obtain ⟨b0, r0, v0⟩ := exists_read buf 0 (by omega)
      obtain ⟨b1, r1, v1⟩ := exists_read buf 1 (by omega)
      rw [if_neg h1, r0]
      simp only
      by_cases h2 : b0.val ≠ 0xff
      · rw [if_pos h2]
      · rw [if_neg h2, r1]
        simp only
        by_cases h3 : b1.val ≠ 0xd8
        · rw [if_pos h3]
        · exfalso
          apply hsoi
          rw [v0, v1]
          exact ⟨not_not.mp h2, not_not.mp h3⟩

/-- C10, witness: a 70-byte buffer of zeros, which does not begin with FF D8. -/
theorem C10_find_quantizer_precheck_witness :
    (70 ≤ (List.replicate 70 (0 : Byte)).length ∧
      ¬ (byteAt (List.replicate 70 (0 : Byte)) 0 = 0xff ∧
         byteAt (List.replicate 70 (0 : Byte)) 1 = 0xd8)) ∧
    SjpegFindQuantizer (some (List.replicate 70 (0 : Byte))) 70 = some (0, none, none) :=
  ⟨by decide,
    C10_find_quantizer_precheck (some (List.replicate 70 (0 : Byte))) 70
      (Or.inr (Or.inr ⟨_, rfl, by decide, by decide⟩))⟩

/-! ## Quality / matrix codec: rounding, clamped round trip, monotonicity -/

/-- C16: for every `v` with `50 ≤ v ≤ 25449` the 64-bit expression
`((v + 50) * 335545) >> 25` equals `(v + 50) / 100` rounded down; hence, for
every baseline byte and quality, the byte written by `SjpegQuantMatrix` is
`(b * QToQFactor q + 50) / 100` rounded down and clamped to [1,255], where
`QToQFactor q` is 5000 for `q ≤ 0`, `5000 / q` for `0 < q < 50`,
`2 * (100 - q)` for `50 ≤ q < 100` and 0 for `q ≥ 100`. -/
theorem C16_rounding_is_division (v : Nat) (h50 : 50 ≤ v) (h25449 : v ≤ 25449)
    (K : Bool → Matrix) (q : Int) (for_chroma : Bool) (i : Fin 64) :
    (((v + 50) * 335545) % 2 ^ 64) >>> 25 = (v + 50) / 100 ∧
    ((SjpegQuantMatrix K q for_chroma i).val : Int)
      = max 1 (min 255 ((((K for_chroma i).val : Int) * QToQFactor q + 50) / 100)) ∧
    (q ≤ 0 → QToQFactor q = 5000) ∧
    (0 < q → q < 50 → QToQFactor q = 5000 / q) ∧
    (50 ≤ q → q < 100 → QToQFactor q = 2 * (100 - q)) ∧
    (100 ≤ q → QToQFactor q = 0) := by
  refine ⟨shift_eq_div v h50 h25449, ?_, QToQFactor_of_nonpos q, ?_, QToQFactor_high q,
    QToQFactor_of_ge q⟩
  · obtain ⟨hf0, hf1⟩ := QToQFactor_bounds q
    obtain ⟨n, hn⟩ := Int.eq_ofNat_of_zero_le hf0
    rw [SjpegQuantMatrix_val, hn, clippedQuant_natCast _ n (by omega), ← Int.natCast_mul]
    generalize (K for_chroma i).val * n = w
    split_ifs <;> omega
  · intro h0 h
    unfold QToQFactor
    rw [if_neg (by omega), if_pos h]

/-- C16, witness: `v = 16 * 100` (baseline byte 16 at quality 50) and the
first luma entry of the sample matrices at quality 50. -/
theorem C16_rounding_is_division_witness :
    50 ≤ 1600 ∧ 1600 ≤ 25449 ∧
    (((1600 + 50) * 335545) % 2 ^ 64) >>> 25 = (1600 + 50) / 100 ∧
    ((SjpegQuantMatrix sampleMatrices 50 false 0).val : Int)
      = max 1 (min 255 ((((sampleMatrices false 0).val : Int) * QToQFactor 50 + 50) / 100)) :=
  ⟨by decide, by decide,
    (C16_rounding_is_division 1600 (by decide) (by decide) sampleMatrices 50 false 0).1,
    (C16_rounding_is_division 1600 (by decide) (by decide) sampleMatrices 50 false 0).2.1⟩

/-- C19: for every integer quality `q` and flavour, the estimate `r` of the
matrix synthesized for `q` is in [0,100], synthesizes the same matrix byte for
byte, is the smallest quality in [0,100] that does, and is at most
`max 0 (min q 100)`. -/
theorem C19_estimate_of_any_quality (K : Bool → Matrix) (for_chroma : Bool) (q : Int) :
    0 ≤ SjpegEstimateQuality K (SjpegQuantMatrix K q for_chroma) for_chroma ∧
    SjpegEstimateQuality K (SjpegQuantMatrix K q for_chroma) for_chroma ≤ 100 ∧
    SjpegQuantMatrix K (SjpegEstimateQuality K (SjpegQuantMatrix K q for_chroma) for_chroma)
      for_chroma = SjpegQuantMatrix K q for_chroma ∧
    (∀ j : Int, 0 ≤ j →
      j < SjpegEstimateQuality K (SjpegQuantMatrix K q for_chroma) for_chroma →
      SjpegQuantMatrix K j for_chroma ≠ SjpegQuantMatrix K q for_chroma) ∧
    SjpegEstimateQuality K (SjpegQuantMatrix K q for_chroma) for_chroma
      ≤ max 0 (min q 100) := by
  have hc : SjpegQuantMatrix K q for_chroma
      = SjpegQuantMatrix K (max 0 (min q 100)) for_chroma :=
    SjpegQuantMatrix_congr K for_chroma _ _ (QToQFactor_clamp q)
  obtain ⟨n, hn⟩ := Int.eq_ofNat_of_zero_le (by omega : 0 ≤ max 0 (min q 100))
  rw [hc, hn]
  obtain ⟨k, hk, hle, hsame, hfirst⟩ := estimate_synthesized_spec K for_chroma n (by omega)
  rw [hk]
  refine ⟨by omega, by omega, hsame, ?_, by omega⟩
  intro j hj0 hjk
  obtain ⟨m, rfl⟩ := Int.eq_ofNat_of_zero_le hj0
  exact hfirst m (by omega)

/-- C20: the quantization strength is monotone in the quality: for
`q1 ≤ q2` the scale factor of `q1` is at least that of `q2` and so is every
matrix entry; for `q1 ≥ 100` every entry is 1, and for `q1 ≤ 1` the matrix is
the matrix of quality 0. -/
theorem C20_strength_monotone (K : Bool → Matrix) (for_chroma : Bool) (q1 q2 : Int)
    (h : q1 ≤ q2) (i : Fin 64) :
    QToQFactor q2 ≤ QToQFactor q1 ∧
    SjpegQuantMatrix K q2 for_chroma i ≤ SjpegQuantMatrix K q1 for_chroma i ∧
    (100 ≤ q1 → (SjpegQuantMatrix K q1 for_chroma i).val = 1) ∧
    (q1 ≤ 1 → SjpegQuantMatrix K q1 for_chroma = SjpegQuantMatrix K 0 for_chroma) := by
  have ha := QToQFactor_antitone q1 q2 h
  obtain ⟨h10, h11⟩ := QToQFactor_bounds q1
  obtain ⟨h20, -⟩ := QToQFactor_bounds q2
  obtain ⟨n1, hn1⟩ := Int.eq_ofNat_of_zero_le h10
  obtain ⟨n2, hn2⟩ := Int.eq_ofNat_of_zero_le h20
  refine ⟨ha, ?_, ?_, ?_⟩
  · rw [Fin.le_def, SjpegQuantMatrix_val, SjpegQuantMatrix_val, hn1, hn2]
    exact clippedQuant_mono _ n1 n2 (by omega) (by omega)
  · intro h100
    rw [SjpegQuantMatrix_val, QToQFactor_of_ge q1 h100]
    have e := clippedQuant_natCast (K for_chroma i) 0 (by omega)
    simp only [Nat.cast_zero, Nat.mul_zero] at e
    rw [e]
    rfl
  · intro h1
    apply SjpegQuantMatrix_congr
    rcases le_or_lt q1 0 with h0 | h0
    · rw [QToQFactor_of_nonpos q1 h0]
      rfl
    · have e : q1 = 1 := by omega
      rw [e]
      rfl

/-- C20, witness: qualities 25 and 75, first luma entry of the sample
matrices. -/
theorem C20_strength_monotone_witness :
    (25 : Int) ≤ 75 ∧ QToQFactor 75 ≤ QToQFactor 25 ∧
    SjpegQuantMatrix sampleMatrices 75 false 0 ≤ SjpegQuantMatrix sampleMatrices 25 false 0 :=
  ⟨by decide,
    (C20_strength_monotone sampleMatrices false 25 75 (by decide) 0).1,
    (C20_strength_monotone sampleMatrices false 25 75 (by decide) 0).2.1⟩

/-! ## Quantizer locator: count, views and their bounds -/

/-- C12: for every buffer and size (a null buffer, or a buffer that holds at
least `size` bytes), with `es` the table entries visited by the call: the
count returned by `SjpegFindQuantizer` is the number of distinct ids among
0, 1, 2 carried by the visited entries, so it is between 0 and 3; the luma
view is non-null exactly when an id-0 entry was visited and the chroma view
exactly when an id-1 entry was visited; the count is the sum of the three
indicators; and the result is unchanged when the entries with any other id are
dropped. -/
theorem C12_count_and_views (src : Option (List Byte)) (size : Nat)
    (hvalid : ∀ buf, src = some buf → size ≤ buf.length) :
    ∃ es count luma chroma,
      visitedEntries src size = some es ∧
      SjpegFindQuantizer src size = some (count, luma, chroma) ∧
      count = ((([0, 1, 2] : List Nat).filter fun t => decide (t ∈ es.map Prod.snd)).length : Int) ∧
      0 ≤ count ∧ count ≤ 3 ∧
      (luma.isSome ↔ 0 ∈ es.map Prod.snd) ∧
      (chroma.isSome ↔ 1 ∈ es.map Prod.snd) ∧
      count = (if luma.isSome then 1 else 0) + (if chroma.isSome then 1 else 0)
                + (if 2 ∈ es.map Prod.snd then 1 else 0) ∧
      (count, luma, chroma)
        = quantResult ((es.filter fun e => decide (e.2 < 3)).foldl applyEntry ⟨none, none, 0⟩) := by
  have hes : ∃ es, visitedEntries src size = some es := by
    cases src with
    | none => exact ⟨[], rfl⟩
    | some buf => exact visitedEntries_total buf size (hvalid buf rfl)
  obtain ⟨es, hes⟩ := hes
  have hr := SjpegFindQuantizer_eq_entries src size
  rw [hes, Option.map_some'] at hr
  obtain ⟨f1, f2, f3, f4, f5, f6, -, -⟩ :=
    foldl_applyEntry_spec es ⟨none, none, 0⟩ (by decide)
  have hmem : ∀ t : Nat, (∃ e ∈ es, e.2 = t) ↔ t ∈ es.map Prod.snd := by
    intro t
    simp only [List.mem_map]
  have g2 : (List.foldl applyEntry ⟨none, none, 0⟩ es).nb_comp &&& 1 ≠ 0 ↔ 0 ∈ es.map Prod.snd := by
    rw [f2, hmem]
    simp
  have g3 : (List.foldl applyEntry ⟨none, none, 0⟩ es).nb_comp &&& 2 ≠ 0 ↔ 1 ∈ es.map Prod.snd := by
    rw [f3, hmem]
    simp
  have g4 : (List.foldl applyEntry ⟨none, none, 0⟩ es).nb_comp &&& 4 ≠ 0 ↔ 2 ∈ es.map Prod.snd := by
    rw [f4, hmem]
    simp
  have g5 : (List.foldl applyEntry ⟨none, none, 0⟩ es).quant0.isSome ↔ 0 ∈ es.map Prod.snd := by
    rw [f5, hmem]
    simp
  have g6 : (List.foldl applyEntry ⟨none, none, 0⟩ es).quant1.isSome ↔ 1 ∈ es.map Prod.snd := by
    rw [f6, hmem]
    simp
  have hcount := count_eq_filter (es.map Prod.snd) _ g2 g3 g4
  refine ⟨es, _, _, _, hes, hr, hcount, ?_, ?_, g5, g6, ?_, ?_⟩
  · rw [hcount]
    exact Int.natCast_nonneg _
  · rw [hcount]
    have hl := List.length_filter_le (fun t => decide (t ∈ es.map Prod.snd)) ([0, 1, 2] : List Nat)
    simp only [List.length_cons, List.length_nil] at hl
    omega
  · simp only [Bool.if_true_left, g2, g3, g4]
    by_cases a : 0 ∈ es.map Prod.snd <;> by_cases b : 1 ∈ es.map Prod.snd <;>
      simp [g5.mpr, g6.mpr, a, b, Option.isSome_iff_ne_none, ← Option.not_isSome_iff_eq_none,
        g5, g6]
  · rw [← foldl_applyEntry_filter]
    rfl

/-- C12, witness: the sample buffer with an id-0 and an id-1 table. -/
theorem C12_count_and_views_witness :
    (∀ buf, some sampleTables = some buf → 148 ≤ buf.length) ∧
    ∃ es count luma chroma,
      visitedEntries (some sampleTables) 148 = some es ∧
      SjpegFindQuantizer (some sampleTables) 148 = some (count, luma, chroma) ∧
      count = ((([0, 1, 2] : List Nat).filter fun t => decide (t ∈ es.map Prod.snd)).length : Int) :=
  have hv : ∀ buf, some sampleTables = some buf → 148 ≤ buf.length := by
    intro buf h
    cases h
    decide!
  ⟨hv, (C12_count_and_views (some sampleTables) 148 hv).imp fun _ h =>
    h.imp fun _ h => h.imp fun _ h => h.imp fun _ h => ⟨h.1, h.2.1, h.2.2.1⟩⟩

/-- C18: each non-null view returned by `SjpegFindQuantizer` starts at an
offset `p` with `7 ≤ p` and `p + 64 ≤ size - 8`, inside a quantization-table
segment (marker FF DB at `s`, length `len`) whose end `s + 2 + len` is at or
before `size - 8`; the byte at `p - 1` has low nibble 0 for the luma view and
1 for the chroma view.  A segment whose end would pass `size - 8` ends the
scan and leaves the results as they are. -/
theorem C18_views_inside_buffer (buf : List Byte) (size : Nat) (count : Int)
    (luma chroma : Option Nat)
    (h : SjpegFindQuantizer (some buf) size = some (count, luma, chroma)) :
    (∀ p, luma = some p →
      7 ≤ p ∧ (p : Int) + 64 ≤ (size : Int) - 8 ∧ byteAt buf (p - 1) &&& 0x0f = 0 ∧
      ∃ s len : Nat, byteAt buf s = 0xff ∧ byteAt buf (s + 1) = 0xdb ∧
        len = byteAt buf (s + 2) * 256 + byteAt buf (s + 3) ∧
        ((s + 2 + len : Nat) : Int) ≤ (size : Int) - 8 ∧ s + 5 ≤ p ∧ p + 64 ≤ s + 2 + len) ∧
    (∀ p, chroma = some p →
      7 ≤ p ∧ (p : Int) + 64 ≤ (size : Int) - 8 ∧ byteAt buf (p - 1) &&& 0x0f = 1 ∧
      ∃ s len : Nat, byteAt buf s = 0xff ∧ byteAt buf (s + 1) = 0xdb ∧
        len = byteAt buf (s + 2) * 256 + byteAt buf (s + 3) ∧
        ((s + 2 + len : Nat) : Int) ≤ (size : Int) - 8 ∧ s + 5 ≤ p ∧ p + 64 ≤ s + 2 + len) ∧
    (∀ (fuel src : Nat) (st : QuantState), (src : Int) < (size : Int) - 8 →
      src + 3 < buf.length →
      ((src + 2 + (byteAt buf (src + 2) * 256 + byteAt buf (src + 3)) : Nat) : Int)
        > (size : Int) - 8 →
      quantLoop buf ((size : Int) - 8) (fuel + 1) src st = some st) := by
  rw [SjpegFindQuantizer_eq_entries] at h
  cases hes : visitedEntries (some buf) size with
  | none => simp [hes] at h
  | some es =>
    simp only [hes, Option.map_some', Option.some.injEq, quantResult, Prod.mk.injEq] at h
    obtain ⟨-, hl, hc⟩ := h
    obtain ⟨-, -, -, -, -, -, f7, f8⟩ := foldl_applyEntry_spec es ⟨none, none, 0⟩ (by decide)
    have hb := visitedEntries_bounds buf size es hes
    refine ⟨?_, ?_, fun fuel src st h1 h2 h3 => quantLoop_overflow buf _ fuel src st h1 h2 h3⟩
    · intro p hp
      rw [← hl] at hp
      rcases f7 p hp with a | ⟨e, he, e0, rfl⟩
      · cases a
      · obtain ⟨s, len, s2, m0, m1, hlen, hend, lo, hi, hid⟩ := hb e he
        rw [e0] at hid
        exact ⟨by omega, by omega, by rw [Nat.add_sub_cancel]; exact hid,
          s, len, m0, m1, hlen, hend, by omega, by omega⟩
    · intro p hp
      rw [← hc] at hp
      rcases f8 p hp with a | ⟨e, he, e1, rfl⟩
      · cases a
      · obtain ⟨s, len, s2, m0, m1, hlen, hend, lo, hi, hid⟩ := hb e he
        rw [e1] at hid
        exact ⟨by omega, by omega, by rw [Nat.add_sub_cancel]; exact hid,
          s, len, m0, m1, hlen, hend, by omega, by omega⟩

/-- C18, witness: the sample buffer; the luma view starts at offset 7 and the
chroma view at offset 76. -/
theorem C18_views_inside_buffer_witness :
    SjpegFindQuantizer (some sampleTables) 148 = some (2, some 7, some 76) ∧
    (7 ≤ 7 ∧ ((7 : Nat) : Int) + 64 ≤ ((148 : Nat) : Int) - 8 ∧
      byteAt sampleTables (7 - 1) &&& 0x0f = 0) ∧
    (7 ≤ 76 ∧ ((76 : Nat) : Int) + 64 ≤ ((148 : Nat) : Int) - 8 ∧
      byteAt sampleTables (76 - 1) &&& 0x0f = 1) :=
  have h : SjpegFindQuantizer (some sampleTables) 148 = some (2, some 7, some 76) := by
    decide!
  ⟨h,
    ⟨((C18_views_inside_buffer sampleTables 148 2 (some 7) (some 76) h).1 7 rfl).1,
     ((C18_views_inside_buffer sampleTables 148 2 (some 7) (some 76) h).1 7 rfl).2.1,
     ((C18_views_inside_buffer sampleTables 148 2 (some 7) (some 76) h).1 7 rfl).2.2.1⟩,
    ⟨((C18_views_inside_buffer sampleTables 148 2 (some 7) (some 76) h).2.1 76 rfl).1,
     ((C18_views_inside_buffer sampleTables 148 2 (some 7) (some 76) h).2.1 76 rfl).2.1,
     ((C18_views_inside_buffer sampleTables 148 2 (some 7) (some 76) h).2.1 76 rfl).2.2.1⟩⟩

/-- C11 (as stated, refuted): two buffers that begin with the start-of-image
marker followed by two quantization-table segments with table id 0.  When
nothing follows the second segment (140 bytes), that segment ends after
`size - 8` and is not used: the luma view is onto the first segment (offset 7,
not 76).  When a third segment with table id 1 and 64 more bytes follow, the
chroma view is not empty and the count is 2. -/
theorem C11_second_table_not_always_returned :
    SjpegFindQuantizer
      (some (twoTables 0 (List.replicate 64 5) 0 (List.replicate 64 7) [])) 140
      = some (1, some 7, none) ∧
    SjpegFindQuantizer
      (some (twoTables 0 (List.replicate 64 5) 0 (List.replicate 64 7)
        (dqtSegment 1 (List.replicate 64 9) ++ List.replicate 64 0))) 273
      = some (2, some 76, some 145) := by
  decide!

/-- C11 (amended): for every buffer that begins with the start-of-image marker
followed by two quantization-table segments (FF DB, length 67), each carrying
one 65-byte entry with table id 0, in which at least 8 bytes follow the second
segment and no table entry with id 0, 1 or 2 is visited after the second
segment (`es` being the visited entries, none at an offset from 140 on has
such an id), `SjpegFindQuantizer` returns count 1, an empty chroma view and a
luma view at offset 76, onto the 64 coefficient bytes of the second segment. -/
theorem C11_last_table_wins (t1 t2 : Byte) (c1 c2 rest : List Byte) (es : List (Nat × Nat))
    (h1 : c1.length = 64) (h2 : c2.length = 64)
    (ht1 : t1.val &&& 0x0f = 0) (ht2 : t2.val &&& 0x0f = 0)
    (hrest : 8 ≤ rest.length)
    (hes : visitedEntries (some (twoTables t1 c1 t2 c2 rest)) (twoTables t1 c1 t2 c2 rest).length
      = some es)
    (hlater : ∀ e ∈ es, 140 ≤ e.1 → 3 ≤ e.2) :
    SjpegFindQuantizer (some (twoTables t1 c1 t2 c2 rest)) (twoTables t1 c1 t2 c2 rest).length
      = some (1, some 76, none) ∧
    ((twoTables t1 c1 t2 c2 rest).drop 76).take 64 = c2 := by
  obtain ⟨-, -, -, -, -, -, -, -, -, -, -, -, -, -, hview⟩ :=
    twoTables_reads t1 c1 t2 c2 rest h1 h2
  refine ⟨?_, hview⟩
  obtain ⟨later, hsplit, hge⟩ :=
    visitedEntries_twoTables t1 c1 t2 c2 rest h1 h2 hrest es hes
  have hdrop : later.filter (fun e => decide (e.2 < 3)) = [] := by
    rw [List.filter_eq_nil_iff]
    intro e he
    have hmem : e ∈ es := by
      rw [hsplit]
      exact List.mem_cons_of_mem _ (List.mem_cons_of_mem _ he)
    have h3 := hlater e hmem (by have := hge e he; omega)
    simp only [decide_eq_true_eq]
    omega
  rw [SjpegFindQuantizer_eq_entries, hes, Option.map_some', foldl_applyEntry_filter, hsplit,
    ht1, ht2, List.filter_cons_of_pos (by decide), List.filter_cons_of_pos (by decide), hdrop]
  rfl

/-- C11 (amended), witness: coefficients all 5 and all 7, followed by a table
with id 3 (visited at offset 144 and ignored) and 8 zero bytes. -/
theorem C11_last_table_wins_witness :
    visitedEntries
      (some (twoTables 0 (List.replicate 64 5) 0 (List.replicate 64 7)
        (dqtSegment 3 (List.replicate 64 9) ++ List.replicate 8 0)))
      (twoTables 0 (List.replicate 64 5) 0 (List.replicate 64 7)
        (dqtSegment 3 (List.replicate 64 9) ++ List.replicate 8 0)).length
      = some [(6, 0), (75, 0), (144, 3)] ∧
    SjpegFindQuantizer
      (some (twoTables 0 (List.replicate 64 5) 0 (List.replicate 64 7)
        (dqtSegment 3 (List.replicate 64 9) ++ List.replicate 8 0)))
      (twoTables 0 (List.replicate 64 5) 0 (List.replicate 64 7)
        (dqtSegment 3 (List.replicate 64 9) ++ List.replicate 8 0)).length
      = some (1, some 76, none) ∧
    ((twoTables 0 (List.replicate 64 5) 0 (List.replicate 64 7)
        (dqtSegment 3 (List.replicate 64 9) ++ List.replicate 8 0)).drop 76).take 64
      = List.replicate 64 7 :=
  have hes : visitedEntries
      (some (twoTables 0 (List.replicate 64 5) 0 (List.replicate 64 7)
        (dqtSegment 3 (List.replicate 64 9) ++ List.replicate 8 0)))
      (twoTables 0 (List.replicate 64 5) 0 (List.replicate 64 7)
        (dqtSegment 3 (List.replicate 64 9) ++ List.replicate 8 0)).length
      = some [(6, 0), (75, 0), (144, 3)] := by
    decide!
  ⟨hes,
    C11_last_table_wins 0 0 (List.replicate 64 5) (List.replicate 64 7)
      (dqtSegment 3 (List.replicate 64 9) ++ List.replicate 8 0) [(6, 0), (75, 0), (144, 3)]
      (by decide!) (by decide!) (by decide) (by decide) (by decide!) hes (by decide)⟩

/-- C17: if the segment walk of `SjpegFindQuantizer` over `buf1` examines a
scan-start marker FF DA at offset `p`, then that is the last marker it
examines, and for every buffer `buf2` of the same size that agrees with `buf1`
on every byte up to and including the two bytes of that marker, the call
returns the same count and the same views, whatever the bytes after the
marker are. -/
theorem C17_stops_at_scan_start (buf1 buf2 : List Byte) (size p : Nat) (ps : List Nat)
    (hlen2 : size ≤ buf2.length)
    (hwalk : visitedMarkers (some buf1) size = some ps) (hp : p ∈ ps)
    (m0 : buf1[p]? = some 0xff) (m1 : buf1[p + 1]? = some 0xda)
    (hagree : ∀ i, i < p + 2 → buf1[i]? = buf2[i]?) :
    ps.getLast? = some p ∧
    SjpegFindQuantizer (some buf1) size = SjpegFindQuantizer (some buf2) size := by
  unfold visitedMarkers at hwalk
  simp only at hwalk
  have hnil : ∀ l : List Nat, some ([] : List Nat) = some l → p ∈ l → False := by
    intro l hl hpl
    simp only [Option.some.injEq] at hl
    subst hl
    cases hpl
  by_cases h1 : size < 69
  · rw [if_pos h1] at hwalk
    exact (hnil ps hwalk hp).elim
  · rw [if_neg h1] at hwalk
    cases hb0 : buf1[0]? with
    | none => simp [hb0] at hwalk
    | some b0 =>
      simp only [hb0] at hwalk
      by_cases h2 : b0.val ≠ 0xff
      · rw [if_pos h2] at hwalk
        exact (hnil ps hwalk hp).elim
      · rw [if_neg h2] at hwalk
        cases hb1 : buf1[1]? with
        | none => simp [hb1] at hwalk
        | some b1 =>
          simp only [hb1] at hwalk
          by_cases h3 : b1.val ≠ 0xd8
          · rw [if_pos h3] at hwalk
            exact (hnil ps hwalk hp).elim
          · rw [if_neg h3] at hwalk
            cases hs : skipToFF buf1 ((size : Int) - 8) (size + 1) 2 with
            | none => simp [hs] at hwalk
            | some p0 =>
              simp only [hs] at hwalk
              obtain ⟨hge, hlt⟩ := quantWalk_bounds _ _ _ _ _ hwalk p hp
              have h2p := skipToFF_ge _ _ _ _ _ hs
              have e0 : b0 = 0xff := Fin.ext (not_not.mp h2)
              have e1 : b1 = 0xd8 := Fin.ext (not_not.mp h3)
              subst e0 e1
              have a0 := hagree 0 (by omega)
              have a1 := hagree 1 (by omega)
              rw [hb0] at a0
              rw [hb1] at a1
              have hs2 := skipToFF_agree buf1 buf2 _ _ _ _ hs (fun i hi => hagree i (by omega))
              obtain ⟨hlast, hq⟩ := quantLoop_agree buf1 buf2 _ _ _ p ps ⟨none, none, 0⟩ hwalk hp
                m0 m1 hagree (by omega)
              refine ⟨hlast, ?_⟩
              rw [SjpegFindQuantizer_run buf1 size p0 h1 hb0 hb1 hs,
                SjpegFindQuantizer_run buf2 size p0 h1 a0.symm a1.symm hs2, hq]

/-- C17, witness: a table with id 0, a scan-start marker at offset 71, and
then either zeros or a table with id 1 that is not looked at. -/
theorem C17_stops_at_scan_start_witness :
    visitedMarkers (some ([0xff, 0xd8] ++ dqtSegment 0 (List.replicate 64 5)
      ++ [0xff, 0xda, 0x00, 0x02] ++ List.replicate 80 0)) 155 = some [2, 71] ∧
    SjpegFindQuantizer (some ([0xff, 0xd8] ++ dqtSegment 0 (List.replicate 64 5)
      ++ [0xff, 0xda, 0x00, 0x02] ++ List.replicate 80 0)) 155
    = SjpegFindQuantizer (some ([0xff, 0xd8] ++ dqtSegment 0 (List.replicate 64 5)
      ++ [0xff, 0xda, 0x00, 0x02] ++ dqtSegment 1 (List.replicate 64 9)
      ++ List.replicate 11 0)) 155 :=
  have hw : visitedMarkers (some ([0xff, 0xd8] ++ dqtSegment 0 (List.replicate 64 5)
      ++ [0xff, 0xda, 0x00, 0x02] ++ List.replicate 80 0)) 155 = some [2, 71] := by
    decide!
  ⟨hw,
    (C17_stops_at_scan_start
      ([0xff, 0xd8] ++ dqtSegment 0 (List.replicate 64 5)
        ++ [0xff, 0xda, 0x00, 0x02] ++ List.replicate 80 0)
      ([0xff, 0xd8] ++ dqtSegment 0 (List.replicate 64 5)
        ++ [0xff, 0xda, 0x00, 0x02] ++ dqtSegment 1 (List.replicate 64 9)
        ++ List.replicate 11 0)
      155 71 [2, 71] (by decide!) hw (by decide) (by decide!) (by decide!)
      (by decide!)).2⟩

/-- C13 (as stated, refuted): two marker streams cut inside the length field
of their last segment.  In the first, a complete frame-header segment
precedes the cut and `SjpegDimensions` succeeds (1920 x 1080); in the second, a
complete quantization-table segment (and an application segment) precede the
cut and `SjpegFindQuantizer` returns count 1 with a luma view. -/
theorem C13_complete_segments_are_parsed :
    SjpegDimensions
      (some (truncatedStream [⟨0xc0, [8, 4, 56, 7, 128, 3, 1, 0x22, 0, 2, 0x11, 1, 3, 0x11, 1]⟩]
        0xdb [0])) 24 ⟨some 0, some 0, some 0⟩
      = some (true, ⟨some 1920, some 1080, some 1⟩) ∧
    SjpegFindQuantizer
      (some (truncatedStream [⟨0xdb, 0 :: List.replicate 64 3⟩, ⟨0xe0, [1, 2]⟩] 0xc0 [0])) 80
      = some (1, some 7, none) := by
  decide!

/-- C13 (amended): for every marker stream cut inside the length field of a
segment (the start-of-image marker, complete segments, a 2-byte marker code
and at most one byte of its length field): if none of the complete segments
is a frame header (FF C0 or FF C1), `SjpegDimensions` reports failure and
leaves its outputs as they were; if none of them is a quantization table
(FF DB), `SjpegFindQuantizer` reports count 0 with both views empty. -/
theorem C13_truncated_length_field (segs : List Segment) (m : Byte) (tail : List Byte)
    (out : DimOutputs) (hwf : ∀ s ∈ segs, s.payload.length + 2 ≤ 65535)
    (htail : tail.length ≤ 1) :
    ((∀ s ∈ segs, s.marker ≠ 0xc0 ∧ s.marker ≠ 0xc1) →
      SjpegDimensions (some (truncatedStream segs m tail)) (truncatedStream segs m tail).length out
        = some (false, out)) ∧
    ((∀ s ∈ segs, s.marker ≠ 0xdb) →
      SjpegFindQuantizer (some (truncatedStream segs m tail)) (truncatedStream segs m tail).length
        = some (0, none, none)) := by
  obtain ⟨hl, r0, r1, r2⟩ := truncatedStream_facts segs m tail
  have hff : ¬ ((0xff : Byte).val ≠ 0xff) := by decide
  constructor
  · intro hsof
    have hle := toInt32_le (truncatedStream segs m tail).length
    have hskip : skipToFF (truncatedStream segs m tail)
        (toInt32 (truncatedStream segs m tail).length - 8)
        ((toInt32 (truncatedStream segs m tail).length).toNat + 1) 2 = some 2 := by
      rw [skipToFF]
      split_ifs
      · simp only [r2, if_neg hff]
      · rfl
    obtain ⟨r, hr⟩ := GetSOFData_total (truncatedStream segs m tail)
      (toInt32 (truncatedStream segs m tail).length) hle
    have hnone : r = none := by
      cases r with
      | none => rfl
      | some o =>
        exfalso
        unfold GetSOFData at hr
        simp only [hskip] at hr
        exact sofLoop_segments _ _ [0xff, 0xd8] ([0xff, m] ++ tail) segs _ 2 o rfl rfl
          (fun s hs => ⟨hwf s hs, hsof s hs⟩)
          (by simp only [List.length_cons, List.length_nil]; omega) hr
    subst hnone
    obtain ⟨w, h, y⟩ := out
    cases w with
    | none => exact SjpegDimensions_null_out _ _ _ (Or.inl rfl)
    | some w0 =>
      cases h with
      | none => exact SjpegDimensions_null_out _ _ _ (Or.inr rfl)
      | some h0 => exact SjpegDimensions_not_found _ _ w0 h0 y hr
  · intro hdqt
    by_cases hsize : (truncatedStream segs m tail).length < 69
    · exact SjpegFindQuantizer_small _ _ hsize
    · have hskip : skipToFF (truncatedStream segs m tail)
          (((truncatedStream segs m tail).length : Int) - 8)
          ((truncatedStream segs m tail).length + 1) 2 = some 2 := by
        rw [skipToFF, if_pos (by omega)]
        simp only [r2, if_neg hff]
      rw [SjpegFindQuantizer_run _ _ 2 hsize r0 r1 hskip]
      obtain ⟨st', hst⟩ := quantLoop_total (truncatedStream segs m tail)
        (((truncatedStream segs m tail).length : Int) - 8) (by omega)
        ((truncatedStream segs m tail).length + 1) 2 ⟨none, none, 0⟩ (by omega)
      have hsame := quantLoop_segments _ _ [0xff, 0xd8] ([0xff, m] ++ tail) segs _ 2 _ _ rfl rfl
        (fun s hs => ⟨hwf s hs, hdqt s hs⟩)
        (by simp only [List.length_cons, List.length_nil]; omega) hst
      rw [hst, hsame]
      rfl

/-- C13 (amended), witness: an application segment, then FF DB and one byte. -/
theorem C13_truncated_length_field_witness :
    SjpegDimensions (some (truncatedStream [⟨0xe0, [1, 2]⟩] 0xdb [0]))
      (truncatedStream [⟨0xe0, [1, 2]⟩] 0xdb [0]).length ⟨some 5, some 6, some 7⟩
      = some (false, ⟨some 5, some 6, some 7⟩) ∧
    SjpegFindQuantizer (some (truncatedStream [⟨0xe0, [1, 2]⟩] 0xdb [0]))
      (truncatedStream [⟨0xe0, [1, 2]⟩] 0xdb [0]).length = some (0, none, none) :=
  ⟨(C13_truncated_length_field [⟨0xe0, [1, 2]⟩] 0xdb [0] ⟨some 5, some 6, some 7⟩
      (by decide) (by decide)).1 (by decide),
    (C13_truncated_length_field [⟨0xe0, [1, 2]⟩] 0xdb [0] ⟨some 5, some 6, some 7⟩
      (by decide) (by decide)).2 (by decide)⟩

/-! ## Riskiness scoring -/

/-- C14 (the code departs from the claim): on the sample block, with the
output array holding -1 before the call, `SjpegDCTRiskinessScore` leaves
`scores[63]` at -1 although the sub-score of position (7, 7) is 11, and it
leaves in `scores[0 + 8 * 1]` the value 13, the sub-score of position (1, 1),
although the sub-score of position (0, 1) is 11: the store uses
`scores[I + J * 7]`. -/
theorem C14_output_has_stride_seven :
    (SjpegDCTRiskinessScore sampleSharpness 4 sampleBlock (fun _ => -1)).2 63 = -1 ∧
    clampedSubScore sampleSharpness 4 sampleBlock 7 7 = 11 ∧
    (SjpegDCTRiskinessScore sampleSharpness 4 sampleBlock (fun _ => -1)).2 (0 + 8 * 1) = 13 ∧
    clampedSubScore sampleSharpness 4 sampleBlock 1 1 = 13 ∧
    clampedSubScore sampleSharpness 4 sampleBlock 0 1 = 11 := by
  decide

/-- C15 (the code departs from the claim): on an image of 65537 x 65537
pixels in which only the 65536 pixels scored for the first row are above the
noise level (fewer than 1% of the `width * height` pixels), the product
`width * height` of two `int`s is reduced to 131073, the fraction computed
from it is not below 1, and `SjpegRiskiness` keeps the average: it gives the
score 100 and the recommendation 3, where the claim asks for the score 0 and
the recommendation 1. -/
theorem C15_large_image_keeps_score :
    wrapInt32 (65537 * 65537) = 131073 ∧
    keptPixels twoLevelTable 2
      (fun j => sampleRowFunc (fun a => firstRowImage (a + (j : Int) * 196611)) 65537)
      65537 65537 = 65536 ∧
    100 * keptPixels twoLevelTable 2
      (fun j => sampleRowFunc (fun a => firstRowImage (a + (j : Int) * 196611)) 65537)
      65537 65537 < 65537 * 65537 ∧
    SjpegRiskiness twoLevelTable 2 sampleRowFunc firstRowImage 65537 65537 196611 = (3, 100) := by
  refine ⟨?_, firstRowImage_keptPixels, ?_, firstRowImage_result⟩
  · unfold wrapInt32
    norm_num
  · rw [firstRowImage_keptPixels]
    norm_num
end Sjpeg
